import Mathlib

/-!
The go-balancer package: round robin and smooth weighted round robin.

A shallow embedding of `src/balancer/balancer.go`.

Conventions of the embedding.

* Go `int` values (`weight`, `current`, `next`, `algor`, `total`, `max`) are
  integers (`Int`); `int` is taken as the 64-bit two's-complement type, and
  every addition and subtraction of the weighted strategy is reduced to its
  range by `wrapInt`, as the machine does. The cursor arithmetic of `getNext`
  is only reached with `n < len(cluster)`, where `n + 1` cannot overflow.
* `RoundRobinCluster` (`[]*RoundRobinEndpoint`) is a `List RoundRobinEndpoint`;
  the entries built by `NewRoundRobinBalancer` are pairwise distinct objects,
  so a pointer to the entry at position `i` (or to its `Endpoint`) is
  represented by the index `i`.
* The mutex is not modelled: every function below is one critical section,
  executed sequentially.
* A call returns the balancer after the call together with a `GetResult`.
-/

namespace Balancer

/-- Constant `RoundRobinBasic`. -/
def RoundRobinBasic : Int := 0

/-- Constant `WeightedRoundRobinSmooth`. -/
def WeightedRoundRobinSmooth : Int := 1

/-- Struct `EndpointConfig`. -/
structure EndpointConfig where
  Name : String
  Addr : String
  Weight : Int
  deriving DecidableEq, Repr

/-- Struct `BalancerConfig`. -/
structure BalancerConfig where
  Algor : String
  Endpoints : List EndpointConfig
  deriving DecidableEq, Repr

/-- Struct `Endpoint`. -/
structure Endpoint where
  Name : String
  Addr : String
  deriving DecidableEq, Repr

/-- Method `Endpoint.Available`: the body is `return true`. -/
def Endpoint.Available (_e : Endpoint) : Bool := true

/-- Struct `RoundRobinEndpoint`. -/
structure RoundRobinEndpoint where
  weight : Int
  current : Int
  endpoint : Endpoint
  deriving DecidableEq, Repr

/-- Type `RoundRobinCluster`. -/
abbrev RoundRobinCluster := List RoundRobinEndpoint

/-- Struct `RoundRobinBalancer` (without the embedded mutex). -/
structure RoundRobinBalancer where
  algor : Int
  cluster : RoundRobinCluster
  next : Int
  deriving DecidableEq, Repr

/-- What a call of `Get` produces.
* `ok idx e`: `(endpoint, nil)`, where the returned pointer is the `Endpoint`
  of the cluster entry at position `idx` and `e` is the value it points to;
* `error msg`: `(nil, fmt.Errorf(msg))`;
* `panic`: a run-time panic (slice index out of range);
* `diverges`: the scan loop did not leave within the iteration bound given to
  the model. -/
inductive GetResult where
  | ok (idx : Nat) (e : Endpoint)
  | error (msg : String)
  | panic
  | diverges
  deriving DecidableEq, Repr

/-- Function `NewRoundRobinBalancer`: one entry per configured endpoint, in
order, with `current` and `next` left at their zero value. -/
def NewRoundRobinBalancer (config : BalancerConfig) : RoundRobinBalancer :=
  let rrEndpoints : List RoundRobinEndpoint :=
    config.Endpoints.map fun c =>
      { weight := c.Weight, current := 0, endpoint := { Name := c.Name, Addr := c.Addr } }
  let algor : Int :=
    if config.Algor = "round_robin" then RoundRobinBasic
    else if config.Algor = "weighted_round_robin" then WeightedRoundRobinSmooth
    else WeightedRoundRobinSmooth
  { algor := algor, cluster := rrEndpoints, next := 0 }

/-- Function `getNext`. -/
def getNext (n : Int) (length : Int) : Int :=
  if n + 1 ≥ length then 0 else n + 1

/-- Slice indexing `cluster[i]` with a Go `int` index: `none` stands for the
index-out-of-range panic. -/
def index (cluster : RoundRobinCluster) (i : Int) : Option RoundRobinEndpoint :=
  if i < 0 then none else cluster[i.toNat]?

/-- How the `for` loop of `getByRoundRobin` is left. -/
inductive ScanResult where
  | found (next : Int) (endpoint : Endpoint)
  | allUnavailable
  | indexPanic
  deriving DecidableEq, Repr

/-- The `for { ... }` loop of `getByRoundRobin`, one iteration per unit of
fuel; `start` is `b.next`, `next` the loop variable. `none`: the fuel ran out
before the loop was left. -/
def rrLoop (cluster : RoundRobinCluster) (start : Int) : Nat → Int → Option ScanResult
  | 0, _ => none
  | fuel + 1, next =>
    match index cluster next with
    | none => some ScanResult.indexPanic
    | some endpointRR =>
      if endpointRR.weight > 0 && endpointRR.endpoint.Available then
        some (ScanResult.found next endpointRR.endpoint)
      else
        let next1 := getNext next cluster.length
        if next1 = start then some ScanResult.allUnavailable
        else rrLoop cluster start fuel next1

/-- Method `getByRoundRobin` run with a bound on the loop iterations. -/
def getByRoundRobinFuel (fuel : Nat) (b : RoundRobinBalancer) :
    RoundRobinBalancer × GetResult :=
  match rrLoop b.cluster b.next fuel b.next with
  | none => (b, GetResult.diverges)
  | some ScanResult.indexPanic => (b, GetResult.panic)
  | some ScanResult.allUnavailable => (b, GetResult.error "All endpoints unavailable")
  | some (ScanResult.found next endpoint) =>
    ({ b with next := getNext next b.cluster.length }, GetResult.ok next.toNat endpoint)

/-- Method `getByRoundRobin`. The loop is given `len(cluster) + 1` iterations,
which is all it can take (`getByRoundRobinFuel_enough`). -/
def getByRoundRobin (b : RoundRobinBalancer) : RoundRobinBalancer × GetResult :=
  getByRoundRobinFuel (b.cluster.length + 1) b

/-- The least value of a Go `int` (64 bits). -/
def minInt : Int := -(2 ^ 63)

/-- The greatest value of a Go `int` (64 bits). -/
def maxInt : Int := 2 ^ 63 - 1

/-- The value a Go `int` holds after an addition or subtraction whose exact
result is `x`: `x` reduced modulo `2^64` to the range `[minInt, maxInt]`. -/
def wrapInt (x : Int) : Int := (x + 2 ^ 63) % 2 ^ 64 - 2 ^ 63

/-- The local variables of `getByWeightedRoundRobin` after its `range` loop,
with the cluster as the loop left it. The pointer `best` is `none` for `nil`,
and otherwise the position of the entry it refers to together with the
`endpoint` field of that entry (a field no statement assigns to). -/
structure WeightedScan where
  cluster : RoundRobinCluster
  best : Option (Nat × Endpoint)
  total : Int
  max : Int
  deriving DecidableEq, Repr

/-- The `range` loop of `getByWeightedRoundRobin` over the entries from
position `i` on, started with the given values of `best`, `total`, `max`. -/
def weightedLoop :
    RoundRobinCluster → Nat → Option (Nat × Endpoint) → Int → Int → WeightedScan
  | [], _, best, total, max => { cluster := [], best := best, total := total, max := max }
  | endpointRR :: rest, i, best, total, max =>
    if endpointRR.weight ≤ 0 || !endpointRR.endpoint.Available then
      let r := weightedLoop rest (i + 1) best total max
      { r with cluster := endpointRR :: r.cluster }
    else
      let pick : Bool := best.isNone || decide (endpointRR.current > max)
      let best1 := if pick then some (i, endpointRR.endpoint) else best
      let max1 := if pick then endpointRR.current else max
      let r := weightedLoop rest (i + 1) best1 (wrapInt (total + endpointRR.current)) max1
      { r with cluster :=
          { endpointRR with current := wrapInt (endpointRR.current + endpointRR.weight) }
            :: r.cluster }

/-- The statement `best.current -= total` on the entry at position `i`. -/
def subCurrent (cluster : RoundRobinCluster) (i : Nat) (total : Int) : RoundRobinCluster :=
  cluster.modify (fun e => { e with current := wrapInt (e.current - total) }) i

/-- Method `getByWeightedRoundRobin`. -/
def getByWeightedRoundRobin (b : RoundRobinBalancer) : RoundRobinBalancer × GetResult :=
  let r := weightedLoop b.cluster 0 none 0 0
  match r.best with
  | none => ({ b with cluster := r.cluster }, GetResult.error "No endpoint available")
  | some (i, endpoint) =>
    ({ b with cluster := subCurrent r.cluster i r.total }, GetResult.ok i endpoint)

/-- Method `Get`. -/
def Get (b : RoundRobinBalancer) : RoundRobinBalancer × GetResult :=
  if b.algor = RoundRobinBasic then getByRoundRobin b
  else if b.algor = WeightedRoundRobinSmooth then getByWeightedRoundRobin b
  else getByWeightedRoundRobin b

/-- The balancer after `k` consecutive calls of `Get`. -/
def afterGets : Nat → RoundRobinBalancer → RoundRobinBalancer
  | 0, b => b
  | k + 1, b => (Get (afterGets k b)).1

/-- The result of call number `k` (counted from 0) in a run of consecutive
calls of `Get`. -/
def nthGet (k : Nat) (b : RoundRobinBalancer) : GetResult :=
  (Get (afterGets k b)).2

/-- The results of the first `n` consecutive calls of `Get`. -/
def getResults (n : Nat) (b : RoundRobinBalancer) : List GetResult :=
  (List.range n).map fun k => nthGet k b

/-- The position of the entry whose endpoint a call returned, if it returned
one. -/
def GetResult.idx? : GetResult → Option Nat
  | GetResult.ok idx _ => some idx
  | _ => none

/-- How many of the calls with results `rs` returned the endpoint of the entry
at position `i`. -/
def timesReturned (i : Nat) (rs : List GetResult) : Nat :=
  (rs.map GetResult.idx?).count (some i)

/-- The name of the endpoint a call returned, if it returned one. -/
def GetResult.name? : GetResult → Option String
  | GetResult.ok _ e => some e.Name
  | _ => none

/-! ## Notions used in the statements, and example states -/

/-- The configuration of the package comment: endpoints `A:3, B:2, C:1`. -/
def exampleABC (algor : String) : BalancerConfig :=
  { Algor := algor,
    Endpoints := [⟨"A", "a:1", 3⟩, ⟨"B", "b:1", 2⟩, ⟨"C", "c:1", 1⟩] }

/-- An entry takes part in a selection when its weight is positive
(`Available` is constantly true). -/
def eligible (e : RoundRobinEndpoint) : Bool := decide (0 < e.weight)

/-- The statement `endpointRR.current += endpointRR.weight`, made for the
entries the loop does not skip. -/
def addWeight (e : RoundRobinEndpoint) : RoundRobinEndpoint :=
  if eligible e then { e with current := wrapInt (e.current + e.weight) } else e

/-- The exact counterpart of `addWeight`: `current + weight` over the integers,
not reduced to the range of `int`. It is not part of the model of the code: it
serves in proofs only, where a call is shown to agree with it when nothing
overflows (`subCurrent_map_addWeight_exact`). -/
def addWeightZ (e : RoundRobinEndpoint) : RoundRobinEndpoint :=
  if eligible e then { e with current := e.current + e.weight } else e

/-- The exact counterpart of `subCurrent`: `current - total` over the integers,
not reduced to the range of `int`. It is not part of the model of the code: it
serves in proofs only, where a call is shown to agree with it when nothing
overflows (`subCurrent_map_addWeight_exact`). -/
def subCurrentZ (cluster : RoundRobinCluster) (i : Nat) (total : Int) : RoundRobinCluster :=
  cluster.modify (fun e => { e with current := e.current - total }) i

/-- The sum of `current` over the entries of positive weight. -/
def currentTotal (cluster : RoundRobinCluster) : Int :=
  ((cluster.filter eligible).map fun e => e.current).sum

/-- A state with the entries `A:3` (current 3), `B:0` (current 7), `C:1`
(current -1): a state in the middle of a weighted run. -/
def exampleState : RoundRobinBalancer :=
  { algor := WeightedRoundRobinSmooth,
    cluster := [⟨3, 3, ⟨"A", "a:1"⟩⟩, ⟨0, 7, ⟨"B", "b:1"⟩⟩, ⟨1, -1, ⟨"C", "c:1"⟩⟩],
    next := 0 }

/-- A round-robin state: entries `A:1, B:0, C:2, D:0` with the cursor at 3. -/
def exampleCursor : RoundRobinBalancer :=
  { algor := RoundRobinBasic,
    cluster := [⟨1, 0, ⟨"A", "a:1"⟩⟩, ⟨0, 0, ⟨"B", "b:1"⟩⟩, ⟨2, 0, ⟨"C", "c:1"⟩⟩,
      ⟨0, 0, ⟨"D", "d:1"⟩⟩],
    next := 3 }

/-- A state in which no entry has a positive weight: `A:0` (current 5),
`B:-2` (current -1), with the cursor at 1. -/
def exampleAllDown (algor : Int) : RoundRobinBalancer :=
  { algor := algor,
    cluster := [⟨0, 5, ⟨"A", "a:1"⟩⟩, ⟨-2, -1, ⟨"B", "b:1"⟩⟩],
    next := 1 }

/-- What every call keeps of a state `b0`: the strategy and, position by
position, the weights and the endpoints; and the cursor is inside the cluster. -/
def KeepsConfig (b0 b : RoundRobinBalancer) : Prop :=
  b.algor = b0.algor
  ∧ b.cluster.map (fun e => e.weight) = b0.cluster.map (fun e => e.weight)
  ∧ b.cluster.map (fun e => e.endpoint) = b0.cluster.map (fun e => e.endpoint)
  ∧ 0 ≤ b.next ∧ b.next < b.cluster.length

/-- The entries of positive weight, each with its position in the cluster, in
the order of the cluster. -/
def positiveEntries (cl : RoundRobinCluster) : List (Nat × RoundRobinEndpoint) :=
  cl.enum.filter fun p => eligible p.2

/-- The number of entries of positive weight at the positions below `k`. -/
def countBefore (cl : RoundRobinCluster) (k : Nat) : Nat :=
  (cl.take k).countP eligible

/-- The configuration `A:3, B:0, C:1`. -/
def exampleSkipB (algor : String) : BalancerConfig :=
  { Algor := algor,
    Endpoints := [⟨"A", "a:1", 3⟩, ⟨"B", "b:1", 0⟩, ⟨"C", "c:1", 1⟩] }

/-- The positions at which the `for { ... }` loop of `getByRoundRobin`
evaluates `b.cluster[next]`, in the order of the iterations (same arguments as
`rrLoop`). -/
def rrVisited (cluster : RoundRobinCluster) (start : Int) : Nat → Int → List Int
  | 0, _ => []
  | fuel + 1, next =>
    next ::
      match index cluster next with
      | none => []
      | some endpointRR =>
        if endpointRR.weight > 0 && endpointRR.endpoint.Available then []
        else
          let next1 := getNext next cluster.length
          if next1 = start then []
          else rrVisited cluster start fuel next1

/-- The sum of the weights of the entries of positive weight. -/
def weightTotal (cluster : RoundRobinCluster) : Int :=
  ((cluster.filter eligible).map fun e => e.weight).sum

/-- A configuration with the single endpoint `A:3`. -/
def exampleSingle : BalancerConfig :=
  { Algor := "weighted_round_robin", Endpoints := [⟨"A", "a:1", 3⟩] }

/-- The results of the `k` calls of a run that follow the first one (calls
number 1 to `k`, counted from 0). -/
def callsAfterFirst (k : Nat) (b : RoundRobinBalancer) : List GetResult :=
  (List.range k).map fun j => nthGet (j + 1) b

/-- A configuration with two endpoints of the greatest weight an `int` holds. -/
def exampleMax : BalancerConfig :=
  { Algor := "weighted_round_robin",
    Endpoints := [⟨"A", "a:1", 9223372036854775807⟩, ⟨"B", "b:1", 9223372036854775807⟩] }

/-- A configuration with two endpoints of weight `2^62`. -/
def exampleHalf : BalancerConfig :=
  { Algor := "weighted_round_robin",
    Endpoints := [⟨"A", "a:1", 4611686018427387904⟩, ⟨"B", "b:1", 4611686018427387904⟩] }

/-- The width condition of the weighted strategy: an `int` holds `n * W + weight`
for every entry, where `W` is the sum of the positive weights and `n` the
number of entries of positive weight. -/
def FitsInt (cluster : RoundRobinCluster) : Prop :=
  ∀ e ∈ cluster, (cluster.countP eligible : Int) * weightTotal cluster + e.weight ≤ maxInt

/-! ## The worked example and the first calls of the weighted strategy -/

/-- C1, evaluated: on the configuration `A:3, B:2, C:1` with the weighted
algorithm, the first six calls of `Get` return `A, A, B, A, C, B`, which is not
the sequence `A, B, A, C, A, B`. -/
theorem weighted_example_trace :
    (getResults 6 (NewRoundRobinBalancer (exampleABC "weighted_round_robin"))).map
        GetResult.name?
      = [some "A", some "A", some "B", some "A", some "C", some "B"]
    ∧ (getResults 6 (NewRoundRobinBalancer (exampleABC "weighted_round_robin"))).map
        GetResult.name?
      ≠ [some "A", some "B", some "A", some "C", some "A", some "B"] := by
  decide

/-- C2, evaluated: on a fresh selector with weights `A=1, B=2` the first
weighted call returns `A` (position 0), although after the increments of that
call `B` holds the greater `current` (2 against 1): the comparison is made on
the values before the increment. -/
theorem weighted_first_call_returns_first :
    (Get (NewRoundRobinBalancer ⟨"weighted_round_robin", [⟨"A", "a:1", 1⟩, ⟨"B", "b:1", 2⟩]⟩)).2
      = GetResult.ok 0 ⟨"A", "a:1"⟩
    ∧ (weightedLoop
        (NewRoundRobinBalancer
          ⟨"weighted_round_robin", [⟨"A", "a:1", 1⟩, ⟨"B", "b:1", 2⟩]⟩).cluster
        0 none 0 0).cluster.map (fun e => e.current) = [1, 2] := by
  decide

/-- C3, evaluated: with weights `[1, 1]` the first two weighted calls both
return position 0, so position 1 is returned 0 times in that window of
`W = 2` calls; with weights `[1, 2]` the first three calls return positions
`0, 1, 0`, so position 0 is returned twice and position 1 once. -/
theorem weighted_first_window_not_proportional :
    (getResults 2 (NewRoundRobinBalancer
        ⟨"weighted_round_robin", [⟨"A", "a:1", 1⟩, ⟨"B", "b:1", 1⟩]⟩)).map GetResult.idx?
      = [some 0, some 0]
    ∧ timesReturned 1 (getResults 2 (NewRoundRobinBalancer
        ⟨"weighted_round_robin", [⟨"A", "a:1", 1⟩, ⟨"B", "b:1", 1⟩]⟩)) = 0
    ∧ (getResults 3 (NewRoundRobinBalancer
        ⟨"weighted_round_robin", [⟨"A", "a:1", 1⟩, ⟨"B", "b:1", 2⟩]⟩)).map GetResult.idx?
      = [some 0, some 1, some 0]
    ∧ timesReturned 0 (getResults 3 (NewRoundRobinBalancer
        ⟨"weighted_round_robin", [⟨"A", "a:1", 1⟩, ⟨"B", "b:1", 2⟩]⟩)) = 2
    ∧ timesReturned 1 (getResults 3 (NewRoundRobinBalancer
        ⟨"weighted_round_robin", [⟨"A", "a:1", 1⟩, ⟨"B", "b:1", 2⟩]⟩)) = 1 := by
  decide

/-- C6, evaluated: on a configuration without endpoints the weighted strategy
returns an error and leaves the state as it was, while the round-robin
strategy indexes `cluster[0]` of the empty cluster and panics (already in the
first iteration of its loop). -/
theorem empty_cluster_get :
    Get (NewRoundRobinBalancer ⟨"weighted_round_robin", []⟩)
        = (NewRoundRobinBalancer ⟨"weighted_round_robin", []⟩,
            GetResult.error "No endpoint available")
    ∧ (Get (NewRoundRobinBalancer ⟨"round_robin", []⟩)).2 = GetResult.panic
    ∧ rrLoop (NewRoundRobinBalancer ⟨"round_robin", []⟩).cluster 0 1 0
        = some ScanResult.indexPanic := by
  decide

/-! ## The weighted strategy: what one call does -/

@[simp] theorem available_eq_true (e : Endpoint) : e.Available = true := rfl

theorem wrapInt_of_fits (x : Int) (h1 : minInt ≤ x) (h2 : x ≤ maxInt) : wrapInt x = x := by
  unfold minInt at h1
  unfold maxInt at h2
  unfold wrapInt
  omega

theorem wrapInt_fits (x : Int) : minInt ≤ wrapInt x ∧ wrapInt x ≤ maxInt := by
  unfold minInt maxInt wrapInt
  omega

theorem wrapInt_idem (x : Int) : wrapInt (wrapInt x) = wrapInt x := by
  unfold wrapInt
  omega

theorem wrapInt_zero : wrapInt 0 = 0 := by decide

theorem wrapInt_wrap_add (a b : Int) : wrapInt (wrapInt a + b) = wrapInt (a + b) := by
  unfold wrapInt
  omega

theorem wrapInt_add_wrap (a b : Int) : wrapInt (a + wrapInt b) = wrapInt (a + b) := by
  unfold wrapInt
  omega

theorem wrapInt_wrap_sub_wrap (a b : Int) :
    wrapInt (wrapInt a - wrapInt b) = wrapInt (a - b) := by
  unfold wrapInt
  omega

theorem wrapInt_emod (x : Int) : wrapInt x % 2 ^ 64 = x % 2 ^ 64 := by
  unfold wrapInt
  omega

theorem wrapInt_eq_of_emod_eq (a b : Int) (h : a % 2 ^ 64 = b % 2 ^ 64) :
    wrapInt a = wrapInt b := by
  unfold wrapInt
  omega

theorem weightedLoop_cluster (cl : RoundRobinCluster) :
    ∀ (i : Nat) (best : Option (Nat × Endpoint)) (total max : Int),
      (weightedLoop cl i best total max).cluster = cl.map addWeight := by
  induction cl with
  | nil => intros; rfl
  | cons e rest ih =>
    intro i best total max
    by_cases h : e.weight ≤ 0
    · have h1 : ¬ 0 < e.weight := by omega
      simp [weightedLoop, h, ih, addWeight, eligible, h1]
    · have h1 : 0 < e.weight := by omega
      simp [weightedLoop, h, ih, addWeight, eligible, h1]

/-- The `total` the loop ends with is the exact sum of its start value and the
accumulators of the entries of positive weight, reduced to the range of
`int`. -/
theorem weightedLoop_total (cl : RoundRobinCluster) :
    ∀ (i : Nat) (best : Option (Nat × Endpoint)) (total max : Int),
      wrapInt total = total →
      (weightedLoop cl i best total max).total = wrapInt (total + currentTotal cl) := by
  induction cl with
  | nil =>
    intro i best total max h
    simp [weightedLoop, currentTotal, h]
  | cons e rest ih =>
    intro i best total max htot
    by_cases h : e.weight ≤ 0
    · have h1 : ¬ 0 < e.weight := by omega
      simp [weightedLoop, h, ih _ _ _ _ htot, currentTotal, eligible, h1]
    · have h1 : 0 < e.weight := by omega
      have hrec := ih (i + 1)
        (if (best.isNone || decide (e.current > max)) = true then some (i, e.endpoint) else best)
        (wrapInt (total + e.current))
        (if (best.isNone || decide (e.current > max)) = true then e.current else max)
        (wrapInt_idem _)
      have hct : currentTotal (e :: rest) = e.current + currentTotal rest := by
        simp [currentTotal, eligible, h1]
      simp only [weightedLoop, h, decide_False, available_eq_true, Bool.not_true, Bool.or_self,
        Bool.false_eq_true, if_false]
      rw [hrec, hct, wrapInt_wrap_add]
      congr 1
      omega

theorem weightedLoop_best_of_some (cl : RoundRobinCluster) :
    ∀ (i : Nat) (best : Option (Nat × Endpoint)) (total max : Int) (j : Nat) (ep : Endpoint),
      (weightedLoop cl i best total max).best = some (j, ep) →
        best = some (j, ep)
          ∨ (i ≤ j ∧ ∃ e, cl[j - i]? = some e ∧ 0 < e.weight ∧ e.endpoint = ep) := by
  induction cl with
  | nil => intro i best total max j ep h; left; simpa [weightedLoop] using h
  | cons e rest ih =>
    intro i best total max j ep h
    by_cases hw : e.weight ≤ 0
    · simp only [weightedLoop, hw, decide_True, Bool.true_or, if_true] at h
      rcases ih _ _ _ _ _ _ h with h1 | ⟨h1, e1, h2, h3⟩
      · exact Or.inl h1
      · right
        refine ⟨by omega, e1, ?_, h3⟩
        obtain ⟨d, hd⟩ : ∃ d, j - i = d + 1 := ⟨j - (i + 1), by omega⟩
        rw [hd, List.getElem?_cons_succ]
        rw [← h2]; congr 1; omega
    · simp only [weightedLoop, hw, decide_False, available_eq_true, Bool.not_true, Bool.or_self,
        Bool.false_eq_true, if_false] at h
      rcases ih _ _ _ _ _ _ h with h1 | ⟨h1, e1, h2, h3⟩
      · split at h1
        · right
          simp only [Option.some.injEq, Prod.mk.injEq] at h1
          refine ⟨by omega, e, ?_, by omega, h1.2⟩
          rw [← h1.1]; simp
        · exact Or.inl h1
      · right
        refine ⟨by omega, e1, ?_, h3⟩
        obtain ⟨d, hd⟩ : ∃ d, j - i = d + 1 := ⟨j - (i + 1), by omega⟩
        rw [hd, List.getElem?_cons_succ]
        rw [← h2]; congr 1; omega

theorem weightedLoop_best_isSome_of_isSome (cl : RoundRobinCluster) :
    ∀ (i : Nat) (best : Option (Nat × Endpoint)) (total max : Int),
      best.isSome = true → (weightedLoop cl i best total max).best.isSome = true := by
  induction cl with
  | nil => intro i best total max h; simpa [weightedLoop] using h
  | cons e rest ih =>
    intro i best total max h
    by_cases hw : e.weight ≤ 0
    · simp only [weightedLoop, hw, decide_True, Bool.true_or, if_true]
      exact ih _ _ _ _ h
    · simp only [weightedLoop, hw, decide_False, available_eq_true, Bool.not_true, Bool.or_self,
        Bool.false_eq_true, if_false]
      apply ih
      split <;> simp [h]

theorem weightedLoop_best_eq_none_iff (cl : RoundRobinCluster) :
    ∀ (i : Nat) (best : Option (Nat × Endpoint)) (total max : Int),
      (weightedLoop cl i best total max).best = none
        ↔ best = none ∧ ∀ e ∈ cl, e.weight ≤ 0 := by
  induction cl with
  | nil => intro i best total max; simp [weightedLoop]
  | cons e rest ih =>
    intro i best total max
    by_cases hw : e.weight ≤ 0
    · simp only [weightedLoop, hw, decide_True, Bool.true_or, if_true]
      rw [ih]; simp [hw]
    · simp only [weightedLoop, hw, decide_False, available_eq_true, Bool.not_true, Bool.or_self,
        Bool.false_eq_true, if_false]
      constructor
      · intro h
        exfalso
        have := weightedLoop_best_isSome_of_isSome rest (i + 1)
          (if (best.isNone || decide (e.current > max)) = true then some (i, e.endpoint) else best)
          (wrapInt (total + e.current))
          (if (best.isNone || decide (e.current > max)) = true then e.current else max)
          (by cases best with
              | none => simp
              | some v => simp; split <;> rfl)
        rw [h] at this; simp at this
      · intro h
        exact absurd (h.2 e (List.mem_cons_self _ _)) hw

theorem getByWeightedRoundRobin_of_none (b : RoundRobinBalancer)
    (h : (weightedLoop b.cluster 0 none 0 0).best = none) :
    getByWeightedRoundRobin b
      = ({ b with cluster := b.cluster.map addWeight },
          GetResult.error "No endpoint available") := by
  simp only [getByWeightedRoundRobin, h, weightedLoop_cluster]

theorem getByWeightedRoundRobin_of_some (b : RoundRobinBalancer) (i : Nat) (ep : Endpoint)
    (h : (weightedLoop b.cluster 0 none 0 0).best = some (i, ep)) :
    getByWeightedRoundRobin b
      = ({ b with
            cluster := subCurrent (b.cluster.map addWeight) i (wrapInt (currentTotal b.cluster)) },
          GetResult.ok i ep) := by
  simp only [getByWeightedRoundRobin, h, weightedLoop_cluster,
    weightedLoop_total _ _ _ _ _ wrapInt_zero, zero_add]

theorem addWeight_weight (e : RoundRobinEndpoint) : (addWeight e).weight = e.weight := by
  unfold addWeight; split <;> rfl

theorem addWeight_endpoint (e : RoundRobinEndpoint) : (addWeight e).endpoint = e.endpoint := by
  unfold addWeight; split <;> rfl

theorem addWeight_of_not_pos (e : RoundRobinEndpoint) (h : e.weight ≤ 0) : addWeight e = e := by
  have h1 : ¬ 0 < e.weight := by omega
  simp [addWeight, eligible, h1]

theorem addWeight_of_pos (e : RoundRobinEndpoint) (h : 0 < e.weight) :
    addWeight e = { e with current := wrapInt (e.current + e.weight) } := by
  simp [addWeight, eligible, h]

theorem addWeight_eq_self_of_all_not_pos (cl : RoundRobinCluster)
    (h : ∀ e ∈ cl, e.weight ≤ 0) : cl.map addWeight = cl := by
  induction cl with
  | nil => rfl
  | cons e rest ih =>
    simp only [List.map_cons]
    rw [addWeight_of_not_pos e (h e (List.mem_cons_self _ _)),
      ih (fun x hx => h x (List.mem_cons_of_mem _ hx))]

theorem subCurrent_length (cl : RoundRobinCluster) (i : Nat) (t : Int) :
    (subCurrent cl i t).length = cl.length := by
  simp [subCurrent]

theorem subCurrent_getElem? (cl : RoundRobinCluster) (i : Nat) (t : Int) (j : Nat) :
    (subCurrent cl i t)[j]?
      = (cl[j]?).map fun e =>
          if i = j then { e with current := wrapInt (e.current - t) } else e := by
  simp [subCurrent, List.getElem?_modify]

theorem subCurrent_map_weight (cl : RoundRobinCluster) (i : Nat) (t : Int) :
    (subCurrent cl i t).map (fun e => e.weight) = cl.map fun e => e.weight := by
  apply List.ext_getElem?
  intro j
  simp only [List.getElem?_map, subCurrent_getElem?]
  cases cl[j]? with
  | none => rfl
  | some e => by_cases h : i = j <;> simp [h]

theorem subCurrent_map_endpoint (cl : RoundRobinCluster) (i : Nat) (t : Int) :
    (subCurrent cl i t).map (fun e => e.endpoint) = cl.map fun e => e.endpoint := by
  apply List.ext_getElem?
  intro j
  simp only [List.getElem?_map, subCurrent_getElem?]
  cases cl[j]? with
  | none => rfl
  | some e => by_cases h : i = j <;> simp [h]

theorem map_addWeight_map_weight (cl : RoundRobinCluster) :
    (cl.map addWeight).map (fun e => e.weight) = cl.map fun e => e.weight := by
  simp [List.map_map, Function.comp_def, addWeight_weight]

theorem map_addWeight_map_endpoint (cl : RoundRobinCluster) :
    (cl.map addWeight).map (fun e => e.endpoint) = cl.map fun e => e.endpoint := by
  simp [List.map_map, Function.comp_def, addWeight_endpoint]

theorem addWeightZ_weight (e : RoundRobinEndpoint) : (addWeightZ e).weight = e.weight := by
  unfold addWeightZ; split <;> rfl

theorem addWeightZ_endpoint (e : RoundRobinEndpoint) : (addWeightZ e).endpoint = e.endpoint := by
  unfold addWeightZ; split <;> rfl

theorem addWeightZ_of_not_pos (e : RoundRobinEndpoint) (h : e.weight ≤ 0) : addWeightZ e = e := by
  have h1 : ¬ 0 < e.weight := by omega
  simp [addWeightZ, eligible, h1]

theorem addWeightZ_of_pos (e : RoundRobinEndpoint) (h : 0 < e.weight) :
    addWeightZ e = { e with current := e.current + e.weight } := by
  simp [addWeightZ, eligible, h]

theorem subCurrentZ_getElem? (cl : RoundRobinCluster) (i : Nat) (t : Int) (j : Nat) :
    (subCurrentZ cl i t)[j]?
      = (cl[j]?).map fun e => if i = j then { e with current := e.current - t } else e := by
  simp [subCurrentZ, List.getElem?_modify]

/-- A weighted call on a cluster with an entry of positive weight returns the
endpoint of a position `win` that holds an entry of positive weight. -/
theorem weighted_winner_exists (b : RoundRobinBalancer) (h : ∃ e ∈ b.cluster, 0 < e.weight) :
    ∃ win ep, (weightedLoop b.cluster 0 none 0 0).best = some (win, ep)
      ∧ ∃ w, b.cluster[win]? = some w ∧ 0 < w.weight ∧ w.endpoint = ep := by
  cases hb : (weightedLoop b.cluster 0 none 0 0).best with
  | none =>
    obtain ⟨e, he, hpos⟩ := h
    have := ((weightedLoop_best_eq_none_iff b.cluster 0 none 0 0).1 hb).2 e he
    omega
  | some p =>
    obtain ⟨win, ep⟩ := p
    refine ⟨win, ep, rfl, ?_⟩
    rcases weightedLoop_best_of_some b.cluster 0 none 0 0 win ep hb with h1 | ⟨_, w, h2, h3, h4⟩
    · simp at h1
    · exact ⟨w, by simpa using h2, h3, h4⟩

/-- C9, as the code has it: in a state with at least one entry of positive
weight, with `T` the sum of the `current` values before the call over the
entries of positive weight, the `total` the loop of a weighted `Get`
accumulates is `T` reduced to the range of `int`; the call returns the
endpoint of a position `win` of positive weight, and afterwards every entry of
positive weight is what it was with `current` replaced by `current + weight`,
or at `win` by `current + weight - T`, reduced to the range of `int`: these
very values whenever they lie in `[minInt, maxInt]`. -/
theorem weighted_state_update (b : RoundRobinBalancer)
    (h : ∃ e ∈ b.cluster, 0 < e.weight) :
    (weightedLoop b.cluster 0 none 0 0).total = wrapInt (currentTotal b.cluster)
    ∧ (minInt ≤ currentTotal b.cluster → currentTotal b.cluster ≤ maxInt →
        (weightedLoop b.cluster 0 none 0 0).total = currentTotal b.cluster)
    ∧ ∃ win ep, (getByWeightedRoundRobin b).2 = GetResult.ok win ep
      ∧ (∃ w, b.cluster[win]? = some w ∧ 0 < w.weight ∧ w.endpoint = ep)
      ∧ ∀ (j : Nat) (e : RoundRobinEndpoint), b.cluster[j]? = some e → 0 < e.weight →
          (getByWeightedRoundRobin b).1.cluster[j]?
              = some { e with
                  current := wrapInt (if j = win then e.current + e.weight - currentTotal b.cluster
                                      else e.current + e.weight) }
          ∧ (minInt ≤ (if j = win then e.current + e.weight - currentTotal b.cluster
                        else e.current + e.weight) →
              (if j = win then e.current + e.weight - currentTotal b.cluster
                else e.current + e.weight) ≤ maxInt →
              (getByWeightedRoundRobin b).1.cluster[j]?
                = some { e with
                    current := if j = win then e.current + e.weight - currentTotal b.cluster
                               else e.current + e.weight }) := by
  have htot : (weightedLoop b.cluster 0 none 0 0).total = wrapInt (currentTotal b.cluster) := by
    rw [weightedLoop_total _ _ _ _ _ wrapInt_zero, zero_add]
  refine ⟨htot, fun h1 h2 => by rw [htot, wrapInt_of_fits _ h1 h2], ?_⟩
  obtain ⟨win, ep, hb, hw⟩ := weighted_winner_exists b h
  refine ⟨win, ep, ?_, hw, ?_⟩
  · rw [getByWeightedRoundRobin_of_some b win ep hb]
  · intro j e hj hpos
    have hval : (getByWeightedRoundRobin b).1.cluster[j]?
        = some { e with
            current := wrapInt (if j = win then e.current + e.weight - currentTotal b.cluster
                                else e.current + e.weight) } := by
      rw [getByWeightedRoundRobin_of_some b win ep hb]
      simp only [subCurrent_getElem?, List.getElem?_map, hj, Option.map_some',
        addWeight_of_pos e hpos]
      by_cases hjw : j = win
      · subst hjw
        simp only [if_true, wrapInt_wrap_sub_wrap]
      · have : ¬ win = j := fun h => hjw h.symm
        simp only [hjw, this, if_false]
    refine ⟨hval, fun h1 h2 => ?_⟩
    rw [hval, wrapInt_of_fits _ h1 h2]

theorem weighted_state_update_witness :
    (∃ e ∈ exampleState.cluster, 0 < e.weight)
    ∧ (getByWeightedRoundRobin exampleState).1.cluster.map (fun e => e.current) = [4, 7, 0]
    ∧ ((weightedLoop exampleState.cluster 0 none 0 0).total
          = wrapInt (currentTotal exampleState.cluster)
      ∧ (minInt ≤ currentTotal exampleState.cluster → currentTotal exampleState.cluster ≤ maxInt →
          (weightedLoop exampleState.cluster 0 none 0 0).total
            = currentTotal exampleState.cluster)
      ∧ ∃ win ep, (getByWeightedRoundRobin exampleState).2 = GetResult.ok win ep
        ∧ (∃ w, exampleState.cluster[win]? = some w ∧ 0 < w.weight ∧ w.endpoint = ep)
        ∧ ∀ (j : Nat) (e : RoundRobinEndpoint), exampleState.cluster[j]? = some e →
            0 < e.weight →
            (getByWeightedRoundRobin exampleState).1.cluster[j]?
                = some { e with
                    current :=
                      wrapInt (if j = win then
                                  e.current + e.weight - currentTotal exampleState.cluster
                               else e.current + e.weight) }
            ∧ (minInt ≤ (if j = win then
                            e.current + e.weight - currentTotal exampleState.cluster
                          else e.current + e.weight) →
                (if j = win then e.current + e.weight - currentTotal exampleState.cluster
                  else e.current + e.weight) ≤ maxInt →
                (getByWeightedRoundRobin exampleState).1.cluster[j]?
                  = some { e with
                      current :=
                        if j = win then
                          e.current + e.weight - currentTotal exampleState.cluster
                        else e.current + e.weight })) :=
  ⟨⟨⟨3, 3, ⟨"A", "a:1"⟩⟩, by decide, by decide⟩, by decide,
    weighted_state_update exampleState ⟨⟨3, 3, ⟨"A", "a:1"⟩⟩, by decide, by decide⟩⟩

/-- C9 as stated fails where the addition overflows: with two endpoints of
weight `maxInt` the state after the first call holds `current = maxInt` twice;
the second call returns `A` (position 0) and leaves `B`, which is not the
winner, with `current = -2`, not `maxInt + maxInt`. -/
theorem weighted_update_overflows :
    (afterGets 1 (NewRoundRobinBalancer exampleMax)).cluster.map (fun e => (e.weight, e.current))
      = [(9223372036854775807, 9223372036854775807),
          (9223372036854775807, 9223372036854775807)]
    ∧ (getByWeightedRoundRobin (afterGets 1 (NewRoundRobinBalancer exampleMax))).2
      = GetResult.ok 0 ⟨"A", "a:1"⟩
    ∧ (getByWeightedRoundRobin (afterGets 1 (NewRoundRobinBalancer exampleMax))).1.cluster.map
        (fun e => e.current) = [0, -2]
    ∧ (-2 : Int) ≠ 9223372036854775807 + 9223372036854775807 := by
  decide

/-- C10: a weighted `Get`, whether it returns an endpoint or the error, leaves
`next` and `algor` as they were, keeps the length of the cluster and, position
by position, every weight and every endpoint, and leaves every entry of weight
`<= 0` exactly as it was (its `current` included); the `total` its loop
accumulates is the sum of `current` over the entries of positive weight only,
as an `int` holds it (the sum itself when it lies in `[minInt, maxInt]`). -/
theorem weighted_frame (b : RoundRobinBalancer) :
    (getByWeightedRoundRobin b).1.next = b.next
    ∧ (getByWeightedRoundRobin b).1.algor = b.algor
    ∧ (getByWeightedRoundRobin b).1.cluster.length = b.cluster.length
    ∧ (getByWeightedRoundRobin b).1.cluster.map (fun e => e.weight)
        = b.cluster.map (fun e => e.weight)
    ∧ (getByWeightedRoundRobin b).1.cluster.map (fun e => e.endpoint)
        = b.cluster.map (fun e => e.endpoint)
    ∧ (∀ (j : Nat) (e : RoundRobinEndpoint), b.cluster[j]? = some e → e.weight ≤ 0 →
        (getByWeightedRoundRobin b).1.cluster[j]? = some e)
    ∧ (weightedLoop b.cluster 0 none 0 0).total
        = wrapInt ((b.cluster.filter fun e => decide (0 < e.weight)).map fun e => e.current).sum
    ∧ (minInt ≤ ((b.cluster.filter fun e => decide (0 < e.weight)).map fun e => e.current).sum →
        ((b.cluster.filter fun e => decide (0 < e.weight)).map fun e => e.current).sum ≤ maxInt →
        (weightedLoop b.cluster 0 none 0 0).total
          = ((b.cluster.filter fun e => decide (0 < e.weight)).map fun e => e.current).sum) := by
  have htotal : (weightedLoop b.cluster 0 none 0 0).total
      = wrapInt ((b.cluster.filter fun e => decide (0 < e.weight)).map fun e => e.current).sum := by
    rw [weightedLoop_total _ _ _ _ _ wrapInt_zero, zero_add]; rfl
  have hexact : minInt
        ≤ ((b.cluster.filter fun e => decide (0 < e.weight)).map fun e => e.current).sum →
      ((b.cluster.filter fun e => decide (0 < e.weight)).map fun e => e.current).sum ≤ maxInt →
      (weightedLoop b.cluster 0 none 0 0).total
        = ((b.cluster.filter fun e => decide (0 < e.weight)).map fun e => e.current).sum :=
    fun h1 h2 => by rw [htotal, wrapInt_of_fits _ h1 h2]
  cases hb : (weightedLoop b.cluster 0 none 0 0).best with
  | none =>
    rw [getByWeightedRoundRobin_of_none b hb]
    refine ⟨rfl, rfl, by simp, map_addWeight_map_weight _, map_addWeight_map_endpoint _, ?_,
      htotal, hexact⟩
    intro j e hj hw
    simp [hj, addWeight_of_not_pos e hw]
  | some p =>
    obtain ⟨win, ep⟩ := p
    rw [getByWeightedRoundRobin_of_some b win ep hb]
    refine ⟨rfl, rfl, by simp [subCurrent_length], ?_, ?_, ?_, htotal, hexact⟩
    · simp only [subCurrent_map_weight, map_addWeight_map_weight]
    · simp only [subCurrent_map_endpoint, map_addWeight_map_endpoint]
    · intro j e hj hw
      rcases weightedLoop_best_of_some b.cluster 0 none 0 0 win ep hb with h1 | ⟨_, w, h2, h3, _⟩
      · simp at h1
      · have hne : ¬ win = j := by
          intro hwj
          subst hwj
          simp only [Nat.sub_zero] at h2
          rw [hj] at h2
          simp only [Option.some.injEq] at h2
          subst h2
          omega
        simp [subCurrent_getElem?, hj, addWeight_of_not_pos e hw, hne]

/-! ## The round-robin strategy: the scan loop -/

theorem index_natCast (cl : RoundRobinCluster) (a : Nat) : index cl (a : Int) = cl[a]? := by
  simp [index]

theorem getNext_natCast (a N : Nat) (h : a < N) :
    getNext (a : Int) (N : Int) = (((a + 1) % N : Nat) : Int) := by
  unfold getNext
  by_cases h1 : a + 1 = N
  · have : (a + 1) % N = 0 := by rw [h1]; exact Nat.mod_self N
    rw [this]
    have : (a : Int) + 1 ≥ (N : Int) := by omega
    simp [this]
  · have : (a + 1) % N = a + 1 := Nat.mod_eq_of_lt (by omega)
    rw [this]
    have : ¬ ((a : Int) + 1 ≥ (N : Int)) := by omega
    simp [this]

theorem mod_add_ne_self (s k N : Nat) (hs : s < N) (hk : 0 < k) (hkN : k < N) :
    (s + k) % N ≠ s := by
  by_cases h : s + k < N
  · rw [Nat.mod_eq_of_lt h]; omega
  · have : (s + k) % N = s + k - N := by
      rw [Nat.mod_eq_sub_mod (by omega), Nat.mod_eq_of_lt (by omega)]
    omega

theorem mod_add_length_self (s N : Nat) (hs : s < N) : (s + N) % N = s := by
  rw [Nat.add_mod_right, Nat.mod_eq_of_lt hs]

/-- One iteration of the loop at an entry that is not selected. -/
theorem rrLoop_step (cl : RoundRobinCluster) (s a fuel : Nat) (ha : a < cl.length)
    (hw : ∀ e, cl[a]? = some e → e.weight ≤ 0) :
    rrLoop cl (s : Int) (fuel + 1) (a : Int)
      = if (a + 1) % cl.length = s then some ScanResult.allUnavailable
        else rrLoop cl (s : Int) fuel (((a + 1) % cl.length : Nat) : Int) := by
  have hget : cl[a]? = some cl[a] := List.getElem?_eq_getElem ha
  have hle := hw _ hget
  have hnot : ¬ 0 < cl[a].weight := by omega
  rw [rrLoop, index_natCast, hget]
  simp only [gt_iff_lt, hnot, decide_False, Bool.false_and, Bool.false_eq_true, if_false,
    getNext_natCast a cl.length ha, Nat.cast_inj]

/-- The loop, entered `t` steps after the start position `s`, leaves at the
first entry of positive weight, `d - t` steps later. -/
theorem rrLoop_found (cl : RoundRobinCluster) (s : Nat) (hs : s < cl.length) (d : Nat)
    (hd : d < cl.length) (e : RoundRobinEndpoint) (he : cl[(s + d) % cl.length]? = some e)
    (hpos : 0 < e.weight) :
    ∀ (n t fuel : Nat), d = t + n → n < fuel →
      (∀ d1, t ≤ d1 → d1 < d → ∀ e1, cl[(s + d1) % cl.length]? = some e1 → e1.weight ≤ 0) →
      rrLoop cl (s : Int) fuel (((s + t) % cl.length : Nat) : Int)
        = some (ScanResult.found (((s + d) % cl.length : Nat) : Int) e.endpoint) := by
  intro n
  induction n with
  | zero =>
    intro t fuel hdt hf _
    obtain ⟨f, rfl⟩ : ∃ f, fuel = f + 1 := ⟨fuel - 1, by omega⟩
    have : t = d := by omega
    subst this
    rw [rrLoop, index_natCast, he]
    simp [hpos]
  | succ n ih =>
    intro t fuel hdt hf hlt
    obtain ⟨f, rfl⟩ : ∃ f, fuel = f + 1 := ⟨fuel - 1, by omega⟩
    have hN : 0 < cl.length := by omega
    rw [rrLoop_step cl s _ f (Nat.mod_lt _ hN) (hlt t (le_refl _) (by omega))]
    have hmod : ((s + t) % cl.length + 1) % cl.length = (s + (t + 1)) % cl.length := by
      rw [Nat.mod_add_mod]; rfl
    rw [hmod, if_neg (mod_add_ne_self s (t + 1) cl.length hs (by omega) (by omega))]
    exact ih (t + 1) f (by omega) (by omega) (fun d1 h1 h2 => hlt d1 (by omega) h2)

/-- The loop, entered `t` steps after the start position `s` with no entry of
positive weight ahead, comes back to `s` and reports the failure. -/
theorem rrLoop_allUnavailable (cl : RoundRobinCluster) (s : Nat) (hs : s < cl.length) :
    ∀ (n t fuel : Nat), t + n + 1 = cl.length → n < fuel →
      (∀ d1, t ≤ d1 → d1 < cl.length →
        ∀ e1, cl[(s + d1) % cl.length]? = some e1 → e1.weight ≤ 0) →
      rrLoop cl (s : Int) fuel (((s + t) % cl.length : Nat) : Int)
        = some ScanResult.allUnavailable := by
  intro n
  induction n with
  | zero =>
    intro t fuel htn hf hlt
    obtain ⟨f, rfl⟩ : ∃ f, fuel = f + 1 := ⟨fuel - 1, by omega⟩
    have hN : 0 < cl.length := by omega
    rw [rrLoop_step cl s _ f (Nat.mod_lt _ hN) (hlt t (le_refl _) (by omega))]
    have hmod : ((s + t) % cl.length + 1) % cl.length = s := by
      rw [Nat.mod_add_mod]
      have : s + t + 1 = s + cl.length := by omega
      rw [this]; exact mod_add_length_self s _ hs
    rw [if_pos hmod]
  | succ n ih =>
    intro t fuel htn hf hlt
    obtain ⟨f, rfl⟩ : ∃ f, fuel = f + 1 := ⟨fuel - 1, by omega⟩
    have hN : 0 < cl.length := by omega
    rw [rrLoop_step cl s _ f (Nat.mod_lt _ hN) (hlt t (le_refl _) (by omega))]
    have hmod : ((s + t) % cl.length + 1) % cl.length = (s + (t + 1)) % cl.length := by
      rw [Nat.mod_add_mod]; rfl
    rw [hmod, if_neg (mod_add_ne_self s (t + 1) cl.length hs (by omega) (by omega))]
    exact ih (t + 1) f (by omega) (by omega) (fun d1 h1 h2 => hlt d1 (by omega) h2)

/-- The round-robin call from a cursor `s` inside the cluster, when `d` is the
least number of steps from `s` (wrapping) to an entry of positive weight. -/
theorem getByRoundRobinFuel_found (b : RoundRobinBalancer) (s : Nat) (hnext : b.next = (s : Int))
    (hs : s < b.cluster.length) (d : Nat) (hd : d < b.cluster.length)
    (e : RoundRobinEndpoint) (he : b.cluster[(s + d) % b.cluster.length]? = some e)
    (hpos : 0 < e.weight)
    (hlt : ∀ d1, d1 < d →
      ∀ e1, b.cluster[(s + d1) % b.cluster.length]? = some e1 → e1.weight ≤ 0)
    (fuel : Nat) (hfuel : d < fuel) :
    getByRoundRobinFuel fuel b
      = ({ b with next := ((((s + d) % b.cluster.length + 1) % b.cluster.length : Nat) : Int) },
          GetResult.ok ((s + d) % b.cluster.length) e.endpoint) := by
  have h := rrLoop_found b.cluster s hs d hd e he hpos d 0 fuel (by omega) hfuel
    (fun d1 _ h2 => hlt d1 h2)
  rw [Nat.add_zero, Nat.mod_eq_of_lt hs] at h
  have hN : 0 < b.cluster.length := by omega
  simp only [getByRoundRobinFuel, hnext, h,
    getNext_natCast _ _ (Nat.mod_lt (s + d) hN), Int.toNat_ofNat]

/-- The round-robin call from a cursor `s` inside a cluster without an entry of
positive weight. -/
theorem getByRoundRobinFuel_allUnavailable (b : RoundRobinBalancer) (s : Nat)
    (hnext : b.next = (s : Int)) (hs : s < b.cluster.length)
    (hall : ∀ e ∈ b.cluster, e.weight ≤ 0) (fuel : Nat) (hfuel : b.cluster.length ≤ fuel) :
    getByRoundRobinFuel fuel b = (b, GetResult.error "All endpoints unavailable") := by
  have h := rrLoop_allUnavailable b.cluster s hs (b.cluster.length - 1) 0 fuel (by omega)
    (by omega) (fun d1 _ _ e1 h1 => hall e1 (List.mem_iff_getElem?.2 ⟨_, h1⟩))
  rw [Nat.add_zero, Nat.mod_eq_of_lt hs] at h
  simp only [getByRoundRobinFuel, hnext, h]

/-- From a position `s` inside a cluster that holds an entry of positive
weight there is a least number of steps `d < N` (wrapping) to such an entry. -/
theorem exists_least_steps (cl : RoundRobinCluster) (s : Nat) (hs : s < cl.length)
    (h : ∃ e ∈ cl, 0 < e.weight) :
    ∃ (d : Nat) (e : RoundRobinEndpoint), d < cl.length
      ∧ cl[(s + d) % cl.length]? = some e ∧ 0 < e.weight
      ∧ ∀ d1, d1 < d → ∀ e1, cl[(s + d1) % cl.length]? = some e1 → e1.weight ≤ 0 := by
  classical
  have hex : ∃ d, d < cl.length ∧ ∃ e, cl[(s + d) % cl.length]? = some e ∧ 0 < e.weight := by
    obtain ⟨e, hmem, hpos⟩ := h
    obtain ⟨i, hi⟩ := List.mem_iff_getElem?.1 hmem
    have hiN : i < cl.length := by
      by_contra hcon
      rw [List.getElem?_eq_none (by omega)] at hi
      simp at hi
    by_cases hle : s ≤ i
    · refine ⟨i - s, by omega, e, ?_, hpos⟩
      have : s + (i - s) = i := by omega
      rw [this, Nat.mod_eq_of_lt hiN]; exact hi
    · refine ⟨i + cl.length - s, by omega, e, ?_, hpos⟩
      have : s + (i + cl.length - s) = i + cl.length := by omega
      rw [this, mod_add_length_self i _ hiN]; exact hi
  refine ⟨Nat.find hex, ?_⟩
  obtain ⟨hlt, e, he, hpos⟩ := Nat.find_spec hex
  refine ⟨e, hlt, he, hpos, ?_⟩
  intro d1 hd1 e1 he1
  have hmin := Nat.find_min hex hd1
  by_contra hcon
  exact hmin ⟨by omega, e1, he1, by omega⟩

/-- C5: for a non-empty cluster of length `N`, a cursor `c` with
`0 <= c < N` and at least one entry of positive weight, round-robin `Get`
returns the endpoint of the entry at `j = (c + d) mod N`, where `d` is the
least `d` in `[0, N)` for which the entry at `(c + d) mod N` has positive
weight, and sets the cursor to `(j + 1) mod N`, which lies in `[0, N)`; nothing
else of the state changes. -/
theorem roundRobin_single_call (b : RoundRobinBalancer) (h0 : 0 ≤ b.next)
    (h1 : b.next < b.cluster.length) (h : ∃ e ∈ b.cluster, 0 < e.weight) :
    ∃ (d : Nat) (e : RoundRobinEndpoint), d < b.cluster.length
      ∧ b.cluster[(b.next.toNat + d) % b.cluster.length]? = some e ∧ 0 < e.weight
      ∧ (∀ d1, d1 < d →
          ∀ e1, b.cluster[(b.next.toNat + d1) % b.cluster.length]? = some e1 → e1.weight ≤ 0)
      ∧ getByRoundRobin b
          = ({ b with
                next := ((((b.next.toNat + d) % b.cluster.length + 1) % b.cluster.length : Nat)
                          : Int) },
              GetResult.ok ((b.next.toNat + d) % b.cluster.length) e.endpoint)
      ∧ 0 ≤ (getByRoundRobin b).1.next
      ∧ (getByRoundRobin b).1.next < b.cluster.length := by
  have hs : b.next.toNat < b.cluster.length := by omega
  have hnext : b.next = (b.next.toNat : Int) := by omega
  obtain ⟨d, e, hd, he, hpos, hlt⟩ := exists_least_steps b.cluster b.next.toNat hs h
  have hget := getByRoundRobinFuel_found b b.next.toNat hnext hs d hd e he hpos hlt
    (b.cluster.length + 1) (by omega)
  refine ⟨d, e, hd, he, hpos, hlt, hget, ?_, ?_⟩
  · rw [getByRoundRobin, hget]; exact Int.natCast_nonneg _
  · rw [getByRoundRobin, hget]
    have : ((b.next.toNat + d) % b.cluster.length + 1) % b.cluster.length < b.cluster.length :=
      Nat.mod_lt _ (by omega)
    simp only [Nat.cast_lt]
    exact this

theorem roundRobin_single_call_witness :
    getByRoundRobin exampleCursor
        = ({ exampleCursor with next := 1 }, GetResult.ok 0 ⟨"A", "a:1"⟩)
    ∧ ∃ (d : Nat) (e : RoundRobinEndpoint), d < exampleCursor.cluster.length
      ∧ exampleCursor.cluster[(exampleCursor.next.toNat + d) % exampleCursor.cluster.length]?
          = some e
      ∧ 0 < e.weight
      ∧ (∀ d1, d1 < d →
          ∀ e1, exampleCursor.cluster[(exampleCursor.next.toNat + d1)
              % exampleCursor.cluster.length]? = some e1 → e1.weight ≤ 0)
      ∧ getByRoundRobin exampleCursor
          = ({ exampleCursor with
                next := ((((exampleCursor.next.toNat + d) % exampleCursor.cluster.length + 1)
                          % exampleCursor.cluster.length : Nat) : Int) },
              GetResult.ok ((exampleCursor.next.toNat + d) % exampleCursor.cluster.length)
                e.endpoint)
      ∧ 0 ≤ (getByRoundRobin exampleCursor).1.next
      ∧ (getByRoundRobin exampleCursor).1.next < exampleCursor.cluster.length :=
  ⟨by decide,
    roundRobin_single_call exampleCursor (by decide) (by decide)
      ⟨⟨1, 0, ⟨"A", "a:1"⟩⟩, by decide, by decide⟩⟩

/-! ## No entry of positive weight -/

theorem getByRoundRobin_all_not_pos (b : RoundRobinBalancer) (h0 : 0 ≤ b.next)
    (h1 : b.next < b.cluster.length) (hall : ∀ e ∈ b.cluster, e.weight ≤ 0) :
    getByRoundRobin b = (b, GetResult.error "All endpoints unavailable") :=
  getByRoundRobinFuel_allUnavailable b b.next.toNat (by omega) (by omega) hall _ (by omega)

theorem getByWeightedRoundRobin_all_not_pos (b : RoundRobinBalancer)
    (hall : ∀ e ∈ b.cluster, e.weight ≤ 0) :
    getByWeightedRoundRobin b = (b, GetResult.error "No endpoint available") := by
  rw [getByWeightedRoundRobin_of_none b
    ((weightedLoop_best_eq_none_iff b.cluster 0 none 0 0).2 ⟨rfl, hall⟩),
    addWeight_eq_self_of_all_not_pos b.cluster hall]

theorem Get_all_not_pos (b : RoundRobinBalancer) (h0 : 0 ≤ b.next)
    (h1 : b.next < b.cluster.length) (hall : ∀ e ∈ b.cluster, e.weight ≤ 0) :
    ∃ msg, Get b = (b, GetResult.error msg) := by
  unfold Get
  split
  · exact ⟨_, getByRoundRobin_all_not_pos b h0 h1 hall⟩
  · split <;> exact ⟨_, getByWeightedRoundRobin_all_not_pos b hall⟩

/-- C7: on a non-empty cluster in which every weight is `<= 0`, with the
cursor in `[0, N)`, the round-robin call and the weighted call each return an
error and no endpoint and leave the whole state (cursor, and every entry with
its weight and `current`) as it was; so in a run of calls of `Get`, under
whatever `algor`, the state never changes and every call returns an error. -/
theorem all_ineligible_error (b : RoundRobinBalancer) (hne : b.cluster ≠ [])
    (hall : ∀ e ∈ b.cluster, e.weight ≤ 0) (h0 : 0 ≤ b.next)
    (h1 : b.next < b.cluster.length) :
    getByRoundRobin b = (b, GetResult.error "All endpoints unavailable")
    ∧ getByWeightedRoundRobin b = (b, GetResult.error "No endpoint available")
    ∧ ∀ k : Nat, afterGets k b = b ∧ ∃ msg, nthGet k b = GetResult.error msg := by
  have _ := hne
  refine ⟨getByRoundRobin_all_not_pos b h0 h1 hall, getByWeightedRoundRobin_all_not_pos b hall,
    ?_⟩
  have hstate : ∀ k : Nat, afterGets k b = b := by
    intro k
    induction k with
    | zero => rfl
    | succ k ih =>
      obtain ⟨msg, hmsg⟩ := Get_all_not_pos b h0 h1 hall
      rw [afterGets, ih, hmsg]
  intro k
  refine ⟨hstate k, ?_⟩
  obtain ⟨msg, hmsg⟩ := Get_all_not_pos b h0 h1 hall
  exact ⟨msg, by rw [nthGet, hstate k, hmsg]⟩

theorem all_ineligible_error_witness :
    (exampleAllDown RoundRobinBasic).cluster ≠ []
    ∧ (∀ e ∈ (exampleAllDown RoundRobinBasic).cluster, e.weight ≤ 0)
    ∧ Get (exampleAllDown RoundRobinBasic)
        = (exampleAllDown RoundRobinBasic, GetResult.error "All endpoints unavailable")
    ∧ Get (exampleAllDown WeightedRoundRobinSmooth)
        = (exampleAllDown WeightedRoundRobinSmooth, GetResult.error "No endpoint available")
    ∧ (getByRoundRobin (exampleAllDown RoundRobinBasic)
        = (exampleAllDown RoundRobinBasic, GetResult.error "All endpoints unavailable")
      ∧ getByWeightedRoundRobin (exampleAllDown RoundRobinBasic)
        = (exampleAllDown RoundRobinBasic, GetResult.error "No endpoint available")
      ∧ ∀ k : Nat, afterGets k (exampleAllDown RoundRobinBasic) = exampleAllDown RoundRobinBasic
          ∧ ∃ msg, nthGet k (exampleAllDown RoundRobinBasic) = GetResult.error msg) :=
  ⟨by decide, by decide, by decide, by decide,
    all_ineligible_error (exampleAllDown RoundRobinBasic) (by decide) (by decide) (by decide)
      (by decide)⟩

/-- The bound on the loop is never reached: with `len(cluster) + 1` iterations
or more the round-robin call always comes to the same end, which is a
returned endpoint, the error or the index panic. -/
theorem getByRoundRobinFuel_enough (b : RoundRobinBalancer) (fuel : Nat)
    (hfuel : b.cluster.length + 1 ≤ fuel) :
    getByRoundRobinFuel fuel b = getByRoundRobin b
    ∧ (getByRoundRobin b).2 ≠ GetResult.diverges := by
  by_cases hin : 0 ≤ b.next ∧ b.next < b.cluster.length
  · obtain ⟨h0, h1⟩ := hin
    have hs : b.next.toNat < b.cluster.length := by omega
    have hnext : b.next = (b.next.toNat : Int) := by omega
    by_cases hex : ∃ e ∈ b.cluster, 0 < e.weight
    · obtain ⟨d, e, hd, he, hpos, hlt⟩ := exists_least_steps b.cluster b.next.toNat hs hex
      have hf := getByRoundRobinFuel_found b b.next.toNat hnext hs d hd e he hpos hlt
      rw [getByRoundRobin, hf fuel (by omega), hf (b.cluster.length + 1) (by omega)]
      exact ⟨rfl, by simp⟩
    · have hall : ∀ e ∈ b.cluster, e.weight ≤ 0 := by
        intro e he
        by_contra hcon
        exact hex ⟨e, he, by omega⟩
      have hf := getByRoundRobinFuel_allUnavailable b b.next.toNat hnext hs hall
      rw [getByRoundRobin, hf fuel (by omega), hf (b.cluster.length + 1) (by omega)]
      exact ⟨rfl, by simp⟩
  · have hidx : index b.cluster b.next = none := by
      unfold index
      split
      · rfl
      · rw [List.getElem?_eq_none]
        omega
    obtain ⟨f, rfl⟩ : ∃ f, fuel = f + 1 := ⟨fuel - 1, by omega⟩
    have hpanic : ∀ g : Nat, getByRoundRobinFuel (g + 1) b = (b, GetResult.panic) := by
      intro g
      simp only [getByRoundRobinFuel, rrLoop, hidx]
    rw [getByRoundRobin, hpanic f, hpanic b.cluster.length]
    exact ⟨rfl, by simp⟩

/-! ## Calls that succeed -/

theorem exists_pos_of_map_weight_eq (cl cl0 : RoundRobinCluster)
    (h : cl.map (fun e => e.weight) = cl0.map (fun e => e.weight))
    (hex : ∃ e ∈ cl0, 0 < e.weight) : ∃ e ∈ cl, 0 < e.weight := by
  obtain ⟨e0, hmem, hpos⟩ := hex
  have : e0.weight ∈ cl0.map (fun e => e.weight) := List.mem_map_of_mem _ hmem
  rw [← h] at this
  obtain ⟨e, he, hw⟩ := List.mem_map.1 this
  have hw1 : e.weight = e0.weight := hw
  exact ⟨e, he, by omega⟩

theorem length_eq_of_map_weight_eq (cl cl0 : RoundRobinCluster)
    (h : cl.map (fun e => e.weight) = cl0.map (fun e => e.weight)) :
    cl.length = cl0.length := by
  have := congrArg List.length h
  simpa using this

/-- One round-robin call in a state with the cursor inside the cluster and an
entry of positive weight. -/
theorem getByRoundRobin_ok (b : RoundRobinBalancer) (h0 : 0 ≤ b.next)
    (h1 : b.next < b.cluster.length) (hex : ∃ e ∈ b.cluster, 0 < e.weight) :
    ∃ (j : Nat) (e : RoundRobinEndpoint), b.cluster[j]? = some e ∧ 0 < e.weight
      ∧ getByRoundRobin b
          = ({ b with next := (((j + 1) % b.cluster.length : Nat) : Int) },
              GetResult.ok j e.endpoint) := by
  have hs : b.next.toNat < b.cluster.length := by omega
  have hnext : b.next = (b.next.toNat : Int) := by omega
  obtain ⟨d, e, hd, he, hpos, hlt⟩ := exists_least_steps b.cluster b.next.toNat hs hex
  exact ⟨_, e, he, hpos,
    getByRoundRobinFuel_found b b.next.toNat hnext hs d hd e he hpos hlt _ (by omega)⟩

/-- One call of `Get` in a state with the cursor inside the cluster and an
entry of positive weight: it returns the endpoint of an entry of positive
weight and keeps what `KeepsConfig` lists. -/
theorem Get_ok (b : RoundRobinBalancer) (h0 : 0 ≤ b.next) (h1 : b.next < b.cluster.length)
    (hex : ∃ e ∈ b.cluster, 0 < e.weight) :
    (∃ (j : Nat) (e : RoundRobinEndpoint), b.cluster[j]? = some e ∧ 0 < e.weight
      ∧ (Get b).2 = GetResult.ok j e.endpoint)
    ∧ KeepsConfig b (Get b).1 := by
  have hN : 0 < b.cluster.length := by omega
  have hweighted :
      (∃ (j : Nat) (e : RoundRobinEndpoint), b.cluster[j]? = some e ∧ 0 < e.weight
        ∧ (getByWeightedRoundRobin b).2 = GetResult.ok j e.endpoint)
      ∧ KeepsConfig b (getByWeightedRoundRobin b).1 := by
    obtain ⟨win, ep, hb, w, hw, hpos, hep⟩ := weighted_winner_exists b hex
    rw [getByWeightedRoundRobin_of_some b win ep hb]
    refine ⟨⟨win, w, hw, hpos, by rw [hep]⟩, rfl, ?_, ?_, h0, ?_⟩
    · simp only [subCurrent_map_weight, map_addWeight_map_weight]
    · simp only [subCurrent_map_endpoint, map_addWeight_map_endpoint]
    · simpa [subCurrent_length] using h1
  unfold Get
  split
  · obtain ⟨j, e, he, hpos, hget⟩ := getByRoundRobin_ok b h0 h1 hex
    rw [hget]
    refine ⟨⟨j, e, he, hpos, rfl⟩, rfl, rfl, rfl, Int.natCast_nonneg _, ?_⟩
    have : (j + 1) % b.cluster.length < b.cluster.length := Nat.mod_lt _ hN
    simp only [Nat.cast_lt]
    exact this
  · split <;> exact hweighted

theorem KeepsConfig.trans {b0 b1 b2 : RoundRobinBalancer} (h1 : KeepsConfig b0 b1)
    (h2 : KeepsConfig b1 b2) : KeepsConfig b0 b2 :=
  ⟨h2.1.trans h1.1, h2.2.1.trans h1.2.1, h2.2.2.1.trans h1.2.2.1, h2.2.2.2⟩

/-- Every state of a run of calls started with the cursor inside the cluster
and an entry of positive weight keeps the configuration of the first. -/
theorem afterGets_keepsConfig (b0 : RoundRobinBalancer) (h0 : 0 ≤ b0.next)
    (h1 : b0.next < b0.cluster.length) (hex : ∃ e ∈ b0.cluster, 0 < e.weight) (k : Nat) :
    KeepsConfig b0 (afterGets k b0) := by
  induction k with
  | zero => exact ⟨rfl, rfl, rfl, h0, h1⟩
  | succ k ih =>
    have hstep := (Get_ok (afterGets k b0) ih.2.2.2.1 ih.2.2.2.2
      (exists_pos_of_map_weight_eq _ _ ih.2.1 hex)).2
    exact ih.trans hstep

theorem NewRoundRobinBalancer_getElem? (config : BalancerConfig) (j : Nat) :
    (NewRoundRobinBalancer config).cluster[j]?
      = (config.Endpoints[j]?).map fun c =>
          { weight := c.Weight, current := 0, endpoint := { Name := c.Name, Addr := c.Addr } } := by
  simp [NewRoundRobinBalancer]

/-- C8: for every configuration with at least one endpoint of weight `> 0`
and every `Algor` string, call number `k` of any run of calls of `Get` on the
constructed selector returns no error but an endpoint: that of position `j`,
where the cluster at the time of the call holds an entry of weight `> 0` with
that endpoint, which is the configured endpoint number `j`, of weight `> 0`. -/
theorem get_always_succeeds (config : BalancerConfig)
    (hex : ∃ c ∈ config.Endpoints, 0 < c.Weight) (k : Nat) :
    ∃ (j : Nat) (c : EndpointConfig) (e : RoundRobinEndpoint),
      nthGet k (NewRoundRobinBalancer config) = GetResult.ok j { Name := c.Name, Addr := c.Addr }
      ∧ config.Endpoints[j]? = some c ∧ 0 < c.Weight
      ∧ (afterGets k (NewRoundRobinBalancer config)).cluster[j]? = some e
      ∧ 0 < e.weight ∧ e.weight = c.Weight
      ∧ e.endpoint = { Name := c.Name, Addr := c.Addr } := by
  have hex0 : ∃ e ∈ (NewRoundRobinBalancer config).cluster, 0 < e.weight := by
    obtain ⟨c, hc, hpos⟩ := hex
    exact ⟨{ weight := c.Weight, current := 0, endpoint := { Name := c.Name, Addr := c.Addr } },
      List.mem_map_of_mem _ hc, hpos⟩
  have hlen : (0 : Int) < (NewRoundRobinBalancer config).cluster.length := by
    obtain ⟨e, he, _⟩ := hex0
    have := List.length_pos_of_mem he
    omega
  have hinv := afterGets_keepsConfig (NewRoundRobinBalancer config) (le_refl _) hlen hex0 k
  obtain ⟨⟨j, e, he, hpos, hres⟩, _⟩ := Get_ok (afterGets k (NewRoundRobinBalancer config))
    hinv.2.2.2.1 hinv.2.2.2.2 (exists_pos_of_map_weight_eq _ _ hinv.2.1 hex0)
  have hw := congrArg (fun l => l[j]?) hinv.2.1
  have hep := congrArg (fun l => l[j]?) hinv.2.2.1
  simp only [List.getElem?_map, he, NewRoundRobinBalancer_getElem?, Option.map_some',
    Option.map_map] at hw hep
  cases hc : config.Endpoints[j]? with
  | none => rw [hc] at hw; simp at hw
  | some c =>
    rw [hc] at hw hep
    simp only [Option.map_some', Function.comp_apply, Option.some.injEq] at hw hep
    refine ⟨j, c, e, ?_, hc, by omega, he, hpos, hw, hep⟩
    rw [nthGet, hres, hep]

theorem get_always_succeeds_witness :
    (∃ c ∈ (exampleABC "least_conn").Endpoints, 0 < c.Weight)
    ∧ ∃ (j : Nat) (c : EndpointConfig) (e : RoundRobinEndpoint),
      nthGet 4 (NewRoundRobinBalancer (exampleABC "least_conn"))
        = GetResult.ok j { Name := c.Name, Addr := c.Addr }
      ∧ (exampleABC "least_conn").Endpoints[j]? = some c ∧ 0 < c.Weight
      ∧ (afterGets 4 (NewRoundRobinBalancer (exampleABC "least_conn"))).cluster[j]? = some e
      ∧ 0 < e.weight ∧ e.weight = c.Weight
      ∧ e.endpoint = { Name := c.Name, Addr := c.Addr } :=
  ⟨⟨⟨"A", "a:1", 3⟩, by decide, by decide⟩,
    get_always_succeeds (exampleABC "least_conn") ⟨⟨"A", "a:1", 3⟩, by decide, by decide⟩ 4⟩

/-! ## The round-robin strategy: the sequence of a run -/

theorem countBefore_zero (cl : RoundRobinCluster) : countBefore cl 0 = 0 := by
  simp [countBefore]

theorem countBefore_length (cl : RoundRobinCluster) :
    countBefore cl cl.length = cl.countP eligible := by
  simp [countBefore]

theorem countBefore_le (cl : RoundRobinCluster) (k : Nat) :
    countBefore cl k ≤ cl.countP eligible :=
  (List.take_sublist k cl).countP_le _

theorem countBefore_succ (cl : RoundRobinCluster) (j : Nat) (e : RoundRobinEndpoint)
    (he : cl[j]? = some e) :
    countBefore cl (j + 1) = countBefore cl j + if 0 < e.weight then 1 else 0 := by
  unfold countBefore
  rw [List.take_succ, List.countP_append, he]
  by_cases h : 0 < e.weight <;> simp [eligible, h]

theorem countBefore_eq_of_not_pos (cl : RoundRobinCluster) (a : Nat) :
    ∀ b : Nat, a ≤ b → b ≤ cl.length →
      (∀ i, a ≤ i → i < b → ∀ e, cl[i]? = some e → e.weight ≤ 0) →
      countBefore cl b = countBefore cl a := by
  intro b
  induction b with
  | zero => intro hab _ _; have : a = 0 := by omega
            rw [this]
  | succ b ih =>
    intro hab hb hall
    by_cases hEq : a = b + 1
    · rw [hEq]
    · have hget : cl[b]? = some cl[b] := List.getElem?_eq_getElem (by omega)
      have hle := hall b (by omega) (by omega) _ hget
      have hnot : ¬ 0 < cl[b].weight := by omega
      rw [countBefore_succ cl b _ hget, if_neg hnot, Nat.add_zero]
      exact ih (by omega) (by omega) (fun i h1 h2 => hall i h1 (by omega))

/-- Where the scan stops, counted in entries of positive weight: the entry
found `d` steps after `s` is number `countBefore cl s mod m` of them, and the
cursor after it has one more of them below it, modulo `m`. -/
theorem countBefore_step (cl : RoundRobinCluster) (s d : Nat) (hs : s < cl.length)
    (hd : d < cl.length) (e : RoundRobinEndpoint)
    (he : cl[(s + d) % cl.length]? = some e) (hpos : 0 < e.weight)
    (hlt : ∀ d1, d1 < d → ∀ e1, cl[(s + d1) % cl.length]? = some e1 → e1.weight ≤ 0) :
    countBefore cl ((s + d) % cl.length) = countBefore cl s % cl.countP eligible
    ∧ countBefore cl (((s + d) % cl.length + 1) % cl.length) % cl.countP eligible
        = (countBefore cl s + 1) % cl.countP eligible := by
  have hm := countBefore_length cl
  by_cases hcase : s + d < cl.length
  · have hj : (s + d) % cl.length = s + d := Nat.mod_eq_of_lt hcase
    rw [hj] at he ⊢
    have hsame : countBefore cl (s + d) = countBefore cl s := by
      apply countBefore_eq_of_not_pos cl s (s + d) (by omega) (by omega)
      intro i h1 h2 e1 he1
      apply hlt (i - s) (by omega) e1
      have : s + (i - s) = i := by omega
      rw [this, Nat.mod_eq_of_lt (by omega)]; exact he1
    have hsucc := countBefore_succ cl (s + d) e he
    rw [if_pos hpos, hsame] at hsucc
    have hle := countBefore_le cl (s + d + 1)
    refine ⟨?_, ?_⟩
    · rw [hsame, Nat.mod_eq_of_lt (by omega)]
    · by_cases hlast : s + d + 1 = cl.length
      · rw [hlast, Nat.mod_self, countBefore_zero]
        have : countBefore cl s + 1 = cl.countP eligible := by
          rw [← hsucc, hlast, hm]
        rw [this, Nat.mod_self, Nat.zero_mod]
      · rw [Nat.mod_eq_of_lt (show s + d + 1 < cl.length by omega), hsucc]
  · have hj : (s + d) % cl.length = s + d - cl.length := by
      rw [Nat.mod_eq_sub_mod (by omega), Nat.mod_eq_of_lt (by omega)]
    rw [hj] at he ⊢
    have hfull : countBefore cl cl.length = countBefore cl s := by
      apply countBefore_eq_of_not_pos cl s cl.length (by omega) (le_refl _)
      intro i h1 h2 e1 he1
      apply hlt (i - s) (by omega) e1
      have : s + (i - s) = i := by omega
      rw [this, Nat.mod_eq_of_lt (by omega)]; exact he1
    have hzero : countBefore cl (s + d - cl.length) = countBefore cl 0 := by
      apply countBefore_eq_of_not_pos cl 0 _ (by omega) (by omega)
      intro i _ h2 e1 he1
      apply hlt (i + cl.length - s) (by omega) e1
      have : s + (i + cl.length - s) = i + cl.length := by omega
      rw [this, mod_add_length_self i _ (by omega)]; exact he1
    have hsucc := countBefore_succ cl (s + d - cl.length) e he
    rw [if_pos hpos, hzero, countBefore_zero] at hsucc
    rw [hm] at hfull
    refine ⟨?_, ?_⟩
    · rw [hzero, countBefore_zero, ← hfull, Nat.mod_self]
    · rw [Nat.mod_eq_of_lt (show s + d - cl.length + 1 < cl.length by omega), hsucc, ← hfull,
        Nat.zero_add, Nat.add_mod_left]

theorem positiveEntries_getElem?_aux (cl : RoundRobinCluster) :
    ∀ (n j : Nat) (e : RoundRobinEndpoint), cl[j]? = some e → 0 < e.weight →
      ((cl.enumFrom n).filter fun p => eligible p.2)[countBefore cl j]? = some (n + j, e) := by
  induction cl with
  | nil => intro n j e he; simp at he
  | cons x rest ih =>
    intro n j e he hpos
    cases j with
    | zero =>
      simp only [List.getElem?_cons_zero, Option.some.injEq] at he
      subst he
      simp [countBefore, eligible, hpos]
    | succ j =>
      rw [List.getElem?_cons_succ] at he
      have hrec := ih (n + 1) j e he hpos
      have hidx : n + 1 + j = n + (j + 1) := by omega
      rw [hidx] at hrec
      by_cases hx : 0 < x.weight
      · have hc : countBefore (x :: rest) (j + 1) = countBefore rest j + 1 := by
          simp [countBefore, eligible, hx]
        rw [hc]
        simp only [List.enumFrom_cons, eligible, hx, decide_True, List.filter_cons_of_pos,
          List.getElem?_cons_succ]
        exact hrec
      · have hc : countBefore (x :: rest) (j + 1) = countBefore rest j := by
          simp [countBefore, eligible, hx]
        rw [hc]
        simp only [List.enumFrom_cons, eligible, hx, decide_False, Bool.false_eq_true,
          not_false_eq_true, List.filter_cons_of_neg]
        exact hrec

/-- The entry of positive weight at position `j` is number `countBefore cl j`
of `positiveEntries cl`. -/
theorem positiveEntries_getElem? (cl : RoundRobinCluster) (j : Nat) (e : RoundRobinEndpoint)
    (he : cl[j]? = some e) (hpos : 0 < e.weight) :
    (positiveEntries cl)[countBefore cl j]? = some (j, e) := by
  have := positiveEntries_getElem?_aux cl 0 j e he hpos
  rw [Nat.zero_add] at this
  exact this

theorem positiveEntries_length_aux (cl : RoundRobinCluster) :
    ∀ n : Nat, ((cl.enumFrom n).filter fun p => eligible p.2).length = cl.countP eligible := by
  induction cl with
  | nil => intro n; rfl
  | cons x rest ih =>
    intro n
    by_cases hx : eligible x = true
    · simp [List.enumFrom_cons, hx, ih]
    · simp [List.enumFrom_cons, hx, ih]

theorem positiveEntries_length (cl : RoundRobinCluster) :
    (positiveEntries cl).length = cl.countP eligible :=
  positiveEntries_length_aux cl 0

/-- A run of round-robin calls from the cursor 0: the cluster stays, the
cursor after `k` calls has `k mod m` entries of positive weight below it
(modulo `m`), and call number `k` returns entry number `k mod m` of
`positiveEntries`. -/
theorem roundRobin_run (b0 : RoundRobinBalancer) (halg : b0.algor = RoundRobinBasic)
    (hnext : b0.next = 0) (hex : ∃ e ∈ b0.cluster, 0 < e.weight) (k : Nat) :
    (∃ s : Nat, s < b0.cluster.length
      ∧ countBefore b0.cluster s % b0.cluster.countP eligible
          = k % b0.cluster.countP eligible
      ∧ afterGets k b0 = { b0 with next := (s : Int) })
    ∧ ∃ (j : Nat) (e : RoundRobinEndpoint),
        (positiveEntries b0.cluster)[k % (positiveEntries b0.cluster).length]? = some (j, e)
        ∧ nthGet k b0 = GetResult.ok j e.endpoint := by
  have hN : 0 < b0.cluster.length := by
    obtain ⟨e, he, _⟩ := hex
    exact List.length_pos_of_mem he
  have hGet : ∀ s : Nat, s < b0.cluster.length →
      ∃ (j : Nat) (e : RoundRobinEndpoint), b0.cluster[j]? = some e ∧ 0 < e.weight
        ∧ countBefore b0.cluster j = countBefore b0.cluster s % b0.cluster.countP eligible
        ∧ countBefore b0.cluster ((j + 1) % b0.cluster.length) % b0.cluster.countP eligible
            = (countBefore b0.cluster s + 1) % b0.cluster.countP eligible
        ∧ Get { b0 with next := (s : Int) }
            = ({ b0 with next := (((j + 1) % b0.cluster.length : Nat) : Int) },
                GetResult.ok j e.endpoint) := by
    intro s hs
    obtain ⟨d, e, hd, he, hpos, hlt⟩ := exists_least_steps b0.cluster s hs hex
    obtain ⟨hc1, hc2⟩ := countBefore_step b0.cluster s d hs hd e he hpos hlt
    refine ⟨_, e, he, hpos, hc1, hc2, ?_⟩
    have := getByRoundRobinFuel_found { b0 with next := (s : Int) } s rfl hs d hd e he hpos hlt
      (b0.cluster.length + 1) (by omega)
    have hG : Get { b0 with next := (s : Int) } = getByRoundRobin { b0 with next := (s : Int) } := by
      simp only [Get, halg, if_true]
    rw [hG]
    exact this
  have hstate : ∀ k : Nat, ∃ s : Nat, s < b0.cluster.length
      ∧ countBefore b0.cluster s % b0.cluster.countP eligible
          = k % b0.cluster.countP eligible
      ∧ afterGets k b0 = { b0 with next := (s : Int) } := by
    intro k
    induction k with
    | zero =>
      refine ⟨0, hN, by rw [countBefore_zero], ?_⟩
      rw [afterGets]
      cases b0
      simp only at hnext
      subst hnext
      rfl
    | succ k ih =>
      obtain ⟨s, hs, hcnt, hst⟩ := ih
      obtain ⟨j, e, _, _, _, hc2, hget⟩ := hGet s hs
      refine ⟨(j + 1) % b0.cluster.length, Nat.mod_lt _ hN, ?_, ?_⟩
      · rw [hc2, Nat.add_mod, hcnt, ← Nat.add_mod]
      · rw [afterGets, hst, hget]
  refine ⟨hstate k, ?_⟩
  obtain ⟨s, hs, hcnt, hst⟩ := hstate k
  obtain ⟨j, e, he, hpos, hc1, _, hget⟩ := hGet s hs
  refine ⟨j, e, ?_, ?_⟩
  · rw [positiveEntries_length, ← hcnt, ← hc1]
    exact positiveEntries_getElem? b0.cluster j e he hpos
  · rw [nthGet, hst, hget]

theorem positiveEntries_of_all_pos (cl : RoundRobinCluster) (h : ∀ e ∈ cl, 0 < e.weight) :
    positiveEntries cl = cl.enum := by
  unfold positiveEntries
  rw [List.filter_eq_self]
  intro p hp
  have hmem : p.2 ∈ cl := List.snd_mem_of_mem_enumFrom hp
  simpa [eligible] using h p.2 hmem

theorem NewRoundRobinBalancer_exists_pos (config : BalancerConfig)
    (hex : ∃ c ∈ config.Endpoints, 0 < c.Weight) :
    ∃ e ∈ (NewRoundRobinBalancer config).cluster, 0 < e.weight := by
  obtain ⟨c, hc, hpos⟩ := hex
  exact ⟨{ weight := c.Weight, current := 0, endpoint := { Name := c.Name, Addr := c.Addr } },
    List.mem_map_of_mem _ hc, hpos⟩

/-- C4: for a configuration with `Algor = "round_robin"` and at least one
endpoint of positive weight, let `E = positiveEntries` be the entries of
positive weight of the constructed cluster, with their positions, in
configuration order, and `m` its length; call number `k` (from 0) of a run of
`Get` on the fresh selector returns the endpoint of `E[k mod m]`. When all the
weights are positive this is the configured endpoint number `k mod N`. -/
theorem roundRobin_sequence (config : BalancerConfig) (halg : config.Algor = "round_robin")
    (hex : ∃ c ∈ config.Endpoints, 0 < c.Weight) (k : Nat) :
    (∃ (j : Nat) (e : RoundRobinEndpoint),
      (positiveEntries (NewRoundRobinBalancer config).cluster)[
          k % (positiveEntries (NewRoundRobinBalancer config).cluster).length]? = some (j, e)
      ∧ nthGet k (NewRoundRobinBalancer config) = GetResult.ok j e.endpoint)
    ∧ ((∀ c ∈ config.Endpoints, 0 < c.Weight) →
        ∃ c : EndpointConfig, config.Endpoints[k % config.Endpoints.length]? = some c
          ∧ nthGet k (NewRoundRobinBalancer config)
              = GetResult.ok (k % config.Endpoints.length) { Name := c.Name, Addr := c.Addr }) := by
  have hrun := (roundRobin_run (NewRoundRobinBalancer config)
    (by simp [NewRoundRobinBalancer, halg]) rfl
    (NewRoundRobinBalancer_exists_pos config hex) k).2
  refine ⟨hrun, ?_⟩
  intro hall
  obtain ⟨j, e, hE, hres⟩ := hrun
  have hallcl : ∀ e ∈ (NewRoundRobinBalancer config).cluster, 0 < e.weight := by
    intro e he
    obtain ⟨c, hc, rfl⟩ := List.mem_map.1 he
    exact hall c hc
  have hlen : (NewRoundRobinBalancer config).cluster.length = config.Endpoints.length := by
    simp [NewRoundRobinBalancer]
  rw [positiveEntries_of_all_pos _ hallcl, List.enum_length, List.getElem?_enum,
    NewRoundRobinBalancer_getElem?, hlen] at hE
  cases hc : config.Endpoints[k % config.Endpoints.length]? with
  | none => rw [hc] at hE; simp at hE
  | some c =>
    rw [hc] at hE
    simp only [Option.map_some', Option.some.injEq, Prod.mk.injEq] at hE
    refine ⟨c, rfl, ?_⟩
    rw [hres, ← hE.1, ← hE.2]

theorem roundRobin_sequence_witness :
    (getResults 10 (NewRoundRobinBalancer (exampleABC "round_robin"))).map GetResult.name?
      = [some "A", some "B", some "C", some "A", some "B", some "C", some "A", some "B",
          some "C", some "A"]
    ∧ (getResults 6 (NewRoundRobinBalancer (exampleSkipB "round_robin"))).map GetResult.name?
      = [some "A", some "C", some "A", some "C", some "A", some "C"]
    ∧ (exampleSkipB "round_robin").Algor = "round_robin"
    ∧ (∃ c ∈ (exampleSkipB "round_robin").Endpoints, 0 < c.Weight)
    ∧ ((∃ (j : Nat) (e : RoundRobinEndpoint),
        (positiveEntries (NewRoundRobinBalancer (exampleSkipB "round_robin")).cluster)[
            3 % (positiveEntries
              (NewRoundRobinBalancer (exampleSkipB "round_robin")).cluster).length]?
          = some (j, e)
        ∧ nthGet 3 (NewRoundRobinBalancer (exampleSkipB "round_robin"))
            = GetResult.ok j e.endpoint)
      ∧ ((∀ c ∈ (exampleSkipB "round_robin").Endpoints, 0 < c.Weight) →
          ∃ c : EndpointConfig,
            (exampleSkipB "round_robin").Endpoints[
                3 % (exampleSkipB "round_robin").Endpoints.length]? = some c
            ∧ nthGet 3 (NewRoundRobinBalancer (exampleSkipB "round_robin"))
                = GetResult.ok (3 % (exampleSkipB "round_robin").Endpoints.length)
                    { Name := c.Name, Addr := c.Addr })) :=
  ⟨by decide, by decide, by decide, ⟨⟨"A", "a:1", 3⟩, by decide, by decide⟩,
    roundRobin_sequence (exampleSkipB "round_robin") (by decide)
      ⟨⟨"A", "a:1", 3⟩, by decide, by decide⟩ 3⟩

/-! ## Frame of the round-robin call, dispatch and construction -/

theorem getByRoundRobinFuel_cluster (fuel : Nat) (b : RoundRobinBalancer) :
    (getByRoundRobinFuel fuel b).1.cluster = b.cluster
    ∧ (getByRoundRobinFuel fuel b).1.algor = b.algor := by
  unfold getByRoundRobinFuel
  split <;> exact ⟨rfl, rfl⟩

theorem getByWeightedRoundRobin_algor (b : RoundRobinBalancer) :
    (getByWeightedRoundRobin b).1.algor = b.algor := by
  cases hb : (weightedLoop b.cluster 0 none 0 0).best with
  | none => rw [getByWeightedRoundRobin_of_none b hb]
  | some p => rw [getByWeightedRoundRobin_of_some b p.1 p.2 hb]

theorem Get_algor (b : RoundRobinBalancer) : (Get b).1.algor = b.algor := by
  unfold Get
  split
  · exact (getByRoundRobinFuel_cluster _ b).2
  · split <;> exact getByWeightedRoundRobin_algor b

theorem afterGets_algor (b : RoundRobinBalancer) (k : Nat) : (afterGets k b).algor = b.algor := by
  induction k with
  | zero => rfl
  | succ k ih => rw [afterGets, Get_algor, ih]

/-- C11: a round-robin `Get`, whatever the state and whether it returns an
endpoint, the error or panics, leaves the cluster as it was (its length, its
order, and every entry with its weight, `current` and endpoint) and leaves
`algor` as it was: `next` is the only field it can change. The same holds
under every bound on the iterations of its loop. -/
theorem roundRobin_frame (b : RoundRobinBalancer) :
    (getByRoundRobin b).1.cluster = b.cluster
    ∧ (getByRoundRobin b).1.algor = b.algor
    ∧ (getByRoundRobin b).1 = { b with next := (getByRoundRobin b).1.next }
    ∧ ∀ fuel : Nat, (getByRoundRobinFuel fuel b).1.cluster = b.cluster
        ∧ (getByRoundRobinFuel fuel b).1.algor = b.algor := by
  have h := getByRoundRobinFuel_cluster (b.cluster.length + 1) b
  refine ⟨h.1, h.2, ?_, fun fuel => getByRoundRobinFuel_cluster fuel b⟩
  unfold getByRoundRobin
  unfold getByRoundRobinFuel
  split <;> rfl

/-- C13: `NewRoundRobinBalancer` sets `algor` to `RoundRobinBasic` exactly
when `config.Algor` is `"round_robin"`; in every state that carries the `algor`
of the constructed selector, `Get` is `getByRoundRobin` in that case and
`getByWeightedRoundRobin` for every other string; no call of `Get` changes
`algor`, so in a run on the constructed selector every call is made by the
strategy chosen at construction. -/
theorem dispatch_default (config : BalancerConfig) :
    ((NewRoundRobinBalancer config).algor = RoundRobinBasic ↔ config.Algor = "round_robin")
    ∧ (config.Algor = "round_robin" →
        ∀ b : RoundRobinBalancer, b.algor = (NewRoundRobinBalancer config).algor →
          Get b = getByRoundRobin b)
    ∧ (config.Algor ≠ "round_robin" →
        ∀ b : RoundRobinBalancer, b.algor = (NewRoundRobinBalancer config).algor →
          Get b = getByWeightedRoundRobin b)
    ∧ (∀ b : RoundRobinBalancer, (Get b).1.algor = b.algor)
    ∧ ∀ k : Nat,
        (afterGets k (NewRoundRobinBalancer config)).algor = (NewRoundRobinBalancer config).algor
        ∧ (config.Algor = "round_robin" →
            nthGet k (NewRoundRobinBalancer config)
              = (getByRoundRobin (afterGets k (NewRoundRobinBalancer config))).2)
        ∧ (config.Algor ≠ "round_robin" →
            nthGet k (NewRoundRobinBalancer config)
              = (getByWeightedRoundRobin (afterGets k (NewRoundRobinBalancer config))).2) := by
  have hiff : (NewRoundRobinBalancer config).algor = RoundRobinBasic
      ↔ config.Algor = "round_robin" := by
    by_cases h : config.Algor = "round_robin"
    · simp [NewRoundRobinBalancer, h]
    · simp [NewRoundRobinBalancer, h, RoundRobinBasic, WeightedRoundRobinSmooth]
  have hrr : config.Algor = "round_robin" →
      ∀ b : RoundRobinBalancer, b.algor = (NewRoundRobinBalancer config).algor →
        Get b = getByRoundRobin b := by
    intro h b hb
    have : b.algor = RoundRobinBasic := hb.trans (hiff.2 h)
    simp [Get, this]
  have hw : config.Algor ≠ "round_robin" →
      ∀ b : RoundRobinBalancer, b.algor = (NewRoundRobinBalancer config).algor →
        Get b = getByWeightedRoundRobin b := by
    intro h b hb
    have : ¬ b.algor = RoundRobinBasic := fun hcon => h (hiff.1 (hb.symm.trans hcon))
    simp [Get, this]
  refine ⟨hiff, hrr, hw, Get_algor, ?_⟩
  intro k
  refine ⟨afterGets_algor _ k, ?_, ?_⟩
  · intro h
    rw [nthGet, hrr h _ (afterGets_algor _ k)]
  · intro h
    rw [nthGet, hw h _ (afterGets_algor _ k)]

theorem dispatch_default_witness :
    (exampleABC "least_conn").Algor ≠ "round_robin"
    ∧ nthGet 1 (NewRoundRobinBalancer (exampleABC "least_conn"))
        = (getByWeightedRoundRobin
            (afterGets 1 (NewRoundRobinBalancer (exampleABC "least_conn")))).2
    ∧ nthGet 1 (NewRoundRobinBalancer (exampleABC "round_robin"))
        = (getByRoundRobin (afterGets 1 (NewRoundRobinBalancer (exampleABC "round_robin")))).2
    ∧ nthGet 1 (NewRoundRobinBalancer (exampleABC "")) = GetResult.ok 0 ⟨"A", "a:1"⟩
    ∧ nthGet 1 (NewRoundRobinBalancer (exampleABC "round_robin")) = GetResult.ok 1 ⟨"B", "b:1"⟩ :=
  ⟨by decide,
    ((dispatch_default (exampleABC "least_conn")).2.2.2.2 1).2.2 (by decide),
    by decide, by decide, by decide⟩

/-- C14: the cluster of the constructed selector has the length of the
configured endpoint list and, position by position, the configured weight,
name and address with `current = 0`; the cursor `next` starts at 0. -/
theorem construction_preserves_config (config : BalancerConfig) :
    (NewRoundRobinBalancer config).cluster.length = config.Endpoints.length
    ∧ (∀ i : Nat, (NewRoundRobinBalancer config).cluster[i]?
        = (config.Endpoints[i]?).map fun c =>
            { weight := c.Weight, current := 0, endpoint := { Name := c.Name, Addr := c.Addr } })
    ∧ (NewRoundRobinBalancer config).cluster.map (fun e => e.weight)
        = config.Endpoints.map (fun c => c.Weight)
    ∧ (NewRoundRobinBalancer config).cluster.map (fun e => e.endpoint.Name)
        = config.Endpoints.map (fun c => c.Name)
    ∧ (NewRoundRobinBalancer config).cluster.map (fun e => e.endpoint.Addr)
        = config.Endpoints.map (fun c => c.Addr)
    ∧ (∀ e ∈ (NewRoundRobinBalancer config).cluster, e.current = 0)
    ∧ (NewRoundRobinBalancer config).next = 0 := by
  refine ⟨by simp [NewRoundRobinBalancer], NewRoundRobinBalancer_getElem? config,
    by simp [NewRoundRobinBalancer, Function.comp_def],
    by simp [NewRoundRobinBalancer, Function.comp_def],
    by simp [NewRoundRobinBalancer, Function.comp_def], ?_, rfl⟩
  intro e he
  obtain ⟨c, _, rfl⟩ := List.mem_map.1 he
  rfl

/-! ## The round-robin scan stays within one lap -/

/-- The positions examined when the loop, entered `t` steps after `s`, leaves
at the first entry of positive weight, `n` steps later. -/
theorem rrVisited_found (cl : RoundRobinCluster) (s : Nat) (hs : s < cl.length) (d : Nat)
    (hd : d < cl.length) (e : RoundRobinEndpoint) (he : cl[(s + d) % cl.length]? = some e)
    (hpos : 0 < e.weight) :
    ∀ (n t fuel : Nat), d = t + n → n < fuel →
      (∀ d1, t ≤ d1 → d1 < d → ∀ e1, cl[(s + d1) % cl.length]? = some e1 → e1.weight ≤ 0) →
      rrVisited cl (s : Int) fuel (((s + t) % cl.length : Nat) : Int)
        = (List.range' t (n + 1)).map fun u => (((s + u) % cl.length : Nat) : Int) := by
  intro n
  induction n with
  | zero =>
    intro t fuel hdt hf _
    obtain ⟨f, rfl⟩ : ∃ f, fuel = f + 1 := ⟨fuel - 1, by omega⟩
    have : t = d := by omega
    subst this
    rw [rrVisited, index_natCast, he]
    simp [hpos]
  | succ n ih =>
    intro t fuel hdt hf hlt
    obtain ⟨f, rfl⟩ : ∃ f, fuel = f + 1 := ⟨fuel - 1, by omega⟩
    have hN : 0 < cl.length := by omega
    have hlt1 : (s + t) % cl.length < cl.length := Nat.mod_lt _ hN
    have hget : cl[(s + t) % cl.length]? = some cl[(s + t) % cl.length] :=
      List.getElem?_eq_getElem hlt1
    have hle := hlt t (le_refl _) (by omega) _ hget
    have hnot : ¬ 0 < cl[(s + t) % cl.length].weight := by omega
    have hmod : ((s + t) % cl.length + 1) % cl.length = (s + (t + 1)) % cl.length := by
      rw [Nat.mod_add_mod]; rfl
    have hne := mod_add_ne_self s (t + 1) cl.length hs (by omega) (by omega)
    rw [rrVisited, index_natCast, hget]
    simp only [gt_iff_lt, hnot, decide_False, Bool.false_and, Bool.false_eq_true, if_false,
      getNext_natCast _ cl.length hlt1, Nat.cast_inj, hmod, hne]
    rw [ih (t + 1) f (by omega) (by omega) (fun d1 h1 h2 => hlt d1 (by omega) h2),
      List.range'_succ t (n + 1), List.map_cons]

/-- The positions examined when the loop, entered `t` steps after `s`, finds
no entry of positive weight and comes back to `s`. -/
theorem rrVisited_allUnavailable (cl : RoundRobinCluster) (s : Nat) (hs : s < cl.length) :
    ∀ (n t fuel : Nat), t + n + 1 = cl.length → n < fuel →
      (∀ d1, t ≤ d1 → d1 < cl.length →
        ∀ e1, cl[(s + d1) % cl.length]? = some e1 → e1.weight ≤ 0) →
      rrVisited cl (s : Int) fuel (((s + t) % cl.length : Nat) : Int)
        = (List.range' t (n + 1)).map fun u => (((s + u) % cl.length : Nat) : Int) := by
  intro n
  induction n with
  | zero =>
    intro t fuel htn hf hlt
    obtain ⟨f, rfl⟩ : ∃ f, fuel = f + 1 := ⟨fuel - 1, by omega⟩
    have hN : 0 < cl.length := by omega
    have hlt1 : (s + t) % cl.length < cl.length := Nat.mod_lt _ hN
    have hget : cl[(s + t) % cl.length]? = some cl[(s + t) % cl.length] :=
      List.getElem?_eq_getElem hlt1
    have hle := hlt t (le_refl _) (by omega) _ hget
    have hnot : ¬ 0 < cl[(s + t) % cl.length].weight := by omega
    have hmod : ((s + t) % cl.length + 1) % cl.length = s := by
      rw [Nat.mod_add_mod]
      have : s + t + 1 = s + cl.length := by omega
      rw [this]; exact mod_add_length_self s _ hs
    rw [rrVisited, index_natCast, hget]
    simp only [gt_iff_lt, hnot, decide_False, Bool.false_and, Bool.false_eq_true, if_false,
      getNext_natCast _ cl.length hlt1, hmod, if_true]
    rfl
  | succ n ih =>
    intro t fuel htn hf hlt
    obtain ⟨f, rfl⟩ : ∃ f, fuel = f + 1 := ⟨fuel - 1, by omega⟩
    have hN : 0 < cl.length := by omega
    have hlt1 : (s + t) % cl.length < cl.length := Nat.mod_lt _ hN
    have hget : cl[(s + t) % cl.length]? = some cl[(s + t) % cl.length] :=
      List.getElem?_eq_getElem hlt1
    have hle := hlt t (le_refl _) (by omega) _ hget
    have hnot : ¬ 0 < cl[(s + t) % cl.length].weight := by omega
    have hmod : ((s + t) % cl.length + 1) % cl.length = (s + (t + 1)) % cl.length := by
      rw [Nat.mod_add_mod]; rfl
    have hne := mod_add_ne_self s (t + 1) cl.length hs (by omega) (by omega)
    rw [rrVisited, index_natCast, hget]
    simp only [gt_iff_lt, hnot, decide_False, Bool.false_and, Bool.false_eq_true, if_false,
      getNext_natCast _ cl.length hlt1, Nat.cast_inj, hmod, hne]
    rw [ih (t + 1) f (by omega) (by omega) (fun d1 h1 h2 => hlt d1 (by omega) h2),
      List.range'_succ t (n + 1), List.map_cons]

/-- At most `N` consecutive positions from `s` (wrapping): they are pairwise
different and inside the cluster. -/
theorem lap_positions (s N len : Nat) (hN : 0 < N) (hlen : len ≤ N) :
    ((List.range' 0 len).map fun u => (((s + u) % N : Nat) : Int)).length ≤ N
    ∧ ((List.range' 0 len).map fun u => (((s + u) % N : Nat) : Int)).Nodup
    ∧ ∀ i ∈ (List.range' 0 len).map fun u => (((s + u) % N : Nat) : Int),
        0 ≤ i ∧ i < (N : Int) := by
  refine ⟨by simpa using hlen, ?_, ?_⟩
  · apply List.Nodup.map_on _ (List.nodup_range' 0 len)
    intro u hu v hv huv
    have hu1 : u < N := by have := (List.mem_range'_1.1 hu).2; omega
    have hv1 : v < N := by have := (List.mem_range'_1.1 hv).2; omega
    have hmod : (s + u) % N = (s + v) % N := by exact_mod_cast huv
    have hc : u % N = v % N := Nat.ModEq.add_left_cancel' s hmod
    rwa [Nat.mod_eq_of_lt hu1, Nat.mod_eq_of_lt hv1] at hc
  · intro i hi
    obtain ⟨u, _, rfl⟩ := List.mem_map.1 hi
    have : (s + u) % N < N := Nat.mod_lt _ hN
    exact ⟨Int.natCast_nonneg _, by exact_mod_cast this⟩

/-- C17: for a non-empty cluster of length `N` and a cursor in `[0, N)`, the
scan loop of round-robin `Get` makes at most `N` iterations however many it is
allowed: the positions it examines are at most `N`, pairwise different and all
inside `[0, N)`, and then it has left, with an endpoint or with the error and
never with an index panic; so the call neither panics nor fails to return. -/
theorem roundRobin_scan_one_lap (b : RoundRobinBalancer) (h0 : 0 ≤ b.next)
    (h1 : b.next < b.cluster.length) :
    (∃ (visited : List Int) (r : ScanResult),
      visited.length ≤ b.cluster.length ∧ visited.Nodup
      ∧ (∀ i ∈ visited, 0 ≤ i ∧ i < (b.cluster.length : Int))
      ∧ r ≠ ScanResult.indexPanic
      ∧ ∀ fuel : Nat, b.cluster.length ≤ fuel →
          rrVisited b.cluster b.next fuel b.next = visited
          ∧ rrLoop b.cluster b.next fuel b.next = some r)
    ∧ (getByRoundRobin b).2 ≠ GetResult.diverges
    ∧ (getByRoundRobin b).2 ≠ GetResult.panic
    ∧ ∀ fuel : Nat, b.cluster.length ≤ fuel → getByRoundRobinFuel fuel b = getByRoundRobin b := by
  have hs : b.next.toNat < b.cluster.length := by omega
  have hnext : b.next = (b.next.toNat : Int) := by omega
  have hN : 0 < b.cluster.length := by omega
  have hstart : (b.next.toNat + 0) % b.cluster.length = b.next.toNat := by
    rw [Nat.add_zero, Nat.mod_eq_of_lt hs]
  by_cases hex : ∃ e ∈ b.cluster, 0 < e.weight
  · obtain ⟨d, e, hd, he, hpos, hlt⟩ := exists_least_steps b.cluster b.next.toNat hs hex
    have hloop := rrLoop_found b.cluster b.next.toNat hs d hd e he hpos d 0
    have hvis := rrVisited_found b.cluster b.next.toNat hs d hd e he hpos d 0
    rw [hstart, ← hnext] at hloop hvis
    obtain ⟨hl1, hl2, hl3⟩ := lap_positions b.next.toNat b.cluster.length (d + 1) hN (by omega)
    have hf := getByRoundRobinFuel_found b b.next.toNat hnext hs d hd e he hpos hlt
    refine ⟨⟨_, ScanResult.found (((b.next.toNat + d) % b.cluster.length : Nat) : Int)
      e.endpoint, hl1, hl2, hl3, ?_, ?_⟩, ?_, ?_, ?_⟩
    · exact fun h => ScanResult.noConfusion h
    · intro fuel hfuel
      exact ⟨hvis fuel (by omega) (by omega) (fun d1 _ h2 => hlt d1 h2),
        hloop fuel (by omega) (by omega) (fun d1 _ h2 => hlt d1 h2)⟩
    · rw [getByRoundRobin, hf _ (by omega)]; simp
    · rw [getByRoundRobin, hf _ (by omega)]; simp
    · intro fuel hfuel
      rw [getByRoundRobin, hf fuel (by omega), hf _ (by omega)]
  · have hall : ∀ e ∈ b.cluster, e.weight ≤ 0 := by
      intro e he
      by_contra hcon
      exact hex ⟨e, he, by omega⟩
    have hall1 : ∀ d1, 0 ≤ d1 → d1 < b.cluster.length →
        ∀ e1, b.cluster[(b.next.toNat + d1) % b.cluster.length]? = some e1 → e1.weight ≤ 0 :=
      fun d1 _ _ e1 h => hall e1 (List.mem_iff_getElem?.2 ⟨_, h⟩)
    have hloop := rrLoop_allUnavailable b.cluster b.next.toNat hs (b.cluster.length - 1) 0
    have hvis := rrVisited_allUnavailable b.cluster b.next.toNat hs (b.cluster.length - 1) 0
    rw [hstart, ← hnext] at hloop hvis
    obtain ⟨hl1, hl2, hl3⟩ := lap_positions b.next.toNat b.cluster.length
      (b.cluster.length - 1 + 1) hN (by omega)
    have hf := getByRoundRobinFuel_allUnavailable b b.next.toNat hnext hs hall
    refine ⟨⟨_, ScanResult.allUnavailable, hl1, hl2, hl3, ?_, ?_⟩, ?_, ?_, ?_⟩
    · exact fun h => ScanResult.noConfusion h
    · intro fuel hfuel
      exact ⟨hvis fuel (by omega) (by omega) hall1, hloop fuel (by omega) (by omega) hall1⟩
    · rw [getByRoundRobin, hf _ (by omega)]; simp
    · rw [getByRoundRobin, hf _ (by omega)]; simp
    · intro fuel hfuel
      rw [getByRoundRobin, hf fuel (by omega), hf _ (by omega)]

theorem roundRobin_scan_one_lap_witness :
    rrVisited exampleCursor.cluster exampleCursor.next 4 exampleCursor.next = [3, 0]
    ∧ rrVisited (exampleAllDown RoundRobinBasic).cluster 1 7 1 = [1, 0]
    ∧ ((∃ (visited : List Int) (r : ScanResult),
        visited.length ≤ exampleCursor.cluster.length ∧ visited.Nodup
        ∧ (∀ i ∈ visited, 0 ≤ i ∧ i < (exampleCursor.cluster.length : Int))
        ∧ r ≠ ScanResult.indexPanic
        ∧ ∀ fuel : Nat, exampleCursor.cluster.length ≤ fuel →
            rrVisited exampleCursor.cluster exampleCursor.next fuel exampleCursor.next = visited
            ∧ rrLoop exampleCursor.cluster exampleCursor.next fuel exampleCursor.next = some r)
      ∧ (getByRoundRobin exampleCursor).2 ≠ GetResult.diverges
      ∧ (getByRoundRobin exampleCursor).2 ≠ GetResult.panic
      ∧ ∀ fuel : Nat, exampleCursor.cluster.length ≤ fuel →
          getByRoundRobinFuel fuel exampleCursor = getByRoundRobin exampleCursor) :=
  ⟨by decide, by decide, roundRobin_scan_one_lap exampleCursor (by decide) (by decide)⟩

/-! ## Coverage of the round-robin strategy -/

theorem exists_residue_in_window (t r m : Nat) (hr : r < m) :
    ∃ k, t ≤ k ∧ k < t + m ∧ k % m = r := by
  refine ⟨t + (r + m - t % m) % m, by omega, ?_, ?_⟩
  · have := Nat.mod_lt (r + m - t % m) (show 0 < m by omega)
    omega
  · rw [Nat.add_mod_mod]
    have ha : t % m < m := Nat.mod_lt _ (by omega)
    have ht : m * (t / m) + t % m = t := Nat.div_add_mod t m
    have : t + (r + m - t % m) = m * (t / m + 1) + r := by
      rw [Nat.mul_add, Nat.mul_one]
      generalize m * (t / m) = z at ht
      omega
    rw [this, Nat.mul_add_mod, Nat.mod_eq_of_lt hr]

/-- C12: on a selector constructed with `Algor = "round_robin"` from a
configuration of `N` endpoints with at least one positive weight, after any
number `t` of calls the next `N` calls (numbers `t` to `t + N - 1`) return the
endpoint of every entry of positive weight at least once. -/
theorem roundRobin_coverage (config : BalancerConfig) (halg : config.Algor = "round_robin")
    (hex : ∃ c ∈ config.Endpoints, 0 < c.Weight) (t i : Nat) (e : RoundRobinEndpoint)
    (he : (NewRoundRobinBalancer config).cluster[i]? = some e) (hpos : 0 < e.weight) :
    ∃ k, t ≤ k ∧ k < t + config.Endpoints.length
      ∧ nthGet k (NewRoundRobinBalancer config) = GetResult.ok i e.endpoint := by
  have hlen : (NewRoundRobinBalancer config).cluster.length = config.Endpoints.length := by
    simp [NewRoundRobinBalancer]
  have hE := positiveEntries_getElem? _ i e he hpos
  have hr : countBefore (NewRoundRobinBalancer config).cluster i
      < (positiveEntries (NewRoundRobinBalancer config).cluster).length := by
    by_contra hcon
    rw [List.getElem?_eq_none (by omega)] at hE
    simp at hE
  have hm : (positiveEntries (NewRoundRobinBalancer config).cluster).length
      ≤ config.Endpoints.length := by
    rw [positiveEntries_length, ← hlen]
    exact List.countP_le_length _
  obtain ⟨k, hk1, hk2, hk3⟩ := exists_residue_in_window t _ _ hr
  refine ⟨k, hk1, by omega, ?_⟩
  obtain ⟨j, e1, hE1, hres⟩ := (roundRobin_run (NewRoundRobinBalancer config)
    (by simp [NewRoundRobinBalancer, halg]) rfl
    (NewRoundRobinBalancer_exists_pos config hex) k).2
  rw [hk3, hE] at hE1
  simp only [Option.some.injEq, Prod.mk.injEq] at hE1
  rw [hres, ← hE1.1, ← hE1.2]

theorem roundRobin_coverage_witness :
    (exampleSkipB "round_robin").Algor = "round_robin"
    ∧ (NewRoundRobinBalancer (exampleSkipB "round_robin")).cluster[2]?
        = some ⟨1, 0, ⟨"C", "c:1"⟩⟩
    ∧ ∃ k, 5 ≤ k ∧ k < 5 + (exampleSkipB "round_robin").Endpoints.length
      ∧ nthGet k (NewRoundRobinBalancer (exampleSkipB "round_robin"))
          = GetResult.ok 2 (⟨1, 0, ⟨"C", "c:1"⟩⟩ : RoundRobinEndpoint).endpoint :=
  ⟨by decide, by decide,
    roundRobin_coverage (exampleSkipB "round_robin") (by decide)
      ⟨⟨"A", "a:1", 3⟩, by decide, by decide⟩ 5 2 ⟨1, 0, ⟨"C", "c:1"⟩⟩ (by decide) (by decide)⟩

/-! ## The weighted strategy: which entry wins -/

theorem weightedLoop_cons_skip (x : RoundRobinEndpoint) (rest : RoundRobinCluster) (i : Nat)
    (best : Option (Nat × Endpoint)) (total max : Int) (hx : x.weight ≤ 0) :
    (weightedLoop (x :: rest) i best total max).best
        = (weightedLoop rest (i + 1) best total max).best
    ∧ (weightedLoop (x :: rest) i best total max).max
        = (weightedLoop rest (i + 1) best total max).max := by
  simp only [weightedLoop, hx, decide_True, Bool.true_or, if_true, and_self]

theorem weightedLoop_cons_pick (x : RoundRobinEndpoint) (rest : RoundRobinCluster) (i : Nat)
    (best : Option (Nat × Endpoint)) (total max : Int) (hx : 0 < x.weight)
    (hpick : best = none ∨ max < x.current) :
    (weightedLoop (x :: rest) i best total max).best
        = (weightedLoop rest (i + 1) (some (i, x.endpoint)) (wrapInt (total + x.current)) x.current).best
    ∧ (weightedLoop (x :: rest) i best total max).max
        = (weightedLoop rest (i + 1) (some (i, x.endpoint)) (wrapInt (total + x.current)) x.current).max := by
  have hx1 : ¬ x.weight ≤ 0 := by omega
  have hp : (best.isNone || decide (x.current > max)) = true := by
    rcases hpick with h | h
    · simp [h]
    · simp [h]
  simp only [weightedLoop, hx1, decide_False, available_eq_true, Bool.not_true, Bool.or_self,
    Bool.false_eq_true, if_false, hp, if_true, and_self]

theorem weightedLoop_cons_keep (x : RoundRobinEndpoint) (rest : RoundRobinCluster) (i : Nat)
    (p : Nat × Endpoint) (total max : Int) (hx : 0 < x.weight) (hkeep : x.current ≤ max) :
    (weightedLoop (x :: rest) i (some p) total max).best
        = (weightedLoop rest (i + 1) (some p) (wrapInt (total + x.current)) max).best
    ∧ (weightedLoop (x :: rest) i (some p) total max).max
        = (weightedLoop rest (i + 1) (some p) (wrapInt (total + x.current)) max).max := by
  have hx1 : ¬ x.weight ≤ 0 := by omega
  have hp : ¬ ((some p).isNone || decide (x.current > max)) = true := by
    have : ¬ x.current > max := by omega
    simp [this]
  simp only [weightedLoop, hx1, decide_False, available_eq_true, Bool.not_true, Bool.or_self,
    Bool.false_eq_true, if_false, hp, and_self]

/-- The loop entered with a `best` already set: `max` ends as the greatest
`current` seen, and `best` is either kept or is the first later entry of
positive weight that holds the final `max`, which then exceeds the old one. -/
theorem weightedLoop_some_spec (cl : RoundRobinCluster) :
    ∀ (i : Nat) (p : Nat × Endpoint) (total max : Int),
      (∀ e1 ∈ cl, 0 < e1.weight → e1.current ≤ (weightedLoop cl i (some p) total max).max)
      ∧ max ≤ (weightedLoop cl i (some p) total max).max
      ∧ (((weightedLoop cl i (some p) total max).best = some p
            ∧ (weightedLoop cl i (some p) total max).max = max)
          ∨ ∃ (j : Nat) (e : RoundRobinEndpoint),
              (weightedLoop cl i (some p) total max).best = some (i + j, e.endpoint)
              ∧ cl[j]? = some e ∧ 0 < e.weight
              ∧ e.current = (weightedLoop cl i (some p) total max).max
              ∧ max < (weightedLoop cl i (some p) total max).max
              ∧ ∀ (k : Nat) (e1 : RoundRobinEndpoint), k < j → cl[k]? = some e1 →
                  0 < e1.weight → e1.current < (weightedLoop cl i (some p) total max).max) := by
  induction cl with
  | nil =>
    intro i p total max
    refine ⟨fun e1 h => absurd h (List.not_mem_nil _), ?_, Or.inl ⟨rfl, rfl⟩⟩
    simp [weightedLoop]
  | cons x rest ih =>
    intro i p total max
    by_cases hx : x.weight ≤ 0
    · obtain ⟨hb, hm⟩ := weightedLoop_cons_skip x rest i (some p) total max hx
      obtain ⟨h1, h2, h3⟩ := ih (i + 1) p total max
      rw [hb, hm]
      refine ⟨?_, h2, ?_⟩
      · intro e1 he1 hpos
        rcases List.mem_cons.1 he1 with h | h
        · subst h; omega
        · exact h1 e1 h hpos
      · rcases h3 with h3 | ⟨j, e, hj1, hj2, hj3, hj4, hj5, hj6⟩
        · exact Or.inl h3
        · refine Or.inr ⟨j + 1, e, ?_, by simpa using hj2, hj3, hj4, hj5, ?_⟩
          · rw [hj1]; congr 2; omega
          · intro k e1 hk hget hpos
            cases k with
            | zero =>
              simp only [List.getElem?_cons_zero, Option.some.injEq] at hget
              subst hget; omega
            | succ k =>
              rw [List.getElem?_cons_succ] at hget
              exact hj6 k e1 (by omega) hget hpos
    · have hxpos : 0 < x.weight := by omega
      by_cases hgt : max < x.current
      · obtain ⟨hb, hm⟩ := weightedLoop_cons_pick x rest i (some p) total max hxpos (Or.inr hgt)
        obtain ⟨h1, h2, h3⟩ := ih (i + 1) (i, x.endpoint) (wrapInt (total + x.current)) x.current
        rw [hb, hm]
        refine ⟨?_, by omega, Or.inr ?_⟩
        · intro e1 he1 hpos
          rcases List.mem_cons.1 he1 with h | h
          · subst h; exact h2
          · exact h1 e1 h hpos
        · rcases h3 with ⟨h3, h4⟩ | ⟨j, e, hj1, hj2, hj3, hj4, hj5, hj6⟩
          · refine ⟨0, x, by rw [h3]; rfl, by simp, hxpos, h4.symm, by omega, ?_⟩
            intro k e1 hk
            omega
          · refine ⟨j + 1, e, ?_, by simpa using hj2, hj3, hj4, by omega, ?_⟩
            · rw [hj1]; congr 2; omega
            · intro k e1 hk hget hpos
              cases k with
              | zero =>
                simp only [List.getElem?_cons_zero, Option.some.injEq] at hget
                subst hget; exact hj5
              | succ k =>
                rw [List.getElem?_cons_succ] at hget
                exact hj6 k e1 (by omega) hget hpos
      · obtain ⟨hb, hm⟩ := weightedLoop_cons_keep x rest i p total max hxpos (by omega)
        obtain ⟨h1, h2, h3⟩ := ih (i + 1) p (wrapInt (total + x.current)) max
        rw [hb, hm]
        refine ⟨?_, h2, ?_⟩
        · intro e1 he1 hpos
          rcases List.mem_cons.1 he1 with h | h
          · subst h; omega
          · exact h1 e1 h hpos
        · rcases h3 with h3 | ⟨j, e, hj1, hj2, hj3, hj4, hj5, hj6⟩
          · exact Or.inl h3
          · refine Or.inr ⟨j + 1, e, ?_, by simpa using hj2, hj3, hj4, hj5, ?_⟩
            · rw [hj1]; congr 2; omega
            · intro k e1 hk hget hpos
              cases k with
              | zero =>
                simp only [List.getElem?_cons_zero, Option.some.injEq] at hget
                subst hget; omega
              | succ k =>
                rw [List.getElem?_cons_succ] at hget
                exact hj6 k e1 (by omega) hget hpos

/-- The loop entered with `best = nil` over a cluster with an entry of positive
weight: `best` ends at the first entry of positive weight whose `current`
(before the call) is the greatest among the entries of positive weight. -/
theorem weightedLoop_none_spec (cl : RoundRobinCluster) :
    ∀ (i : Nat) (total max : Int), (∃ e ∈ cl, 0 < e.weight) →
      ∃ (j : Nat) (e : RoundRobinEndpoint),
        (weightedLoop cl i none total max).best = some (i + j, e.endpoint)
        ∧ cl[j]? = some e ∧ 0 < e.weight
        ∧ (∀ e1 ∈ cl, 0 < e1.weight → e1.current ≤ e.current)
        ∧ ∀ (k : Nat) (e1 : RoundRobinEndpoint), k < j → cl[k]? = some e1 →
            0 < e1.weight → e1.current < e.current := by
  induction cl with
  | nil => intro i total max h; obtain ⟨e, he, _⟩ := h; exact absurd he (List.not_mem_nil _)
  | cons x rest ih =>
    intro i total max hex
    by_cases hx : x.weight ≤ 0
    · obtain ⟨hb, _⟩ := weightedLoop_cons_skip x rest i none total max hx
      have hex1 : ∃ e ∈ rest, 0 < e.weight := by
        obtain ⟨e, he, hpos⟩ := hex
        rcases List.mem_cons.1 he with h | h
        · subst h; omega
        · exact ⟨e, h, hpos⟩
      obtain ⟨j, e, hj1, hj2, hj3, hj4, hj5⟩ := ih (i + 1) total max hex1
      refine ⟨j + 1, e, ?_, by simpa using hj2, hj3, ?_, ?_⟩
      · rw [hb, hj1]; congr 2; omega
      · intro e1 he1 hpos
        rcases List.mem_cons.1 he1 with h | h
        · subst h; omega
        · exact hj4 e1 h hpos
      · intro k e1 hk hget hpos
        cases k with
        | zero =>
          simp only [List.getElem?_cons_zero, Option.some.injEq] at hget
          subst hget; omega
        | succ k =>
          rw [List.getElem?_cons_succ] at hget
          exact hj5 k e1 (by omega) hget hpos
    · have hxpos : 0 < x.weight := by omega
      obtain ⟨hb, _⟩ := weightedLoop_cons_pick x rest i none total max hxpos (Or.inl rfl)
      obtain ⟨h1, h2, h3⟩ :=
        weightedLoop_some_spec rest (i + 1) (i, x.endpoint) (wrapInt (total + x.current)) x.current
      rcases h3 with ⟨h3, h4⟩ | ⟨j, e, hj1, hj2, hj3, hj4, hj5, hj6⟩
      · refine ⟨0, x, by rw [hb, h3]; rfl, by simp, hxpos, ?_, ?_⟩
        · intro e1 he1 hpos
          rcases List.mem_cons.1 he1 with h | h
          · subst h; exact le_refl _
          · have := h1 e1 h hpos
            omega
        · intro k e1 hk
          omega
      · refine ⟨j + 1, e, ?_, by simpa using hj2, hj3, ?_, ?_⟩
        · rw [hb, hj1]; congr 2; omega
        · intro e1 he1 hpos
          rcases List.mem_cons.1 he1 with h | h
          · subst h; omega
          · have := h1 e1 h hpos
            omega
        · intro k e1 hk hget hpos
          cases k with
          | zero =>
            simp only [List.getElem?_cons_zero, Option.some.injEq] at hget
            subst hget; omega
          | succ k =>
            rw [List.getElem?_cons_succ] at hget
            have := hj6 k e1 (by omega) hget hpos
            omega

/-- One weighted call in a state with an entry of positive weight: the winner
`win`, the state after the call and the result. -/
theorem getByWeightedRoundRobin_spec (b : RoundRobinBalancer)
    (hex : ∃ e ∈ b.cluster, 0 < e.weight) :
    ∃ (win : Nat) (e : RoundRobinEndpoint),
      b.cluster[win]? = some e ∧ 0 < e.weight
      ∧ (∀ e1 ∈ b.cluster, 0 < e1.weight → e1.current ≤ e.current)
      ∧ (∀ (k : Nat) (e1 : RoundRobinEndpoint), k < win → b.cluster[k]? = some e1 →
          0 < e1.weight → e1.current < e.current)
      ∧ getByWeightedRoundRobin b
          = ({ b with
                cluster :=
                  subCurrent (b.cluster.map addWeight) win (wrapInt (currentTotal b.cluster)) },
              GetResult.ok win e.endpoint) := by
  obtain ⟨j, e, hj1, hj2, hj3, hj4, hj5⟩ := weightedLoop_none_spec b.cluster 0 0 0 hex
  rw [Nat.zero_add] at hj1
  exact ⟨j, e, hj2, hj3, hj4, hj5, getByWeightedRoundRobin_of_some b j e.endpoint hj1⟩

/-- C18: in a state with at least one entry of positive weight, a weighted
`Get` returns the endpoint of the entry `win` of positive weight whose
`current` before the call is the greatest among the entries of positive weight,
the earliest such entry (every earlier entry of positive weight has a strictly
smaller `current`); when all `current` values are 0, as on a fresh selector,
it is the first entry of positive weight, whatever the weights. -/
theorem weighted_winner_pre_update (b : RoundRobinBalancer)
    (hex : ∃ e ∈ b.cluster, 0 < e.weight) :
    ∃ (win : Nat) (e : RoundRobinEndpoint),
      (getByWeightedRoundRobin b).2 = GetResult.ok win e.endpoint
      ∧ b.cluster[win]? = some e ∧ 0 < e.weight
      ∧ (∀ e1 ∈ b.cluster, 0 < e1.weight → e1.current ≤ e.current)
      ∧ (∀ (k : Nat) (e1 : RoundRobinEndpoint), k < win → b.cluster[k]? = some e1 →
          0 < e1.weight → e1.current < e.current)
      ∧ ((∀ e1 ∈ b.cluster, e1.current = 0) →
          (positiveEntries b.cluster)[0]? = some (win, e)) := by
  obtain ⟨win, e, h1, h2, h3, h4, h5⟩ := getByWeightedRoundRobin_spec b hex
  refine ⟨win, e, by rw [h5], h1, h2, h3, h4, ?_⟩
  intro hzero
  have hwin : win < b.cluster.length := by
    by_contra hcon
    rw [List.getElem?_eq_none (by omega)] at h1
    simp at h1
  have hcount : countBefore b.cluster win = countBefore b.cluster 0 := by
    apply countBefore_eq_of_not_pos b.cluster 0 win (Nat.zero_le _) (by omega)
    intro k _ hk e1 he1
    by_contra hcon
    have hlt := h4 k e1 hk he1 (by omega)
    rw [hzero e1 (List.mem_iff_getElem?.2 ⟨_, he1⟩),
      hzero e (List.mem_iff_getElem?.2 ⟨_, h1⟩)] at hlt
    omega
  have := positiveEntries_getElem? b.cluster win e h1 h2
  rwa [hcount, countBefore_zero] at this

theorem weighted_winner_pre_update_witness :
    (getByWeightedRoundRobin exampleState).2 = GetResult.ok 0 ⟨"A", "a:1"⟩
    ∧ ∃ (win : Nat) (e : RoundRobinEndpoint),
      (getByWeightedRoundRobin exampleState).2 = GetResult.ok win e.endpoint
      ∧ exampleState.cluster[win]? = some e ∧ 0 < e.weight
      ∧ (∀ e1 ∈ exampleState.cluster, 0 < e1.weight → e1.current ≤ e.current)
      ∧ (∀ (k : Nat) (e1 : RoundRobinEndpoint), k < win → exampleState.cluster[k]? = some e1 →
          0 < e1.weight → e1.current < e.current)
      ∧ ((∀ e1 ∈ exampleState.cluster, e1.current = 0) →
          (positiveEntries exampleState.cluster)[0]? = some (win, e)) :=
  ⟨by decide,
    weighted_winner_pre_update exampleState ⟨⟨3, 3, ⟨"A", "a:1"⟩⟩, by decide, by decide⟩⟩

/-! ## The weighted strategy: the sum of the accumulators -/

theorem weightTotal_cons (x : RoundRobinEndpoint) (rest : RoundRobinCluster) :
    weightTotal (x :: rest) = (if 0 < x.weight then x.weight else 0) + weightTotal rest := by
  by_cases h : 0 < x.weight <;> simp [weightTotal, eligible, h]

theorem currentTotal_cons (x : RoundRobinEndpoint) (rest : RoundRobinCluster) :
    currentTotal (x :: rest) = (if 0 < x.weight then x.current else 0) + currentTotal rest := by
  by_cases h : 0 < x.weight <;> simp [currentTotal, eligible, h]

theorem weightTotal_nil : weightTotal [] = 0 := rfl

theorem currentTotal_nil : currentTotal [] = 0 := rfl

theorem weightTotal_congr (cl : RoundRobinCluster) :
    ∀ cl0 : RoundRobinCluster,
      cl.map (fun e => e.weight) = cl0.map (fun e => e.weight) →
      weightTotal cl = weightTotal cl0 := by
  induction cl with
  | nil =>
    intro cl0 h
    cases cl0 with
    | nil => rfl
    | cons y r => simp at h
  | cons x rest ih =>
    intro cl0 h
    cases cl0 with
    | nil => simp at h
    | cons y r =>
      simp only [List.map_cons, List.cons.injEq] at h
      rw [weightTotal_cons, weightTotal_cons, ih r h.2, h.1]

theorem weightTotal_pos (cl : RoundRobinCluster) (hex : ∃ e ∈ cl, 0 < e.weight) :
    0 < weightTotal cl := by
  induction cl with
  | nil => obtain ⟨e, he, _⟩ := hex; exact absurd he (List.not_mem_nil _)
  | cons x rest ih =>
    rw [weightTotal_cons]
    have hnonneg : ∀ l : RoundRobinCluster, 0 ≤ weightTotal l := by
      intro l
      induction l with
      | nil => simp [weightTotal]
      | cons y r ihr =>
        rw [weightTotal_cons]
        split <;> omega
    by_cases hx : 0 < x.weight
    · rw [if_pos hx]
      have := hnonneg rest
      omega
    · rw [if_neg hx]
      obtain ⟨e, he, hpos⟩ := hex
      rcases List.mem_cons.1 he with heq | hmem
      · subst heq; exact absurd hpos hx
      · have := ih ⟨e, hmem, hpos⟩
        omega

theorem currentTotal_map_addWeightZ (cl : RoundRobinCluster) :
    currentTotal (cl.map addWeightZ) = currentTotal cl + weightTotal cl := by
  induction cl with
  | nil => rfl
  | cons x rest ih =>
    rw [List.map_cons, currentTotal_cons, currentTotal_cons, weightTotal_cons, ih,
      addWeightZ_weight]
    by_cases h : 0 < x.weight
    · rw [addWeightZ_of_pos x h]
      simp only [h, if_true]
      omega
    · simp only [h, if_false]
      omega

theorem currentTotal_subCurrentZ (cl : RoundRobinCluster) :
    ∀ (win : Nat) (t : Int) (e : RoundRobinEndpoint), cl[win]? = some e → 0 < e.weight →
      currentTotal (subCurrentZ cl win t) = currentTotal cl - t := by
  induction cl with
  | nil => intro win t e h; simp at h
  | cons x rest ih =>
    intro win t e h hpos
    cases win with
    | zero =>
      simp only [List.getElem?_cons_zero, Option.some.injEq] at h
      subst h
      simp only [subCurrentZ, List.modify_zero_cons]
      rw [currentTotal_cons, currentTotal_cons]
      simp only [hpos, if_true]
      omega
    | succ win =>
      rw [List.getElem?_cons_succ] at h
      have := ih win t e h hpos
      simp only [subCurrentZ, List.modify_succ_cons] at this ⊢
      rw [currentTotal_cons, currentTotal_cons, this]
      omega

theorem getByWeightedRoundRobin_map_weight (b : RoundRobinBalancer) :
    (getByWeightedRoundRobin b).1.cluster.map (fun e => e.weight)
        = b.cluster.map (fun e => e.weight)
    ∧ (getByWeightedRoundRobin b).1.cluster.map (fun e => e.endpoint)
        = b.cluster.map (fun e => e.endpoint)
    ∧ (getByWeightedRoundRobin b).1.next = b.next := by
  cases hb : (weightedLoop b.cluster 0 none 0 0).best with
  | none =>
    rw [getByWeightedRoundRobin_of_none b hb]
    exact ⟨map_addWeight_map_weight _, map_addWeight_map_endpoint _, rfl⟩
  | some p =>
    rw [getByWeightedRoundRobin_of_some b p.1 p.2 hb]
    refine ⟨?_, ?_, rfl⟩
    · simp only [subCurrent_map_weight, map_addWeight_map_weight]
    · simp only [subCurrent_map_endpoint, map_addWeight_map_endpoint]

/-- The exact step: when every entry of positive weight gains its weight and
the winner loses the sum of the accumulators, the new accumulators add up to the
sum of the positive weights. -/
theorem currentTotal_stepZ (cl : RoundRobinCluster) (win : Nat) (e : RoundRobinEndpoint)
    (h1 : cl[win]? = some e) (h2 : 0 < e.weight) :
    currentTotal (subCurrentZ (cl.map addWeightZ) win (currentTotal cl)) = weightTotal cl := by
  have hget : (cl.map addWeightZ)[win]? = some (addWeightZ e) := by
    simp [h1]
  rw [currentTotal_subCurrentZ _ win _ (addWeightZ e) hget (by rw [addWeightZ_weight]; exact h2),
    currentTotal_map_addWeightZ]
  omega

theorem currentTotal_map_addWeight_emod (cl : RoundRobinCluster) :
    currentTotal (cl.map addWeight) % 2 ^ 64 = (currentTotal cl + weightTotal cl) % 2 ^ 64 := by
  induction cl with
  | nil => rfl
  | cons x rest ih =>
    rw [List.map_cons, currentTotal_cons, currentTotal_cons, weightTotal_cons, addWeight_weight]
    by_cases h : 0 < x.weight
    · rw [addWeight_of_pos x h]
      simp only [h, if_true]
      have := wrapInt_emod (x.current + x.weight)
      omega
    · simp only [h, if_false]
      omega

theorem currentTotal_subCurrent_emod (cl : RoundRobinCluster) :
    ∀ (win : Nat) (t : Int) (e : RoundRobinEndpoint), cl[win]? = some e → 0 < e.weight →
      currentTotal (subCurrent cl win t) % 2 ^ 64 = (currentTotal cl - t) % 2 ^ 64 := by
  induction cl with
  | nil => intro win t e h; simp at h
  | cons x rest ih =>
    intro win t e h hpos
    cases win with
    | zero =>
      simp only [List.getElem?_cons_zero, Option.some.injEq] at h
      subst h
      simp only [subCurrent, List.modify_zero_cons]
      rw [currentTotal_cons, currentTotal_cons]
      simp only [hpos, if_true]
      have := wrapInt_emod (x.current - t)
      omega
    | succ win =>
      rw [List.getElem?_cons_succ] at h
      have := ih win t e h hpos
      simp only [subCurrent, List.modify_succ_cons] at this ⊢
      rw [currentTotal_cons, currentTotal_cons]
      omega

/-- After a weighted call that returns an endpoint, the accumulators of the
entries of positive weight add up to the sum of the positive weights modulo
`2^64`. -/
theorem currentTotal_after_weighted_emod (b : RoundRobinBalancer)
    (hex : ∃ e ∈ b.cluster, 0 < e.weight) :
    currentTotal (getByWeightedRoundRobin b).1.cluster % 2 ^ 64
      = weightTotal b.cluster % 2 ^ 64 := by
  obtain ⟨win, e, h1, h2, _, _, h5⟩ := getByWeightedRoundRobin_spec b hex
  rw [h5]
  have hget : (b.cluster.map addWeight)[win]? = some (addWeight e) := by
    simp [h1]
  have ha := currentTotal_subCurrent_emod _ win (wrapInt (currentTotal b.cluster)) (addWeight e)
    hget (by rw [addWeight_weight]; exact h2)
  have hb := currentTotal_map_addWeight_emod b.cluster
  have hc := wrapInt_emod (currentTotal b.cluster)
  show currentTotal (subCurrent (b.cluster.map addWeight) win (wrapInt (currentTotal b.cluster)))
      % 2 ^ 64 = weightTotal b.cluster % 2 ^ 64
  omega

theorem Get_of_weighted (b : RoundRobinBalancer) (h : b.algor ≠ RoundRobinBasic) :
    Get b = getByWeightedRoundRobin b := by
  simp [Get, h]

/-- A run of weighted calls keeps the weights, the endpoints and the cursor. -/
theorem afterGets_weighted_keeps (b : RoundRobinBalancer) (h : b.algor ≠ RoundRobinBasic)
    (k : Nat) :
    (afterGets k b).cluster.map (fun e => e.weight) = b.cluster.map (fun e => e.weight)
    ∧ (afterGets k b).cluster.map (fun e => e.endpoint) = b.cluster.map (fun e => e.endpoint)
    ∧ (afterGets k b).next = b.next := by
  induction k with
  | zero => exact ⟨rfl, rfl, rfl⟩
  | succ k ih =>
    have halg : (afterGets k b).algor ≠ RoundRobinBasic := by rw [afterGets_algor]; exact h
    rw [afterGets, Get_of_weighted _ halg]
    obtain ⟨h1, h2, h3⟩ := getByWeightedRoundRobin_map_weight (afterGets k b)
    exact ⟨h1.trans ih.1, h2.trans ih.2.1, h3.trans ih.2.2⟩

/-- The call agrees with the exact step when no addition overflows and the
winner's new accumulator is representable. -/
theorem subCurrent_map_addWeight_exact (cl : RoundRobinCluster) (win : Nat)
    (e : RoundRobinEndpoint) (hw : cl[win]? = some e) (he : 0 < e.weight)
    (h1 : ∀ x ∈ cl, 0 < x.weight →
      minInt ≤ x.current + x.weight ∧ x.current + x.weight ≤ maxInt)
    (h3 : minInt ≤ e.current + e.weight - currentTotal cl
      ∧ e.current + e.weight - currentTotal cl ≤ maxInt) :
    subCurrent (cl.map addWeight) win (wrapInt (currentTotal cl))
      = subCurrentZ (cl.map addWeightZ) win (currentTotal cl) := by
  apply List.ext_getElem?
  intro j
  rw [subCurrent_getElem?, subCurrentZ_getElem?, List.getElem?_map, List.getElem?_map]
  cases hj : cl[j]? with
  | none => rfl
  | some x =>
    have hmem : x ∈ cl := List.mem_iff_getElem?.2 ⟨_, hj⟩
    simp only [Option.map_some', Option.some.injEq]
    by_cases hpos : 0 < x.weight
    · rw [addWeight_of_pos x hpos, addWeightZ_of_pos x hpos]
      by_cases hwj : win = j
      · subst hwj
        rw [hj] at hw
        simp only [Option.some.injEq] at hw
        subst hw
        simp only [if_true, wrapInt_wrap_sub_wrap, wrapInt_of_fits _ h3.1 h3.2]
      · simp only [hwj, if_false, wrapInt_of_fits _ (h1 x hmem hpos).1 (h1 x hmem hpos).2]
    · have hle : x.weight ≤ 0 := by omega
      rw [addWeight_of_not_pos x hle, addWeightZ_of_not_pos x hle]
      by_cases hwj : win = j
      · subst hwj
        rw [hj] at hw
        simp only [Option.some.injEq] at hw
        subst hw
        exact absurd he hpos
      · simp only [hwj, if_false]

/-- C19, as the code has it: in a state (with whatever `current` values) that
holds an entry of positive weight, after a weighted `Get` the sum of `current`
over the entries of positive weight is congruent modulo `2^64` to the sum `W`
of the positive weights, which the call does not change, and is equal to `W`
when no addition of the call overflows and the winner's new `current` is
representable; hence the `total` of the next call, and in a run of weighted
calls the `total` of every call from the second on, is `W` reduced to the
range of `int`, which is `W` itself when `W <= maxInt`. -/
theorem weighted_sum_invariant (b : RoundRobinBalancer)
    (hex : ∃ e ∈ b.cluster, 0 < e.weight) :
    currentTotal (getByWeightedRoundRobin b).1.cluster % 2 ^ 64
        = weightTotal b.cluster % 2 ^ 64
    ∧ weightTotal (getByWeightedRoundRobin b).1.cluster = weightTotal b.cluster
    ∧ (∃ (win : Nat) (e : RoundRobinEndpoint),
        (getByWeightedRoundRobin b).2 = GetResult.ok win e.endpoint
        ∧ b.cluster[win]? = some e
        ∧ ((∀ x ∈ b.cluster, 0 < x.weight →
              minInt ≤ x.current + x.weight ∧ x.current + x.weight ≤ maxInt) →
            minInt ≤ e.current + e.weight - currentTotal b.cluster →
            e.current + e.weight - currentTotal b.cluster ≤ maxInt →
            currentTotal (getByWeightedRoundRobin b).1.cluster = weightTotal b.cluster))
    ∧ (weightedLoop (getByWeightedRoundRobin b).1.cluster 0 none 0 0).total
        = wrapInt (weightTotal b.cluster)
    ∧ (b.algor ≠ RoundRobinBasic → ∀ k : Nat, 1 ≤ k →
        (weightedLoop (afterGets k b).cluster 0 none 0 0).total = wrapInt (weightTotal b.cluster)
        ∧ (weightTotal b.cluster ≤ maxInt →
            (weightedLoop (afterGets k b).cluster 0 none 0 0).total = weightTotal b.cluster)) := by
  have h1 := currentTotal_after_weighted_emod b hex
  have hnext : ∀ b1 : RoundRobinBalancer, (∃ e ∈ b1.cluster, 0 < e.weight) →
      (weightedLoop (getByWeightedRoundRobin b1).1.cluster 0 none 0 0).total
        = wrapInt (weightTotal b1.cluster) := by
    intro b1 hex1
    rw [weightedLoop_total _ _ _ _ _ wrapInt_zero, zero_add]
    exact wrapInt_eq_of_emod_eq _ _ (currentTotal_after_weighted_emod b1 hex1)
  refine ⟨h1, weightTotal_congr _ _ (getByWeightedRoundRobin_map_weight b).1, ?_, hnext b hex, ?_⟩
  · obtain ⟨win, e, hw1, hw2, _, _, hget⟩ := getByWeightedRoundRobin_spec b hex
    refine ⟨win, e, by rw [hget], hw1, ?_⟩
    intro hfit1 hfit2 hfit3
    rw [hget]
    show currentTotal
        (subCurrent (b.cluster.map addWeight) win (wrapInt (currentTotal b.cluster)))
      = weightTotal b.cluster
    rw [subCurrent_map_addWeight_exact b.cluster win e hw1 hw2 hfit1 ⟨hfit2, hfit3⟩,
      currentTotal_stepZ b.cluster win e hw1 hw2]
  · intro halg k hk
    obtain ⟨k1, rfl⟩ : ∃ k1, k = k1 + 1 := ⟨k - 1, by omega⟩
    have halgk : (afterGets k1 b).algor ≠ RoundRobinBasic := by rw [afterGets_algor]; exact halg
    have hkeep := afterGets_weighted_keeps b halg k1
    have hexk := exists_pos_of_map_weight_eq _ _ hkeep.1 hex
    have htot : (weightedLoop (afterGets (k1 + 1) b).cluster 0 none 0 0).total
        = wrapInt (weightTotal b.cluster) := by
      rw [afterGets, Get_of_weighted _ halgk, hnext _ hexk, weightTotal_congr _ _ hkeep.1]
    refine ⟨htot, fun hW => ?_⟩
    rw [htot]
    have hpos := weightTotal_pos _ hex
    exact wrapInt_of_fits _ (by unfold minInt; omega) hW

theorem weighted_sum_invariant_witness :
    weightTotal exampleState.cluster = 4
    ∧ currentTotal exampleState.cluster = 2
    ∧ currentTotal (getByWeightedRoundRobin exampleState).1.cluster = 4
    ∧ (currentTotal (getByWeightedRoundRobin exampleState).1.cluster % 2 ^ 64
          = weightTotal exampleState.cluster % 2 ^ 64
      ∧ weightTotal (getByWeightedRoundRobin exampleState).1.cluster
          = weightTotal exampleState.cluster
      ∧ (∃ (win : Nat) (e : RoundRobinEndpoint),
          (getByWeightedRoundRobin exampleState).2 = GetResult.ok win e.endpoint
          ∧ exampleState.cluster[win]? = some e
          ∧ ((∀ x ∈ exampleState.cluster, 0 < x.weight →
                minInt ≤ x.current + x.weight ∧ x.current + x.weight ≤ maxInt) →
              minInt ≤ e.current + e.weight - currentTotal exampleState.cluster →
              e.current + e.weight - currentTotal exampleState.cluster ≤ maxInt →
              currentTotal (getByWeightedRoundRobin exampleState).1.cluster
                = weightTotal exampleState.cluster))
      ∧ (weightedLoop (getByWeightedRoundRobin exampleState).1.cluster 0 none 0 0).total
          = wrapInt (weightTotal exampleState.cluster)
      ∧ (exampleState.algor ≠ RoundRobinBasic → ∀ k : Nat, 1 ≤ k →
          (weightedLoop (afterGets k exampleState).cluster 0 none 0 0).total
            = wrapInt (weightTotal exampleState.cluster)
          ∧ (weightTotal exampleState.cluster ≤ maxInt →
              (weightedLoop (afterGets k exampleState).cluster 0 none 0 0).total
                = weightTotal exampleState.cluster))) :=
  ⟨by decide, by decide, by decide,
    weighted_sum_invariant exampleState ⟨⟨3, 3, ⟨"A", "a:1"⟩⟩, by decide, by decide⟩⟩

/-- C19 as stated fails where the sums overflow: with two endpoints of weight
`maxInt` the sum of the positive weights is `2^64 - 2`, while after the second
call the accumulators are `0` and `-2`, with sum `-2`; and the third call
subtracts `total = -2`, not the sum of the weights. -/
theorem weighted_sum_overflows :
    weightTotal (NewRoundRobinBalancer exampleMax).cluster = 18446744073709551614
    ∧ (∃ e ∈ (afterGets 1 (NewRoundRobinBalancer exampleMax)).cluster, 0 < e.weight)
    ∧ (getByWeightedRoundRobin (afterGets 1 (NewRoundRobinBalancer exampleMax))).1.cluster.map
        (fun e => e.current) = [0, -2]
    ∧ currentTotal (getByWeightedRoundRobin (afterGets 1 (NewRoundRobinBalancer exampleMax))).1.cluster
        = -2
    ∧ currentTotal (getByWeightedRoundRobin (afterGets 1 (NewRoundRobinBalancer exampleMax))).1.cluster
        ≠ weightTotal (afterGets 1 (NewRoundRobinBalancer exampleMax)).cluster
    ∧ (weightedLoop (afterGets 2 (NewRoundRobinBalancer exampleMax)).cluster 0 none 0 0).total
        = -2 := by
  decide

/-! ## The weighted strategy: bounds on the accumulators -/

theorem currentTotal_ge (cl : RoundRobinCluster) (lo : Int)
    (h : ∀ e1 ∈ cl, 0 < e1.weight → lo ≤ e1.current) :
    (cl.countP eligible : Int) * lo ≤ currentTotal cl := by
  induction cl with
  | nil => simp [currentTotal]
  | cons x rest ih =>
    have ih1 := ih (fun e1 he1 => h e1 (List.mem_cons_of_mem _ he1))
    rw [currentTotal_cons]
    by_cases hx : 0 < x.weight
    · have hx1 := h x (List.mem_cons_self _ _) hx
      have hc : (x :: rest).countP eligible = rest.countP eligible + 1 := by
        simp [List.countP_cons, eligible, hx]
      rw [hc, if_pos hx]
      push_cast
      rw [add_mul, one_mul]
      omega
    · have hc : (x :: rest).countP eligible = rest.countP eligible := by
        simp [List.countP_cons, eligible, hx]
      rw [hc, if_neg hx]
      omega

theorem currentTotal_le (cl : RoundRobinCluster) (hi : Int)
    (h : ∀ e1 ∈ cl, 0 < e1.weight → e1.current ≤ hi) :
    currentTotal cl ≤ (cl.countP eligible : Int) * hi := by
  induction cl with
  | nil => simp [currentTotal]
  | cons x rest ih =>
    have ih1 := ih (fun e1 he1 => h e1 (List.mem_cons_of_mem _ he1))
    rw [currentTotal_cons]
    by_cases hx : 0 < x.weight
    · have hx1 := h x (List.mem_cons_self _ _) hx
      have hc : (x :: rest).countP eligible = rest.countP eligible + 1 := by
        simp [List.countP_cons, eligible, hx]
      rw [hc, if_pos hx]
      push_cast
      rw [add_mul, one_mul]
      omega
    · have hc : (x :: rest).countP eligible = rest.countP eligible := by
        simp [List.countP_cons, eligible, hx]
      rw [hc, if_neg hx]
      omega

theorem current_add_le_currentTotal (cl : RoundRobinCluster) (lo : Int)
    (h : ∀ e1 ∈ cl, 0 < e1.weight → lo ≤ e1.current) :
    ∀ e ∈ cl, 0 < e.weight →
      e.current + ((cl.countP eligible : Int) - 1) * lo ≤ currentTotal cl := by
  induction cl with
  | nil => intro e he; exact absurd he (List.not_mem_nil _)
  | cons x rest ih =>
    intro e he hpos
    have hrest : ∀ e1 ∈ rest, 0 < e1.weight → lo ≤ e1.current :=
      fun e1 he1 => h e1 (List.mem_cons_of_mem _ he1)
    rw [currentTotal_cons]
    by_cases hx : 0 < x.weight
    · have hc : (x :: rest).countP eligible = rest.countP eligible + 1 := by
        simp [List.countP_cons, eligible, hx]
      rw [hc, if_pos hx]
      push_cast
      rcases List.mem_cons.1 he with heq | hmem
      · subst heq
        have := currentTotal_ge rest lo hrest
        have h1 : ((rest.countP eligible : Int) + 1 - 1) * lo = (rest.countP eligible : Int) * lo := by
          ring
        rw [h1]
        omega
      · have := ih hrest e hmem hpos
        have hx1 := h x (List.mem_cons_self _ _) hx
        have h1 : ((rest.countP eligible : Int) + 1 - 1) * lo
            = ((rest.countP eligible : Int) - 1) * lo + lo := by ring
        rw [h1]
        omega
    · have hc : (x :: rest).countP eligible = rest.countP eligible := by
        simp [List.countP_cons, eligible, hx]
      rw [hc, if_neg hx]
      rcases List.mem_cons.1 he with heq | hmem
      · subst heq; exact absurd hpos hx
      · have := ih hrest e hmem hpos
        omega

theorem countP_eligible_pos (cl : RoundRobinCluster) (hex : ∃ e ∈ cl, 0 < e.weight) :
    0 < cl.countP eligible := by
  obtain ⟨e, he, hpos⟩ := hex
  exact List.countP_pos_iff.2 ⟨e, he, by simpa [eligible] using hpos⟩

/-- The winner's `current` is not negative when the accumulators of the
entries of positive weight add up to a non-negative sum, and it is positive
when they add up to a positive sum. -/
theorem max_current_nonneg (cl : RoundRobinCluster) (m : Int)
    (hmax : ∀ e1 ∈ cl, 0 < e1.weight → e1.current ≤ m) :
    (0 ≤ currentTotal cl → (∃ e ∈ cl, 0 < e.weight) → 0 ≤ m)
    ∧ (0 < currentTotal cl → 0 < m) := by
  have hle := currentTotal_le cl m hmax
  have hn : (0 : Int) ≤ (cl.countP eligible : Int) := Int.natCast_nonneg _
  refine ⟨?_, ?_⟩
  · intro h0 hex
    have hpos : (1 : Int) ≤ (cl.countP eligible : Int) := by
      have := countP_eligible_pos cl hex
      omega
    by_contra hcon
    have : (cl.countP eligible : Int) * m ≤ 1 * m :=
      mul_le_mul_of_nonpos_right hpos (by omega)
    omega
  · intro h0
    by_contra hcon
    have : (cl.countP eligible : Int) * m ≤ 0 :=
      mul_nonpos_of_nonneg_of_nonpos hn (by omega)
    omega

/-- An entry of the cluster a weighted call leaves, in terms of the entry at
the same position before the call. -/
theorem weighted_new_entry (cl : RoundRobinCluster) (win : Nat) (t : Int) (j : Nat)
    (e1 : RoundRobinEndpoint) (h : (subCurrentZ (cl.map addWeightZ) win t)[j]? = some e1) :
    ∃ e, cl[j]? = some e
      ∧ e1 = if win = j then { addWeightZ e with current := (addWeightZ e).current - t }
             else addWeightZ e := by
  rw [subCurrentZ_getElem?, List.getElem?_map] at h
  cases hc : cl[j]? with
  | none => rw [hc] at h; simp at h
  | some e =>
    rw [hc] at h
    simp only [Option.map_some', Option.some.injEq] at h
    exact ⟨e, rfl, h.symm⟩

/-- The exact step keeps the bounds: entries of weight `<= 0` keep
`current = 0`, and every entry of positive weight keeps `current > -W`. -/
theorem weighted_step_boundsZ (cl : RoundRobinCluster) (W : Int) (win : Nat)
    (w : RoundRobinEndpoint) (hw1 : cl[win]? = some w) (hw2 : 0 < w.weight)
    (hw3 : ∀ e1 ∈ cl, 0 < e1.weight → e1.current ≤ w.current)
    (hT0 : 0 ≤ currentTotal cl) (hTW : currentTotal cl ≤ W)
    (h2 : ∀ e ∈ cl, ¬ 0 < e.weight → e.current = 0)
    (h3 : ∀ e ∈ cl, 0 < e.weight → -W < e.current) :
    (∀ e ∈ subCurrentZ (cl.map addWeightZ) win (currentTotal cl),
      ¬ 0 < e.weight → e.current = 0)
    ∧ ∀ e ∈ subCurrentZ (cl.map addWeightZ) win (currentTotal cl),
        0 < e.weight → -W < e.current := by
  have hex : ∃ e ∈ cl, 0 < e.weight := ⟨w, List.mem_iff_getElem?.2 ⟨_, hw1⟩, hw2⟩
  have hwmax := (max_current_nonneg cl w.current hw3).1 hT0 hex
  have key : ∀ e1 ∈ subCurrentZ (cl.map addWeightZ) win (currentTotal cl),
      (¬ 0 < e1.weight → e1.current = 0) ∧ (0 < e1.weight → -W < e1.current) := by
    intro e1 he1
    obtain ⟨j, hj⟩ := List.mem_iff_getElem?.1 he1
    obtain ⟨e, hej, heq⟩ := weighted_new_entry _ _ _ _ _ hj
    have hmem : e ∈ cl := List.mem_iff_getElem?.2 ⟨_, hej⟩
    by_cases hpos : 0 < e.weight
    · rw [addWeightZ_of_pos e hpos] at heq
      by_cases hwj : win = j
      · subst hwj
        rw [hej] at hw1
        simp only [Option.some.injEq] at hw1
        subst hw1
        rw [if_pos rfl] at heq
        subst heq
        refine ⟨fun hn => absurd hpos hn, fun _ => ?_⟩
        show -W < e.current + e.weight - currentTotal cl
        omega
      · rw [if_neg hwj] at heq
        subst heq
        refine ⟨fun hn => absurd hpos hn, fun _ => ?_⟩
        have := h3 e hmem hpos
        show -W < e.current + e.weight
        omega
    · have hle : e.weight ≤ 0 := by omega
      rw [addWeightZ_of_not_pos e hle] at heq
      have hwj : ¬ win = j := by
        intro hwj
        subst hwj
        rw [hej] at hw1
        simp only [Option.some.injEq] at hw1
        subst hw1
        exact hpos hw2
      rw [if_neg hwj] at heq
      subst heq
      exact ⟨fun _ => h2 e1 hmem hpos, fun hp => absurd hp hpos⟩
  exact ⟨fun e he => (key e he).1, fun e he => (key e he).2⟩

theorem currentTotal_append (l1 l2 : RoundRobinCluster) :
    currentTotal (l1 ++ l2) = currentTotal l1 + currentTotal l2 := by
  simp [currentTotal]

theorem currentTotal_eq_zero_of_countP (cl : RoundRobinCluster)
    (h : cl.countP eligible = 0) : currentTotal cl = 0 := by
  have : cl.filter eligible = [] := by
    rw [List.filter_eq_nil_iff]
    intro a ha
    exact (List.countP_eq_zero.1 h) a ha
  simp [currentTotal, this]

theorem currentTotal_eq_zero_of_current (cl : RoundRobinCluster)
    (h : ∀ e ∈ cl, e.current = 0) : currentTotal cl = 0 := by
  induction cl with
  | nil => rfl
  | cons x rest ih =>
    rw [currentTotal_cons, ih (fun e he => h e (List.mem_cons_of_mem _ he)),
      h x (List.mem_cons_self _ _)]
    simp

theorem countP_eligible_congr (cl cl0 : RoundRobinCluster)
    (h : cl.map (fun e => e.weight) = cl0.map (fun e => e.weight)) :
    cl.countP eligible = cl0.countP eligible := by
  have key : ∀ l : RoundRobinCluster,
      l.countP eligible = (l.map fun e => e.weight).countP fun w => decide (0 < w) := by
    intro l
    rw [List.countP_map]
    rfl
  rw [key cl, key cl0, h]

theorem bound_arith (n p W S x : Int) (hW : 1 ≤ W) (hp : p ≤ n - 1) (hS : S ≤ W)
    (h : x + p * (-W + 1) ≤ S) : x ≤ n * W - (n - 1) := by
  have h1 : p * (W - 1) ≤ (n - 1) * (W - 1) := mul_le_mul_of_nonneg_right hp (by omega)
  linarith

theorem minInt_eq : minInt = -maxInt - 1 := by decide

theorem FitsInt_congr (cl cl0 : RoundRobinCluster)
    (h : cl.map (fun e => e.weight) = cl0.map (fun e => e.weight)) (hfit : FitsInt cl0) :
    FitsInt cl := by
  intro e he
  have hmem : e.weight ∈ cl0.map (fun e => e.weight) := by
    rw [← h]; exact List.mem_map_of_mem _ he
  obtain ⟨e0, he0, hw⟩ := List.mem_map.1 hmem
  have hw1 : e0.weight = e.weight := hw
  have := hfit e0 he0
  rw [countP_eligible_congr _ _ h, weightTotal_congr _ _ h, ← hw1]
  exact this

/-- One weighted call in a state inside the bounds, under the width condition:
no addition or subtraction of the call overflows, so the call is the exact
step, and the state it leaves is inside the bounds again, with the
accumulators of the entries of positive weight adding up to `W`. -/
theorem weighted_step_of_inv (b : RoundRobinBalancer)
    (hex : ∃ e ∈ b.cluster, 0 < e.weight) (hfit : FitsInt b.cluster)
    (hT0 : 0 ≤ currentTotal b.cluster) (hTW : currentTotal b.cluster ≤ weightTotal b.cluster)
    (h2 : ∀ e ∈ b.cluster, ¬ 0 < e.weight → e.current = 0)
    (h3 : ∀ e ∈ b.cluster, 0 < e.weight → -weightTotal b.cluster < e.current) :
    ∃ (win : Nat) (e : RoundRobinEndpoint),
      b.cluster[win]? = some e ∧ 0 < e.weight
      ∧ (∀ e1 ∈ b.cluster, 0 < e1.weight → e1.current ≤ e.current)
      ∧ getByWeightedRoundRobin b
          = ({ b with
                cluster := subCurrentZ (b.cluster.map addWeightZ) win (currentTotal b.cluster) },
              GetResult.ok win e.endpoint)
      ∧ (∀ e1 ∈ (getByWeightedRoundRobin b).1.cluster, ¬ 0 < e1.weight → e1.current = 0)
      ∧ (∀ e1 ∈ (getByWeightedRoundRobin b).1.cluster,
          0 < e1.weight → -weightTotal b.cluster < e1.current)
      ∧ currentTotal (getByWeightedRoundRobin b).1.cluster = weightTotal b.cluster := by
  obtain ⟨win, e, hw1, hw2, hw3, _, hget⟩ := getByWeightedRoundRobin_spec b hex
  have hW : 1 ≤ weightTotal b.cluster := by
    have := weightTotal_pos _ hex
    omega
  have hn1 : (1 : Int) ≤ (b.cluster.countP eligible : Int) := by
    have := countP_eligible_pos _ hex
    omega
  have hnW : weightTotal b.cluster
      ≤ (b.cluster.countP eligible : Int) * weightTotal b.cluster := by
    have : 1 * weightTotal b.cluster
        ≤ (b.cluster.countP eligible : Int) * weightTotal b.cluster :=
      mul_le_mul_of_nonneg_right hn1 (by omega)
    linarith
  have hlo : ∀ e1 ∈ b.cluster, 0 < e1.weight → -weightTotal b.cluster + 1 ≤ e1.current := by
    intro e1 he1 hp
    have := h3 e1 he1 hp
    omega
  have hup : ∀ x ∈ b.cluster, 0 < x.weight →
      x.current ≤ (b.cluster.countP eligible : Int) * weightTotal b.cluster := by
    intro x hx hp
    have h := current_add_le_currentTotal b.cluster _ hlo x hx hp
    have hb := bound_arith (b.cluster.countP eligible) ((b.cluster.countP eligible : Int) - 1)
      (weightTotal b.cluster) (currentTotal b.cluster) x.current hW (le_refl _) hTW h
    linarith
  have hmin := minInt_eq
  have hemem : e ∈ b.cluster := List.mem_iff_getElem?.2 ⟨_, hw1⟩
  have hwmax := (max_current_nonneg b.cluster e.current hw3).1 hT0 hex
  have hfit1 : ∀ x ∈ b.cluster, 0 < x.weight →
      minInt ≤ x.current + x.weight ∧ x.current + x.weight ≤ maxInt := by
    intro x hx hp
    have h1 := hfit x hx
    have h2' := hup x hx hp
    have h3' := h3 x hx hp
    constructor <;> linarith
  have hfit3 : minInt ≤ e.current + e.weight - currentTotal b.cluster
      ∧ e.current + e.weight - currentTotal b.cluster ≤ maxInt := by
    have h1 := hfit e hemem
    have h2' := hup e hemem hw2
    constructor <;> linarith
  have hexact := subCurrent_map_addWeight_exact b.cluster win e hw1 hw2 hfit1 hfit3
  rw [hexact] at hget
  have hbounds := weighted_step_boundsZ b.cluster (weightTotal b.cluster) win e hw1 hw2 hw3
    hT0 hTW h2 h3
  refine ⟨win, e, hw1, hw2, hw3, hget, ?_, ?_, ?_⟩
  · rw [hget]; exact hbounds.1
  · rw [hget]; exact hbounds.2
  · rw [hget]; exact currentTotal_stepZ b.cluster win e hw1 hw2

/-- The invariant of a run of weighted calls from a state whose accumulators
are all 0, under the width condition: entries of weight `<= 0` keep
`current = 0`, entries of positive weight keep `current > -W`, and the
accumulators of the entries of positive weight add up to 0 before the first
call and to `W` afterwards. -/
theorem weighted_run_invariant (b0 : RoundRobinBalancer) (halg : b0.algor ≠ RoundRobinBasic)
    (hex : ∃ e ∈ b0.cluster, 0 < e.weight) (hfresh : ∀ e ∈ b0.cluster, e.current = 0)
    (hfit : FitsInt b0.cluster) (k : Nat) :
    (∀ e ∈ (afterGets k b0).cluster, ¬ 0 < e.weight → e.current = 0)
    ∧ (∀ e ∈ (afterGets k b0).cluster, 0 < e.weight → -weightTotal b0.cluster < e.current)
    ∧ currentTotal (afterGets k b0).cluster = if k = 0 then 0 else weightTotal b0.cluster := by
  have hW := weightTotal_pos b0.cluster hex
  induction k with
  | zero =>
    refine ⟨fun e he _ => hfresh e he, fun e he _ => ?_, ?_⟩
    · rw [show afterGets 0 b0 = b0 from rfl] at he
      rw [hfresh e he]; omega
    · rw [if_pos rfl]; exact currentTotal_eq_zero_of_current _ hfresh
  | succ k ih =>
    obtain ⟨ih2, ih3, ihT⟩ := ih
    have halgk : (afterGets k b0).algor ≠ RoundRobinBasic := by rw [afterGets_algor]; exact halg
    have hkeep := afterGets_weighted_keeps b0 halg k
    have hexk := exists_pos_of_map_weight_eq _ _ hkeep.1 hex
    have hWk := weightTotal_congr _ _ hkeep.1
    have hT0 : 0 ≤ currentTotal (afterGets k b0).cluster := by
      rw [ihT]; split <;> omega
    have hTW : currentTotal (afterGets k b0).cluster ≤ weightTotal (afterGets k b0).cluster := by
      rw [ihT, hWk]; split <;> omega
    obtain ⟨_, _, _, _, _, _, hs1, hs2, hs3⟩ := weighted_step_of_inv (afterGets k b0) hexk
      (FitsInt_congr _ _ hkeep.1 hfit) hT0 hTW ih2 (by rw [hWk]; exact ih3)
    have hnext : afterGets (k + 1) b0 = (getByWeightedRoundRobin (afterGets k b0)).1 := by
      rw [afterGets, Get_of_weighted _ halgk]
    rw [hWk] at hs2 hs3
    refine ⟨?_, ?_, ?_⟩
    · rw [hnext]; exact hs1
    · rw [hnext]; exact hs2
    · rw [if_neg (Nat.succ_ne_zero k), hnext]
      exact hs3

/-- From the first call on, under the width condition, the accumulators of the
entries of positive weight add up to the sum of the positive weights. -/
theorem currentTotal_afterGets (b0 : RoundRobinBalancer) (halg : b0.algor ≠ RoundRobinBasic)
    (hex : ∃ e ∈ b0.cluster, 0 < e.weight) (hfresh : ∀ e ∈ b0.cluster, e.current = 0)
    (hfit : FitsInt b0.cluster) (k : Nat) :
    currentTotal (afterGets (k + 1) b0).cluster = weightTotal b0.cluster := by
  have := (weighted_run_invariant b0 halg hex hfresh hfit (k + 1)).2.2
  rwa [if_neg (Nat.succ_ne_zero k)] at this

/-- Call number `k` of a run of weighted calls from a state whose accumulators
are all 0, under the width condition: its winner, its result and the state it
leaves, which is that of the exact step. -/
theorem weighted_call_spec (b0 : RoundRobinBalancer) (halg : b0.algor ≠ RoundRobinBasic)
    (hex : ∃ e ∈ b0.cluster, 0 < e.weight) (hfresh : ∀ e ∈ b0.cluster, e.current = 0)
    (hfit : FitsInt b0.cluster) (k : Nat) :
    ∃ (win : Nat) (e : RoundRobinEndpoint),
      (afterGets k b0).cluster[win]? = some e ∧ 0 < e.weight
      ∧ (∀ e1 ∈ (afterGets k b0).cluster, 0 < e1.weight → e1.current ≤ e.current)
      ∧ nthGet k b0 = GetResult.ok win e.endpoint
      ∧ (afterGets (k + 1) b0).cluster
          = subCurrentZ ((afterGets k b0).cluster.map addWeightZ) win
              (currentTotal (afterGets k b0).cluster) := by
  have halgk : (afterGets k b0).algor ≠ RoundRobinBasic := by rw [afterGets_algor]; exact halg
  have hkeep := afterGets_weighted_keeps b0 halg k
  have hexk := exists_pos_of_map_weight_eq _ _ hkeep.1 hex
  have hWk := weightTotal_congr _ _ hkeep.1
  obtain ⟨ih2, ih3, ihT⟩ := weighted_run_invariant b0 halg hex hfresh hfit k
  have hW := weightTotal_pos b0.cluster hex
  have hT0 : 0 ≤ currentTotal (afterGets k b0).cluster := by
    rw [ihT]; split <;> omega
  have hTW : currentTotal (afterGets k b0).cluster ≤ weightTotal (afterGets k b0).cluster := by
    rw [ihT, hWk]; split <;> omega
  obtain ⟨win, e, h1, h2, h3, h5, _⟩ := weighted_step_of_inv (afterGets k b0) hexk
    (FitsInt_congr _ _ hkeep.1 hfit) hT0 hTW ih2 (by rw [hWk]; exact ih3)
  refine ⟨win, e, h1, h2, h3, ?_, ?_⟩
  · rw [nthGet, Get_of_weighted _ halgk, h5]
  · rw [afterGets, Get_of_weighted _ halgk, h5]

/-- C15, as the code has it: for a configuration with at least one entry of
positive weight and a weighted `Algor`, with `W` the sum of the positive
weights and `n` the number of entries of positive weight, such that an `int`
holds `n*W + weight` for every entry (`FitsInt`), in the state after any
number `k` of calls every entry's `current` satisfies
`-W < current <= n*W`, and `current < n*W` when `n >= 2`; the `total` a call
ends with is 0 on the first call and `W` afterwards, and the running `total`
after any number `i` of entries of the loop lies in `[-n*W, n*W]`. -/
theorem weighted_current_bounds (config : BalancerConfig)
    (halg : config.Algor ≠ "round_robin") (hex : ∃ c ∈ config.Endpoints, 0 < c.Weight)
    (hfit : FitsInt (NewRoundRobinBalancer config).cluster) (k : Nat) :
    (∀ e ∈ (afterGets k (NewRoundRobinBalancer config)).cluster,
      -weightTotal (NewRoundRobinBalancer config).cluster < e.current
      ∧ e.current ≤ ((NewRoundRobinBalancer config).cluster.countP eligible : Int)
          * weightTotal (NewRoundRobinBalancer config).cluster
      ∧ (2 ≤ (NewRoundRobinBalancer config).cluster.countP eligible →
          e.current < ((NewRoundRobinBalancer config).cluster.countP eligible : Int)
            * weightTotal (NewRoundRobinBalancer config).cluster))
    ∧ (weightedLoop (afterGets k (NewRoundRobinBalancer config)).cluster 0 none 0 0).total
        = (if k = 0 then 0 else weightTotal (NewRoundRobinBalancer config).cluster)
    ∧ ∀ i : Nat,
        -(((NewRoundRobinBalancer config).cluster.countP eligible : Int)
            * weightTotal (NewRoundRobinBalancer config).cluster)
          ≤ (weightedLoop ((afterGets k (NewRoundRobinBalancer config)).cluster.take i)
              0 none 0 0).total
        ∧ (weightedLoop ((afterGets k (NewRoundRobinBalancer config)).cluster.take i)
              0 none 0 0).total
          ≤ ((NewRoundRobinBalancer config).cluster.countP eligible : Int)
              * weightTotal (NewRoundRobinBalancer config).cluster := by
  have halg0 : (NewRoundRobinBalancer config).algor ≠ RoundRobinBasic := by
    simp [NewRoundRobinBalancer, halg, RoundRobinBasic, WeightedRoundRobinSmooth]
  have hex0 := NewRoundRobinBalancer_exists_pos config hex
  have hfresh : ∀ e ∈ (NewRoundRobinBalancer config).cluster, e.current = 0 := by
    intro e he
    obtain ⟨c, _, rfl⟩ := List.mem_map.1 he
    rfl
  obtain ⟨h2, h3, hT⟩ := weighted_run_invariant _ halg0 hex0 hfresh hfit k
  have hnWmax : ((NewRoundRobinBalancer config).cluster.countP eligible : Int)
      * weightTotal (NewRoundRobinBalancer config).cluster ≤ maxInt := by
    obtain ⟨e, he, hpos⟩ := hex0
    have := hfit e he
    omega
  have hmin := minInt_eq
  have hkeep := afterGets_weighted_keeps _ halg0 k
  have hn := countP_eligible_congr _ _ hkeep.1
  generalize hWdef : weightTotal (NewRoundRobinBalancer config).cluster = W at *
  generalize hndef : (NewRoundRobinBalancer config).cluster.countP eligible = n at *
  generalize hcl : (afterGets k (NewRoundRobinBalancer config)).cluster = cl at *
  have hW : 1 ≤ W := by
    have := weightTotal_pos _ hex0
    rw [hWdef] at this
    omega
  have hn1 : 1 ≤ n := by
    have := countP_eligible_pos _ hex0
    rw [hndef] at this
    omega
  have hnW : (n : Int) ≤ (n : Int) * W := by
    have : (n : Int) * 1 ≤ (n : Int) * W := mul_le_mul_of_nonneg_left hW (Int.natCast_nonneg _)
    linarith
  have hS : currentTotal cl ≤ W := by
    rw [hT]; split <;> omega
  have hlo : ∀ e1 ∈ cl, 0 < e1.weight → -W + 1 ≤ e1.current := by
    intro e1 he1 hp
    have := h3 e1 he1 hp
    omega
  have hnW1 : W ≤ (n : Int) * W := by
    have h1n : (1 : Int) ≤ (n : Int) := by exact_mod_cast hn1
    have : 1 * W ≤ (n : Int) * W := mul_le_mul_of_nonneg_right h1n (by omega)
    linarith
  refine ⟨?_, ?_, ?_⟩
  · intro e he
    by_cases hpos : 0 < e.weight
    · have hup := current_add_le_currentTotal cl (-W + 1) hlo e he hpos
      rw [hn] at hup
      have hb := bound_arith n (n - 1) W (currentTotal cl) e.current hW (le_refl _) hS hup
      refine ⟨h3 e he hpos, ?_, ?_⟩
      · have : (1 : Int) ≤ (n : Int) := by exact_mod_cast hn1
        linarith
      · intro h2n
        have : (2 : Int) ≤ (n : Int) := by exact_mod_cast h2n
        linarith
    · rw [h2 e he hpos]
      have : (1 : Int) ≤ (n : Int) := by exact_mod_cast hn1
      refine ⟨by omega, by linarith, fun _ => by linarith⟩
  · rw [weightedLoop_total _ _ _ _ _ wrapInt_zero, zero_add, hT]
    apply wrapInt_of_fits
    · split <;> omega
    · split <;> omega
  · intro i
    suffices hbnd : -((n : Int) * W) ≤ currentTotal (cl.take i)
        ∧ currentTotal (cl.take i) ≤ (n : Int) * W by
      rw [weightedLoop_total _ _ _ _ _ wrapInt_zero, zero_add,
        wrapInt_of_fits _ (by omega) (by omega)]
      exact hbnd
    have hsplit : currentTotal cl = currentTotal (cl.take i) + currentTotal (cl.drop i) := by
      rw [← currentTotal_append, List.take_append_drop]
    have hcount : (cl.take i).countP eligible + (cl.drop i).countP eligible = n := by
      rw [← List.countP_append, List.take_append_drop, hn]
    have hlo_take := currentTotal_ge (cl.take i) (-W + 1)
      (fun e1 he1 => hlo e1 (List.mem_of_mem_take he1))
    have hlo_drop := currentTotal_ge (cl.drop i) (-W + 1)
      (fun e1 he1 => hlo e1 (List.mem_of_mem_drop he1))
    have hpn : ((cl.take i).countP eligible : Int) ≤ (n : Int) := by
      have : (cl.take i).countP eligible ≤ n := by omega
      exact_mod_cast this
    refine ⟨?_, ?_⟩
    · have h1 : (n : Int) * (-W + 1) ≤ ((cl.take i).countP eligible : Int) * (-W + 1) :=
        mul_le_mul_of_nonpos_right hpn (by omega)
      have hn0 : (0 : Int) ≤ (n : Int) := Int.natCast_nonneg _
      linarith
    · by_cases hz : (cl.take i).countP eligible = 0
      · rw [currentTotal_eq_zero_of_countP _ hz]
        have hn0 : (0 : Int) ≤ (n : Int) := Int.natCast_nonneg _
        linarith
      · have hp : ((cl.drop i).countP eligible : Int) ≤ (n : Int) - 1 := by
          have : (cl.drop i).countP eligible + 1 ≤ n := by omega
          have h' : (((cl.drop i).countP eligible + 1 : Nat) : Int) ≤ (n : Int) := by
            exact_mod_cast this
          push_cast at h'
          linarith
        have hb := bound_arith n ((cl.drop i).countP eligible) W (currentTotal cl)
          (currentTotal (cl.take i)) hW hp hS (by linarith)
        have : (1 : Int) ≤ (n : Int) := by exact_mod_cast hn1
        linarith

theorem weighted_current_bounds_witness :
    (exampleABC "weighted_round_robin").Algor ≠ "round_robin"
    ∧ FitsInt (NewRoundRobinBalancer (exampleABC "weighted_round_robin")).cluster
    ∧ (afterGets 5 (NewRoundRobinBalancer (exampleABC "weighted_round_robin"))).cluster.map
        (fun e => e.current) = [3, 4, -1]
    ∧ weightTotal (NewRoundRobinBalancer (exampleABC "weighted_round_robin")).cluster = 6
    ∧ ∀ e ∈ (afterGets 5 (NewRoundRobinBalancer (exampleABC "weighted_round_robin"))).cluster,
      -weightTotal (NewRoundRobinBalancer (exampleABC "weighted_round_robin")).cluster
        < e.current
      ∧ e.current
        ≤ ((NewRoundRobinBalancer (exampleABC "weighted_round_robin")).cluster.countP eligible
            : Int)
          * weightTotal (NewRoundRobinBalancer (exampleABC "weighted_round_robin")).cluster
      ∧ (2 ≤ (NewRoundRobinBalancer (exampleABC "weighted_round_robin")).cluster.countP eligible
          → e.current
            < ((NewRoundRobinBalancer (exampleABC "weighted_round_robin")).cluster.countP
                eligible : Int)
              * weightTotal (NewRoundRobinBalancer (exampleABC "weighted_round_robin")).cluster) :=
  ⟨by decide, by unfold FitsInt; decide, by decide, by decide,
    (weighted_current_bounds (exampleABC "weighted_round_robin") (by decide)
      ⟨⟨"A", "a:1", 3⟩, by decide, by decide⟩ (by unfold FitsInt; decide) 5).1⟩

/-- C15 as stated fails in two ways. For a single entry of positive weight: on
the configuration `A:3` (`W = 3`, `n = 1`) the state after the first weighted
call has `current = 3 = n*W`, so `current < n*W` does not hold. And where the
additions overflow: with two endpoints of weight `2^62` (`W = 2^63`, more than
an `int` holds) the state after the second call has `current = -2^63 = -W` at
`B`, so `-W < current` does not hold. -/
theorem weighted_strict_bound_fails :
    (exampleSingle.Algor ≠ "round_robin"
      ∧ weightTotal (NewRoundRobinBalancer exampleSingle).cluster = 3
      ∧ (NewRoundRobinBalancer exampleSingle).cluster.countP eligible = 1
      ∧ (afterGets 1 (NewRoundRobinBalancer exampleSingle)).cluster.map (fun e => e.current)
          = [3]
      ∧ ¬ ∀ e ∈ (afterGets 1 (NewRoundRobinBalancer exampleSingle)).cluster,
          -weightTotal (NewRoundRobinBalancer exampleSingle).cluster < e.current
          ∧ e.current
            < ((NewRoundRobinBalancer exampleSingle).cluster.countP eligible : Int)
              * weightTotal (NewRoundRobinBalancer exampleSingle).cluster)
    ∧ (exampleHalf.Algor ≠ "round_robin"
      ∧ weightTotal (NewRoundRobinBalancer exampleHalf).cluster = 9223372036854775808
      ∧ (NewRoundRobinBalancer exampleHalf).cluster.countP eligible = 2
      ∧ (afterGets 2 (NewRoundRobinBalancer exampleHalf)).cluster.map (fun e => e.current)
          = [0, -9223372036854775808]
      ∧ ¬ ∀ e ∈ (afterGets 2 (NewRoundRobinBalancer exampleHalf)).cluster,
          -weightTotal (NewRoundRobinBalancer exampleHalf).cluster < e.current
          ∧ e.current
            < ((NewRoundRobinBalancer exampleHalf).cluster.countP eligible : Int)
              * weightTotal (NewRoundRobinBalancer exampleHalf).cluster) := by
  decide

/-! ## The weighted strategy: the period of a run -/

theorem callsAfterFirst_succ (k : Nat) (b : RoundRobinBalancer) :
    callsAfterFirst (k + 1) b = callsAfterFirst k b ++ [nthGet (k + 1) b] := by
  simp [callsAfterFirst, List.range_succ]

theorem timesReturned_append_ok (j : Nat) (rs : List GetResult) (win : Nat) (e : Endpoint) :
    timesReturned j (rs ++ [GetResult.ok win e])
      = timesReturned j rs + if win = j then 1 else 0 := by
  by_cases h : win = j
  · simp [timesReturned, GetResult.idx?, h]
  · have h1 : ¬ j = win := fun hc => h hc.symm
    simp [timesReturned, GetResult.idx?, h, h1, List.count_singleton]

/-- The state of a run of weighted calls on a fresh cluster whose weights are
all positive: after call number `k` the entry at position `j` has
`current = (k + 1) * weight - W * c`, where `c` counts how often position `j`
was returned by the calls number 1 to `k`. -/
theorem weighted_state_formula (b0 : RoundRobinBalancer) (halg : b0.algor ≠ RoundRobinBasic)
    (hne : b0.cluster ≠ []) (hall : ∀ e ∈ b0.cluster, 0 < e.weight)
    (hfresh : ∀ e ∈ b0.cluster, e.current = 0) (hfit : FitsInt b0.cluster)
    (k : Nat) :
    ∀ j : Nat, (afterGets (k + 1) b0).cluster[j]?
      = (b0.cluster[j]?).map fun e =>
          { e with
            current := ((k : Int) + 1) * e.weight
              - weightTotal b0.cluster * (timesReturned j (callsAfterFirst k b0) : Int) } := by
  have hex : ∃ e ∈ b0.cluster, 0 < e.weight := by
    cases hcl : b0.cluster with
    | nil => exact absurd hcl hne
    | cons x rest =>
      exact ⟨x, List.mem_cons_self _ _, hall x (by rw [hcl]; exact List.mem_cons_self _ _)⟩
  induction k with
  | zero =>
    intro j
    obtain ⟨win, e, _, _, _, _, hcl⟩ := weighted_call_spec b0 halg hex hfresh hfit 0
    rw [show afterGets 0 b0 = b0 from rfl] at hcl
    rw [hcl, subCurrentZ_getElem?, List.getElem?_map,
      currentTotal_eq_zero_of_current _ hfresh]
    cases hj : b0.cluster[j]? with
    | none => rfl
    | some e0 =>
      have hmem : e0 ∈ b0.cluster := List.mem_iff_getElem?.2 ⟨_, hj⟩
      simp only [Option.map_some', addWeightZ_of_pos e0 (hall e0 hmem), hfresh e0 hmem,
        callsAfterFirst, List.range_zero, List.map_nil, timesReturned, List.count_nil]
      congr 1
      by_cases hw : win = j <;> simp [hw]
  | succ k ih =>
    intro j
    obtain ⟨win, e, _, _, _, hres, hcl⟩ := weighted_call_spec b0 halg hex hfresh hfit (k + 1)
    rw [hcl, subCurrentZ_getElem?, List.getElem?_map, ih j, currentTotal_afterGets b0 halg hex hfresh hfit k,
      callsAfterFirst_succ, hres, timesReturned_append_ok]
    cases hj : b0.cluster[j]? with
    | none => rfl
    | some e0 =>
      have hmem : e0 ∈ b0.cluster := List.mem_iff_getElem?.2 ⟨_, hj⟩
      have hpos := hall e0 hmem
      simp only [Option.map_some']
      rw [addWeightZ_of_pos _ (show 0 < ({ e0 with
        current := ((k : Int) + 1) * e0.weight
          - weightTotal b0.cluster * (timesReturned j (callsAfterFirst k b0) : Int) }
          : RoundRobinEndpoint).weight from hpos)]
      congr 1
      by_cases hw : win = j
      · simp only [hw, if_true]
        congr 1
        push_cast
        ring
      · simp only [hw, if_false]
        congr 1
        push_cast
        ring

/-- In the first `W` calls after the first one, no position is returned more
often than its weight: a winner that had already been returned `weight` times
would hold a `current <= 0`, while the greatest `current` is positive. -/
theorem weighted_count_le (b0 : RoundRobinBalancer) (halg : b0.algor ≠ RoundRobinBasic)
    (hne : b0.cluster ≠ []) (hall : ∀ e ∈ b0.cluster, 0 < e.weight)
    (hfresh : ∀ e ∈ b0.cluster, e.current = 0) (hfit : FitsInt b0.cluster) :
    ∀ k : Nat, (k : Int) ≤ weightTotal b0.cluster →
      ∀ (j : Nat) (e0 : RoundRobinEndpoint), b0.cluster[j]? = some e0 →
        (timesReturned j (callsAfterFirst k b0) : Int) ≤ e0.weight := by
  have hex : ∃ e ∈ b0.cluster, 0 < e.weight := by
    cases hcl : b0.cluster with
    | nil => exact absurd hcl hne
    | cons x rest =>
      exact ⟨x, List.mem_cons_self _ _, hall x (by rw [hcl]; exact List.mem_cons_self _ _)⟩
  intro k
  induction k with
  | zero =>
    intro _ j e0 hj
    have := hall e0 (List.mem_iff_getElem?.2 ⟨_, hj⟩)
    simp only [callsAfterFirst, List.range_zero, List.map_nil, timesReturned, List.count_nil,
      Nat.cast_zero]
    omega
  | succ k ih =>
    intro hk j e0 hj
    have hk1 : (k : Int) ≤ weightTotal b0.cluster := by push_cast at hk; omega
    have ihj := ih hk1 j e0 hj
    obtain ⟨win, e, h1, _, h3, hres, _⟩ := weighted_call_spec b0 halg hex hfresh hfit (k + 1)
    rw [callsAfterFirst_succ, hres, timesReturned_append_ok]
    by_cases hw : win = j
    · subst hw
      rw [if_pos rfl]
      have hform := weighted_state_formula b0 halg hne hall hfresh hfit k win
      rw [h1, hj] at hform
      simp only [Option.map_some', Option.some.injEq] at hform
      have hcur : e.current = ((k : Int) + 1) * e0.weight
          - weightTotal b0.cluster * (timesReturned win (callsAfterFirst k b0) : Int) := by
        rw [hform]
      have hTpos : 0 < currentTotal (afterGets (k + 1) b0).cluster := by
        rw [currentTotal_afterGets b0 halg hex hfresh hfit k]
        exact weightTotal_pos _ hex
      have hmax := (max_current_nonneg _ e.current h3).2 hTpos
      have hw0 := hall e0 (List.mem_iff_getElem?.2 ⟨_, hj⟩)
      by_contra hcon
      have hge : e0.weight ≤ (timesReturned win (callsAfterFirst k b0) : Int) := by
        push_cast at hcon
        omega
      have hW0 : 0 ≤ weightTotal b0.cluster := by
        have := weightTotal_pos _ hex
        omega
      have hm1 : weightTotal b0.cluster * e0.weight
          ≤ weightTotal b0.cluster * (timesReturned win (callsAfterFirst k b0) : Int) :=
        mul_le_mul_of_nonneg_left hge hW0
      have hm2 : ((k : Int) + 1) * e0.weight ≤ weightTotal b0.cluster * e0.weight := by
        push_cast at hk
        exact mul_le_mul_of_nonneg_right hk (by omega)
      rw [hcur] at hmax
      linarith
    · rw [if_neg hw, Nat.add_zero]
      exact ihj

theorem sum_timesReturned (N : Nat) (rs : List GetResult)
    (h : ∀ r ∈ rs, ∃ (j : Nat) (e : Endpoint), j < N ∧ r = GetResult.ok j e) :
    Finset.sum (Finset.range N) (fun j => timesReturned j rs) = rs.length := by
  induction rs with
  | nil => simp [timesReturned]
  | cons r rest ih =>
    obtain ⟨j0, e, hj0, rfl⟩ := h r (List.mem_cons_self _ _)
    have hstep : ∀ j, timesReturned j (GetResult.ok j0 e :: rest)
        = timesReturned j rest + if j0 = j then 1 else 0 := by
      intro j
      by_cases hj : j0 = j
      · simp [timesReturned, GetResult.idx?, hj]
      · have h1 : ¬ j = j0 := fun hc => hj hc.symm
        simp [timesReturned, GetResult.idx?, hj, h1, List.count_cons]
    simp only [hstep, Finset.sum_add_distrib, List.length_cons]
    rw [ih (fun r hr => h r (List.mem_cons_of_mem _ hr)), Finset.sum_ite_eq]
    simp [hj0]

theorem list_sum_eq_sum_range (l : List Int) :
    l.sum = Finset.sum (Finset.range l.length) (fun j => l.getD j 0) := by
  induction l with
  | nil => simp
  | cons x rest ih =>
    rw [List.length_cons, Finset.sum_range_succ', List.sum_cons, ih]
    simp only [List.getD_cons_succ, List.getD_cons_zero]
    omega

theorem weightTotal_of_all_pos (cl : RoundRobinCluster) (hall : ∀ e ∈ cl, 0 < e.weight) :
    weightTotal cl = (cl.map fun e => e.weight).sum := by
  have : cl.filter eligible = cl := by
    rw [List.filter_eq_self]
    intro e he
    simpa [eligible] using hall e he
  rw [weightTotal, this]

theorem balancer_ext (b1 b2 : RoundRobinBalancer) (h1 : b1.algor = b2.algor)
    (h2 : b1.cluster = b2.cluster) (h3 : b1.next = b2.next) : b1 = b2 := by
  cases b1
  cases b2
  simp only at h1 h2 h3
  subst h1 h2 h3
  rfl

theorem afterGets_add_period (b0 : RoundRobinBalancer) (p : Nat)
    (h : afterGets (p + 1) b0 = afterGets 1 b0) :
    ∀ k : Nat, afterGets (k + 1 + p) b0 = afterGets (k + 1) b0 := by
  intro k
  induction k with
  | zero =>
    rw [show 0 + 1 + p = p + 1 by omega]
    exact h
  | succ k ih =>
    rw [show k + 1 + 1 + p = (k + 1 + p) + 1 by omega, afterGets, ih]
    rfl

/-- A run of weighted calls on a fresh cluster whose weights are all positive,
with `W` the sum of the weights: the `W` calls after the first return each
position as often as its weight says, and bring the state back to the one the
first call left. -/
theorem weighted_period (b0 : RoundRobinBalancer) (halg : b0.algor ≠ RoundRobinBasic)
    (hne : b0.cluster ≠ []) (hall : ∀ e ∈ b0.cluster, 0 < e.weight)
    (hfresh : ∀ e ∈ b0.cluster, e.current = 0) (hfit : FitsInt b0.cluster) :
    (∀ (j : Nat) (e0 : RoundRobinEndpoint), b0.cluster[j]? = some e0 →
      (timesReturned j (callsAfterFirst (weightTotal b0.cluster).toNat b0) : Int) = e0.weight)
    ∧ afterGets ((weightTotal b0.cluster).toNat + 1) b0 = afterGets 1 b0 := by
  have hex : ∃ e ∈ b0.cluster, 0 < e.weight := by
    cases hcl : b0.cluster with
    | nil => exact absurd hcl hne
    | cons x rest =>
      exact ⟨x, List.mem_cons_self _ _, hall x (by rw [hcl]; exact List.mem_cons_self _ _)⟩
  have hWpos := weightTotal_pos _ hex
  have hWn : ((weightTotal b0.cluster).toNat : Int) = weightTotal b0.cluster :=
    Int.toNat_of_nonneg (by omega)
  have hkeep := afterGets_weighted_keeps b0 halg
  -- every result is a position inside the cluster
  have hres : ∀ r ∈ callsAfterFirst (weightTotal b0.cluster).toNat b0,
      ∃ (j : Nat) (e : Endpoint), j < b0.cluster.length ∧ r = GetResult.ok j e := by
    intro r hr
    obtain ⟨k, _, rfl⟩ := List.mem_map.1 hr
    obtain ⟨win, e, h1, _, _, hr1, _⟩ := weighted_call_spec b0 halg hex hfresh hfit (k + 1)
    refine ⟨win, e.endpoint, ?_, hr1⟩
    have hlen := length_eq_of_map_weight_eq _ _ (hkeep (k + 1)).1
    by_contra hcon
    rw [List.getElem?_eq_none (by omega)] at h1
    simp at h1
  have hsumc := sum_timesReturned b0.cluster.length _ hres
  have hlenc : (callsAfterFirst (weightTotal b0.cluster).toNat b0).length
      = (weightTotal b0.cluster).toNat := by
    simp [callsAfterFirst]
  have hsumw : weightTotal b0.cluster
      = Finset.sum (Finset.range b0.cluster.length)
          (fun j => (b0.cluster.map fun e => e.weight).getD j 0) := by
    rw [weightTotal_of_all_pos _ hall, list_sum_eq_sum_range, List.length_map]
  have hle : ∀ j ∈ Finset.range b0.cluster.length,
      (timesReturned j (callsAfterFirst (weightTotal b0.cluster).toNat b0) : Int)
        ≤ (b0.cluster.map fun e => e.weight).getD j 0 := by
    intro j hj
    have hjN : j < b0.cluster.length := Finset.mem_range.1 hj
    have hget : b0.cluster[j]? = some b0.cluster[j] := List.getElem?_eq_getElem hjN
    have := weighted_count_le b0 halg hne hall hfresh hfit _ (le_of_eq hWn) j _ hget
    simpa [List.getD, hget] using this
  have hsumeq : Finset.sum (Finset.range b0.cluster.length)
        (fun j => (timesReturned j (callsAfterFirst (weightTotal b0.cluster).toNat b0) : Int))
      = Finset.sum (Finset.range b0.cluster.length)
          (fun j => (b0.cluster.map fun e => e.weight).getD j 0) := by
    rw [← hsumw, ← Nat.cast_sum, hsumc, hlenc, hWn]
  have heq := (Finset.sum_eq_sum_iff_of_le hle).1 hsumeq
  have hcount : ∀ (j : Nat) (e0 : RoundRobinEndpoint), b0.cluster[j]? = some e0 →
      (timesReturned j (callsAfterFirst (weightTotal b0.cluster).toNat b0) : Int)
        = e0.weight := by
    intro j e0 hj
    have hjN : j < b0.cluster.length := by
      by_contra hcon
      rw [List.getElem?_eq_none (by omega)] at hj
      simp at hj
    have := heq j (Finset.mem_range.2 hjN)
    simpa [List.getD, hj] using this
  refine ⟨hcount, ?_⟩
  apply balancer_ext
  · rw [afterGets_algor, afterGets_algor]
  · apply List.ext_getElem?
    intro j
    rw [weighted_state_formula b0 halg hne hall hfresh hfit _ j,
      weighted_state_formula b0 halg hne hall hfresh hfit 0 j]
    cases hj : b0.cluster[j]? with
    | none => rfl
    | some e0 =>
      simp only [Option.map_some', Option.some.injEq]
      congr 1
      rw [hcount j e0 hj, hWn]
      simp only [callsAfterFirst, List.range_zero, List.map_nil, timesReturned, List.count_nil]
      push_cast
      ring
  · rw [(hkeep _).2.2, (hkeep _).2.2]

/-- C20, as the code has it: for a non-empty configuration whose weights are
all positive and a weighted `Algor`, with `W` the sum of the weights and `N`
the number of endpoints, such that an `int` holds `N*W + weight` for every
entry (`FitsInt`), on the fresh selector the
`W` calls that follow the first one (calls 2 to `W + 1`) return the entry at
position `i` exactly `weight_i` times; after the first call every `current`
equals its weight, the state after call `W + 1` is that state again, and so
from the second call on states and results repeat with period `W`. -/
theorem weighted_periodic (config : BalancerConfig) (halg : config.Algor ≠ "round_robin")
    (hne : config.Endpoints ≠ []) (hall : ∀ c ∈ config.Endpoints, 0 < c.Weight)
    (hfit : FitsInt (NewRoundRobinBalancer config).cluster) :
    weightTotal (NewRoundRobinBalancer config).cluster
        = (config.Endpoints.map fun c => c.Weight).sum
    ∧ (callsAfterFirst (weightTotal (NewRoundRobinBalancer config).cluster).toNat
          (NewRoundRobinBalancer config)).length
        = (weightTotal (NewRoundRobinBalancer config).cluster).toNat
    ∧ (∀ (i : Nat) (c : EndpointConfig), config.Endpoints[i]? = some c →
        (timesReturned i
            (callsAfterFirst (weightTotal (NewRoundRobinBalancer config).cluster).toNat
              (NewRoundRobinBalancer config)) : Int) = c.Weight)
    ∧ afterGets ((weightTotal (NewRoundRobinBalancer config).cluster).toNat + 1)
          (NewRoundRobinBalancer config)
        = afterGets 1 (NewRoundRobinBalancer config)
    ∧ (∀ e ∈ (afterGets 1 (NewRoundRobinBalancer config)).cluster, e.current = e.weight)
    ∧ ∀ k : Nat, 1 ≤ k →
        afterGets (k + (weightTotal (NewRoundRobinBalancer config).cluster).toNat)
            (NewRoundRobinBalancer config)
          = afterGets k (NewRoundRobinBalancer config)
        ∧ nthGet (k + (weightTotal (NewRoundRobinBalancer config).cluster).toNat)
            (NewRoundRobinBalancer config)
          = nthGet k (NewRoundRobinBalancer config) := by
  have halg0 : (NewRoundRobinBalancer config).algor ≠ RoundRobinBasic := by
    simp [NewRoundRobinBalancer, halg, RoundRobinBasic, WeightedRoundRobinSmooth]
  have hne0 : (NewRoundRobinBalancer config).cluster ≠ [] := by
    simpa [NewRoundRobinBalancer] using hne
  have hall0 : ∀ e ∈ (NewRoundRobinBalancer config).cluster, 0 < e.weight := by
    intro e he
    obtain ⟨c, hc, rfl⟩ := List.mem_map.1 he
    exact hall c hc
  have hfresh : ∀ e ∈ (NewRoundRobinBalancer config).cluster, e.current = 0 := by
    intro e he
    obtain ⟨c, _, rfl⟩ := List.mem_map.1 he
    rfl
  obtain ⟨hcount, hstate⟩ := weighted_period _ halg0 hne0 hall0 hfresh hfit
  have hper := afterGets_add_period _ _ hstate
  refine ⟨?_, by simp [callsAfterFirst], ?_, hstate, ?_, ?_⟩
  · rw [weightTotal_of_all_pos _ hall0]
    simp [NewRoundRobinBalancer, Function.comp_def]
  · intro i c hc
    have hget : (NewRoundRobinBalancer config).cluster[i]?
        = some { weight := c.Weight, current := 0,
                 endpoint := { Name := c.Name, Addr := c.Addr } } := by
      rw [NewRoundRobinBalancer_getElem?, hc]; rfl
    exact hcount i _ hget
  · intro e he
    obtain ⟨j, hj⟩ := List.mem_iff_getElem?.1 he
    rw [weighted_state_formula _ halg0 hne0 hall0 hfresh hfit 0 j] at hj
    cases hc : (NewRoundRobinBalancer config).cluster[j]? with
    | none => rw [hc] at hj; simp at hj
    | some e0 =>
      rw [hc] at hj
      simp only [Option.map_some', Option.some.injEq] at hj
      rw [← hj]
      simp [callsAfterFirst, timesReturned]
  · intro k hk
    obtain ⟨k1, rfl⟩ : ∃ k1, k = k1 + 1 := ⟨k - 1, by omega⟩
    have h1 := hper k1
    exact ⟨h1, by rw [nthGet, h1, nthGet]⟩

theorem weighted_periodic_witness :
    (callsAfterFirst 6 (NewRoundRobinBalancer (exampleABC "weighted_round_robin"))).map
        GetResult.name?
      = [some "A", some "B", some "A", some "C", some "B", some "A"]
    ∧ (exampleABC "weighted_round_robin").Endpoints ≠ []
    ∧ FitsInt (NewRoundRobinBalancer (exampleABC "weighted_round_robin")).cluster
    ∧ (weightTotal (NewRoundRobinBalancer (exampleABC "weighted_round_robin")).cluster
          = ((exampleABC "weighted_round_robin").Endpoints.map fun c => c.Weight).sum
      ∧ (callsAfterFirst
            (weightTotal (NewRoundRobinBalancer (exampleABC "weighted_round_robin")).cluster).toNat
            (NewRoundRobinBalancer (exampleABC "weighted_round_robin"))).length
          = (weightTotal (NewRoundRobinBalancer (exampleABC "weighted_round_robin")).cluster).toNat
      ∧ (∀ (i : Nat) (c : EndpointConfig),
          (exampleABC "weighted_round_robin").Endpoints[i]? = some c →
          (timesReturned i
              (callsAfterFirst
                (weightTotal
                  (NewRoundRobinBalancer (exampleABC "weighted_round_robin")).cluster).toNat
                (NewRoundRobinBalancer (exampleABC "weighted_round_robin"))) : Int) = c.Weight)
      ∧ afterGets
            ((weightTotal
              (NewRoundRobinBalancer (exampleABC "weighted_round_robin")).cluster).toNat + 1)
            (NewRoundRobinBalancer (exampleABC "weighted_round_robin"))
          = afterGets 1 (NewRoundRobinBalancer (exampleABC "weighted_round_robin"))
      ∧ (∀ e ∈ (afterGets 1 (NewRoundRobinBalancer (exampleABC "weighted_round_robin"))).cluster,
          e.current = e.weight)
      ∧ ∀ k : Nat, 1 ≤ k →
          afterGets
              (k + (weightTotal
                (NewRoundRobinBalancer (exampleABC "weighted_round_robin")).cluster).toNat)
              (NewRoundRobinBalancer (exampleABC "weighted_round_robin"))
            = afterGets k (NewRoundRobinBalancer (exampleABC "weighted_round_robin"))
          ∧ nthGet
              (k + (weightTotal
                (NewRoundRobinBalancer (exampleABC "weighted_round_robin")).cluster).toNat)
              (NewRoundRobinBalancer (exampleABC "weighted_round_robin"))
            = nthGet k (NewRoundRobinBalancer (exampleABC "weighted_round_robin"))) :=
  ⟨by decide, by decide, by unfold FitsInt; decide,
    weighted_periodic (exampleABC "weighted_round_robin") (by decide) (by decide) (by decide)
      (by unfold FitsInt; decide)⟩

theorem afterGets_add (a k : Nat) (b : RoundRobinBalancer) :
    afterGets (a + k) b = afterGets k (afterGets a b) := by
  induction k with
  | zero => rfl
  | succ k ih => rw [← Nat.add_assoc, afterGets, ih, afterGets]

theorem afterGets_add_mul_period (a p : Nat) (b : RoundRobinBalancer)
    (h : afterGets (a + p) b = afterGets a b) :
    ∀ j : Nat, afterGets (a + j * p) b = afterGets a b := by
  intro j
  induction j with
  | zero => rw [Nat.zero_mul, Nat.add_zero]
  | succ j ih =>
    rw [Nat.succ_mul, ← Nat.add_assoc, afterGets_add, ih, ← afterGets_add, h]

/-- C20 as stated fails where the additions overflow: with two endpoints of
weight `maxInt` (`W = 2^64 - 2`) the calls return `A, A, A, B, A, B, ...`; from
the second call on the state alternates between two states (`current` values
`0, -2` and `-maxInt, maxInt - 2`), so the state after call `W + 1` is not the
state after call 1, in which every `current` equals its weight. -/
theorem weighted_period_overflows :
    exampleMax.Algor ≠ "round_robin"
    ∧ (∀ c ∈ exampleMax.Endpoints, 0 < c.Weight)
    ∧ weightTotal (NewRoundRobinBalancer exampleMax).cluster = 18446744073709551614
    ∧ (getResults 6 (NewRoundRobinBalancer exampleMax)).map GetResult.name?
        = [some "A", some "A", some "A", some "B", some "A", some "B"]
    ∧ afterGets ((weightTotal (NewRoundRobinBalancer exampleMax).cluster).toNat + 1)
          (NewRoundRobinBalancer exampleMax)
        ≠ afterGets 1 (NewRoundRobinBalancer exampleMax) := by
  refine ⟨by decide, by decide, by decide, by decide, ?_⟩
  have hW : (weightTotal (NewRoundRobinBalancer exampleMax).cluster).toNat + 1
      = 3 + 9223372036854775806 * 2 := by decide
  have hper : afterGets (3 + 2) (NewRoundRobinBalancer exampleMax)
      = afterGets 3 (NewRoundRobinBalancer exampleMax) := by decide
  have h3 := afterGets_add_mul_period 3 2 _ hper 9223372036854775806
  have hne : afterGets 3 (NewRoundRobinBalancer exampleMax)
      ≠ afterGets 1 (NewRoundRobinBalancer exampleMax) := by decide
  rw [hW, h3]
  exact hne

end Balancer
